import Mathlib

/-!
# Job control of the tiny shell (`src/shell.c`)

Shallow embedding of the job table and of the routines that read and mutate it.

* The global array `jobs[MAXJOBS]` is the list of its slots, in index order; a
  `for (i = 0; i < MAXJOBS; i++)` loop that stops at the first slot satisfying a
  test is `firstIdx`, and an assignment to `jobs[i]` is `List.set`.
* `pid_t` and `int` are `Int`; the job counter stays far below `2^31`, so no
  wrap-around is modelled for it.  `atoi` follows the C library (saturation of
  `strtol`, truncation to 32 bits).
* C strings are `String`s; character loops run over `String.toList`.
* `printf` output is accumulated as a `String`, `kill(target, sig)` calls as a
  list of pairs `(target, sig)`.
-/

namespace Tsh

/-! ## Constants -/

/-- Slots in the job table: `#define MAXJOBS 16`. -/
def MAXJOBS : Nat := 16

/-- Job state `UNDEF`. -/
def UNDEF : Int := 0
/-- Job state `FG`: running in foreground. -/
def FG : Int := 1
/-- Job state `BG`: running in background. -/
def BG : Int := 2
/-- Job state `ST`: stopped. -/
def ST : Int := 3

/-- Signal number of `SIGINT` (Linux). -/
def SIGINT : Int := 2
/-- Signal number of `SIGCONT` (Linux). -/
def SIGCONT : Int := 18
/-- Signal number of `SIGTSTP` (Linux). -/
def SIGTSTP : Int := 20

/-! ## Data model -/

/-- The job struct `struct job_t`. -/
structure job_t where
  pid : Int
  jid : Int
  state : Int
  cmdline : String
deriving DecidableEq, Repr

/-- The global variables the job routines use: `jobs`, `nextjid`, `verbose`. -/
structure Shell where
  jobs : List job_t
  nextjid : Int
  verbose : Bool
deriving DecidableEq, Repr

/-- Index of the first slot that passes the test, as found by a
`for (i = 0; i < MAXJOBS; i++) if (test(jobs[i])) ...` loop. -/
def firstIdx (p : job_t → Bool) : List job_t → Option Nat
  | [] => none
  | j :: rest => if p j then some 0 else (firstIdx p rest).map (· + 1)

/-- The value `clearjob` leaves in a slot. -/
def clearjob : job_t := { pid := 0, jid := 0, state := UNDEF, cmdline := "" }

/-- The table after `initjobs`: every slot cleared. -/
def initjobs : List job_t := List.replicate MAXJOBS clearjob

/-- Largest allocated job ID, `maxjid`. -/
def maxjid (jobs : List job_t) : Int :=
  jobs.foldl (fun max j => if j.jid > max then j.jid else max) 0

/-- Result of `addjob`: return value, globals afterwards, text printed. -/
structure AddResult where
  ret : Int
  sh : Shell
  out : String
deriving DecidableEq, Repr

/-- Add a job to the job list, `addjob`. -/
def addjob (s : Shell) (pid : Int) (state : Int) (cmdline : String) : AddResult :=
  if pid < 1 then { ret := 0, sh := s, out := "" }
  else
    match firstIdx (fun j => j.pid == 0) s.jobs with
    | some i =>
      let jid := s.nextjid
      let nextjid1 := s.nextjid + 1
      let nextjid2 := if nextjid1 > (MAXJOBS : Int) then 1 else nextjid1
      { ret := 1,
        sh := { s with
          jobs := s.jobs.set i { pid := pid, jid := jid, state := state, cmdline := cmdline },
          nextjid := nextjid2 },
        out := if s.verbose then
            "Added job [" ++ toString jid ++ "] " ++ toString pid ++ " " ++ cmdline ++ "\n"
          else "" }
    | none => { ret := 0, sh := s, out := "Tried to create too many jobs\n" }

/-- Delete the job whose PID is `pid`, `deletejob`: return value and globals afterwards. -/
def deletejob (s : Shell) (pid : Int) : Int × Shell :=
  if pid < 1 then (0, s)
  else
    match firstIdx (fun j => j.pid == pid) s.jobs with
    | some i =>
      let jobs1 := s.jobs.set i clearjob
      (1, { s with jobs := jobs1, nextjid := maxjid jobs1 + 1 })
    | none => (0, s)

/-- PID of the current foreground job, 0 if no such job: `fgpid`. -/
def fgpid (jobs : List job_t) : Int :=
  match firstIdx (fun j => j.state == FG) jobs with
  | some i => (jobs.getD i clearjob).pid
  | none => 0

/-- Find a job by PID, `getjobpid`: the slot index, `none` for `NULL`. -/
def getjobpid (jobs : List job_t) (pid : Int) : Option Nat :=
  if pid < 1 then none else firstIdx (fun j => j.pid == pid) jobs

/-- Find a job by JID, `getjobjid`: the slot index, `none` for `NULL`. -/
def getjobjid (jobs : List job_t) (jid : Int) : Option Nat :=
  if jid < 1 then none else firstIdx (fun j => j.jid == jid) jobs

/-- Map process ID to job ID, `pid2jid`. -/
def pid2jid (jobs : List job_t) (pid : Int) : Int :=
  if pid < 1 then 0
  else
    match firstIdx (fun j => j.pid == pid) jobs with
    | some i => (jobs.getD i clearjob).jid
    | none => 0

/-- Map job ID to process ID, 0 on error: `jid2pid`. -/
def jid2pid (jobs : List job_t) (jid : Int) : Int :=
  if jid < 1 ∨ jid > 16 then 0
  else
    match firstIdx (fun j => j.jid == jid) jobs with
    | some i => (jobs.getD i clearjob).pid
    | none => 0

/-- Text `listjobs` prints for one slot. -/
def listjob (i : Nat) (j : job_t) : String :=
  if j.pid != 0 then
    "[" ++ toString j.jid ++ "] (" ++ toString j.pid ++ ") " ++
    (if j.state == BG then "Running "
     else if j.state == FG then "Foreground "
     else if j.state == ST then "Stopped "
     else "listjobs: Internal error: job[" ++ toString i ++ "].state=" ++
       toString j.state ++ " ") ++
    j.cmdline
  else ""

/-- Text printed by the `listjobs` loop from slot index `i` on. -/
def listjobsFrom : Nat → List job_t → String
  | _, [] => ""
  | i, j :: rest => listjob i j ++ listjobsFrom (i + 1) rest

/-- Print the job list, `listjobs`. -/
def listjobs (jobs : List job_t) : String := listjobsFrom 0 jobs

/-! ## Parsing the bg/fg reference -/

/-- The C library test `isdigit`. -/
def isdigit (c : Char) : Bool := 48 ≤ c.toNat && c.toNat ≤ 57

/-- The C library test `isspace` (space, and the controls `\t \n \v \f \r`). -/
def isspace (c : Char) : Bool := c.toNat == 32 || (9 ≤ c.toNat && c.toNat ≤ 13)

/-- The loop of `str_isnumber`, with the current value of `isEmpty`. -/
def str_isnumber_loop : List Char → Bool → Int
  | [], isEmpty => if isEmpty then 0 else 1
  | c :: cs, _ => if !isdigit c then 0 else str_isnumber_loop cs false

/-- If the string is a number return 1, otherwise 0: `str_isnumber`. -/
def str_isnumber (str : List Char) : Int := str_isnumber_loop str true

/-- Value of a run of decimal digits read left to right, stopping at the first
character that is not a digit. -/
def digitsValue : List Char → Nat → Nat
  | [], acc => acc
  | c :: cs, acc => if isdigit c then digitsValue cs (acc * 10 + (c.toNat - 48)) else acc

/-- Conversion of a `long` to `int`: the low 32 bits, read as signed. -/
def toInt32 (v : Int) : Int :=
  let m := v % 4294967296
  if m < 2147483648 then m else m - 4294967296

/-- The C library `atoi`, that is `(int) strtol(s, NULL, 10)`: leading white
space, an optional sign, then digits; `strtol` saturates at the bounds of a
64-bit `long` and the cast keeps the low 32 bits. -/
def atoi (s : List Char) : Int :=
  let s1 := s.dropWhile isspace
  let v (cs : List Char) : Int := (digitsValue cs 0 : Int)
  toInt32 (match s1 with
    | '-' :: r => max (- v r) (-9223372036854775808)
    | '+' :: r => min (v r) 9223372036854775807
    | _ => min (v s1) 9223372036854775807)

/-! ## Builtins, handlers and the dispatcher -/

/-- What a call did: globals afterwards, text printed, `kill(target, sig)` calls in
order, and the argument of the call to `waitfg` when there was one. -/
structure Effect where
  sh : Shell
  out : String
  kills : List (Int × Int)
  waitfg : Option Int
deriving DecidableEq, Repr

/-- A call that touches nothing and prints `out`. -/
def Effect.say (s : Shell) (out : String) : Effect :=
  { sh := s, out := out, kills := [], waitfg := none }

/-- The character `jobArgument[0]`: the first character of the reference, or the
terminator when the reference is empty. -/
def argHead (jobArgument : String) : Char := jobArgument.toList.headD (Char.ofNat 0)

/-- The C string at `jobArgument+1`: the reference without its first character.
For an empty reference the pointer is behind the terminator, and the string
found there is `behind`: what follows `argv[1]` in the buffer of `parseline`. -/
def argTail (jobArgument : String) (behind : List Char) : List Char :=
  match jobArgument.toList with
  | [] => behind
  | _ :: rest => rest

/-- The pid `do_bgfg` computes from the reference: `atoi` of the whole reference,
or `jid2pid` of the number behind a leading `%`. -/
def bgfg_pid (jobs : List job_t) (jobArgument : String) (behind : List Char) : Int :=
  let isPID : Bool := if argHead jobArgument == '%' then false else true
  if isPID then atoi jobArgument.toList
  else jid2pid jobs (atoi (argTail jobArgument behind))

/-- The last part of `do_bgfg`, which acts on the job found in slot `i`: the
`bg` branch, or the `fg` branch with its tests of the job's state. -/
def bgfg_act (s : Shell) (bg : Bool) (pid : Int) (i : Nat) : Effect :=
  let j := s.jobs.getD i clearjob
  if bg then
    let s1 : Shell := { s with jobs := s.jobs.set i { j with state := BG } }
    { sh := s1,
      out := "[" ++ toString (pid2jid s1.jobs pid) ++ "] (" ++ toString pid ++ ") " ++
        j.cmdline,
      kills := [(-pid, SIGCONT)],
      waitfg := none }
  else if j.state == BG then
    { sh := { s with jobs := s.jobs.set i { j with state := FG } },
      out := "", kills := [], waitfg := some pid }
  else if j.state == ST then
    { sh := { s with jobs := s.jobs.set i { j with state := FG } },
      out := "", kills := [(-pid, SIGCONT)], waitfg := some pid }
  else Effect.say s ""

/-- Execute the builtin bg and fg commands, `do_bgfg`, with `argv[0]` and
`argv[1]` (and `behind`, which the code reads only when `argv[1]` is empty). -/
def do_bgfg (s : Shell) (argv0 : String) (jobArgument : String) (behind : List Char) :
    Effect :=
  if str_isnumber (argTail jobArgument behind) == 0 then
    Effect.say s (argv0 ++ ": argument must be a PID or %jobid\n")
  else
    let bg : Bool := argv0 == "bg"
    let pid : Int := bgfg_pid s.jobs jobArgument behind
    let job := getjobpid s.jobs pid
    if pid == 0 then
      Effect.say s ("%" ++ toString (atoi (argTail jobArgument behind)) ++ ": No such job\n")
    else
      match job with
      | none => Effect.say s ("(" ++ toString pid ++ "): No such process\n")
      | some i => bgfg_act s bg pid i

/-- What `waitpid` reported about a child, as far as the macros `WIFSIGNALED`,
`WIFSTOPPED`, `WIFEXITED`, `WTERMSIG` and `WSTOPSIG` tell. -/
inductive WaitStatus where
  | exited (code : Nat)
  | signaled (sig : Nat)
  | stopped (sig : Nat)
deriving DecidableEq, Repr

/-- The macro `WIFSIGNALED`. -/
def WIFSIGNALED : WaitStatus → Bool
  | .signaled _ => true
  | _ => false

/-- The macro `WIFSTOPPED`. -/
def WIFSTOPPED : WaitStatus → Bool
  | .stopped _ => true
  | _ => false

/-- The macro `WIFEXITED`. -/
def WIFEXITED : WaitStatus → Bool
  | .exited _ => true
  | _ => false

/-- One pass through the body of the `while` loop of `sigchld_handler`, for a
child `pid` with the given status: globals afterwards and text printed; `none`
when the code dereferences the `NULL` that `getjobpid` returned. -/
def sigchld_body (s : Shell) (pid : Int) (status : WaitStatus) : Option (Shell × String) :=
  if WIFSIGNALED status then
    some ((deletejob s pid).2,
      "Job [" ++ toString (pid2jid s.jobs pid) ++ "] (" ++ toString pid ++
        ") terminated by signal 2\n")
  else if WIFSTOPPED status then
    match getjobpid s.jobs pid with
    | none => none
    | some i =>
      some ({ s with jobs := s.jobs.set i { s.jobs.getD i clearjob with state := ST } },
        "Job [" ++ toString (pid2jid s.jobs pid) ++ "] (" ++ toString pid ++
          ") stopped by signal 20\n")
  else if WIFEXITED status then
    some ((deletejob s pid).2, "")
  else some (s, "")

/-- The handler `sigchld_handler`, given the successive results of `waitpid`: it
loops while the pid returned is positive. -/
def sigchld_handler (s : Shell) : List (Int × WaitStatus) → Option (Shell × String)
  | [] => some (s, "")
  | (pid, status) :: more =>
    if pid > 0 then
      match sigchld_body s pid status with
      | none => none
      | some (s1, out1) =>
        match sigchld_handler s1 more with
        | none => none
        | some (s2, out2) => some (s2, out1 ++ out2)
    else some (s, "")

/-- How a call of `eval` ends. -/
inductive Outcome where
  /-- The process leaves the shell: `exit`, or the child running `execve`. -/
  | leaves
  /-- The call returns to the read/eval loop. -/
  | returns (e : Effect)
deriving DecidableEq, Repr

/-- The test `builtin_cmd`; `none` when it calls `exit(0)` for `quit`. -/
def builtin_cmd (argv0 : String) : Option Int :=
  if argv0 == "quit" then none
  else if argv0 == "jobs" then some 1
  else if argv0 == "bg" then some 2
  else if argv0 == "fg" then some 3
  else some 0

/-- Evaluate a command line, `eval`, from what `parseline` produced (`argv`, the
background flag `bg`, and `behind`, the text that follows `argv[1]` in its
buffer), the raw line `cmdline` and the value `pid` that `Fork` returns. -/
def eval (s : Shell) (argv : List String) (bg : Bool) (behind : List Char)
    (cmdline : String) (pid : Int) : Outcome :=
  match argv with
  | [] => .returns (Effect.say s "")
  | argv0 :: args =>
    match builtin_cmd argv0 with
    | none => .leaves
    | some cmd =>
      if cmd == 0 then
        if pid ≤ 0 then .leaves
        else
          let r := addjob s pid (if bg then BG else FG) cmdline
          if !bg then
            .returns { sh := r.sh, out := r.out, kills := [], waitfg := some pid }
          else
            let newjobjid := r.sh.nextjid - 1
            .returns { sh := r.sh,
                       out := r.out ++ "[" ++
                         toString (if newjobjid > 0 then newjobjid else (MAXJOBS : Int)) ++
                         "] (" ++ toString pid ++ ") " ++ cmdline,
                       kills := [], waitfg := none }
      else if cmd == 1 then .returns (Effect.say s (listjobs s.jobs))
      else if cmd == 2 || cmd == 3 then
        match args with
        | [] => .returns (Effect.say s (argv0 ++ " command requires PID or %jobid argument\n"))
        | argv1 :: _ => .returns (do_bgfg s argv0 argv1 behind)
      else .returns (Effect.say s "")

/-! ## The job table under `addjob` and `deletejob` -/

/-- A call on the job table. -/
inductive TableOp where
  | add (pid : Int) (state : Int) (cmdline : String)
  | del (pid : Int)
deriving DecidableEq, Repr

/-- The globals after one call. -/
def applyOp (s : Shell) : TableOp → Shell
  | .add pid state cmdline => (addjob s pid state cmdline).sh
  | .del pid => (deletejob s pid).2

/-- The globals after a sequence of calls. -/
def applyOps (s : Shell) (ops : List TableOp) : Shell := ops.foldl applyOp s

/-- The globals at start-up: `initjobs` has run and `nextjid` is 1. -/
def initShell (verbose : Bool) : Shell := { jobs := initjobs, nextjid := 1, verbose := verbose }

/-- States of the table that `addjob` and `deletejob` calls produce from start-up. -/
def TableReachable (s : Shell) : Prop :=
  ∃ (verbose : Bool) (ops : List TableOp), applyOps (initShell verbose) ops = s

/-! ## The shell as a transition system -/

/-- The globals together with the position of the main flow: `waiting` while it
is inside the loop of `waitfg`. -/
structure Sys where
  sh : Shell
  waiting : Bool
deriving DecidableEq, Repr

/-- The steps of the shell. -/
inductive Action where
  /-- The read/eval loop dispatches a command line to `eval`. -/
  | command (argv : List String) (bg : Bool) (behind : List Char) (cmdline : String)
      (pid : Int)
  /-- A `SIGCHLD` is delivered and `sigchld_handler` runs. -/
  | sigchld (events : List (Int × WaitStatus))
  /-- The loop of `waitfg` finds `fgpid(jobs) == 0` and returns. -/
  | waitfgReturn
deriving DecidableEq, Repr

/-- One step; `none` when the step is not possible in this state or the shell
does not survive it. -/
def step (s : Sys) : Action → Option Sys
  | .command argv bg behind cmdline pid =>
    if s.waiting then none
    else
      match eval s.sh argv bg behind cmdline pid with
      | .returns e => some { sh := e.sh, waiting := e.waitfg.isSome }
      | _ => none
  | .sigchld events =>
    match sigchld_handler s.sh events with
    | some (sh1, _) => some { sh := sh1, waiting := s.waiting }
    | none => none
  | .waitfgReturn =>
    if s.waiting && fgpid s.sh.jobs == 0 then some { sh := s.sh, waiting := false }
    else none

/-- A sequence of steps. -/
def run (s : Sys) : List Action → Option Sys
  | [] => some s
  | a :: more =>
    match step s a with
    | some s1 => run s1 more
    | none => none

/-- States the shell reaches from start-up. -/
def Reachable (t : Sys) : Prop :=
  ∃ (verbose : Bool) (acts : List Action),
    run { sh := initShell verbose, waiting := false } acts = some t

/-- Number of slots whose state is `FG`. -/
def countFG (jobs : List job_t) : Nat := (jobs.filter (fun j => j.state == FG)).length

/-! ## Predicates on the table and sample states -/

/-- Every slot in state `FG` holds a pid, so that `fgpid` sees it. -/
def FgHasPid (jobs : List job_t) : Prop := ∀ j ∈ jobs, j.state = FG → j.pid ≠ 0

/-- The invariant of the transition system. -/
def FgInv (t : Sys) : Prop :=
  FgHasPid t.sh.jobs ∧ countFG t.sh.jobs ≤ 1 ∧ (t.waiting = false → countFG t.sh.jobs = 0)

/-- A session: `/bin/sleep 5` is launched in the foreground as pid 100, is
stopped, `waitfg` returns, and `fg %1` brings it back. -/
def fgSession : List Action :=
  [.command ["/bin/sleep", "5"] false [] "/bin/sleep 5\n" 100,
   .sigchld [(100, .stopped 20)],
   .waitfgReturn,
   .command ["fg", "%1"] false [] "fg %1\n" 0]

/-- The state at the end of `fgSession`: slot 0 holds the job, in state `FG`. -/
def fgSessionEnd : Sys :=
  { sh := { jobs := (initjobs.set 0
              { pid := 100, jid := 1, state := FG, cmdline := "/bin/sleep 5\n" }),
            nextjid := 2, verbose := false },
    waiting := true }

/-- What holds of the counter `nextjid` in every state of the table: a free slot
has jid 0, and the counter is either one more than the largest jid, or has wrapped
and counts up from 1 below a largest jid of at least `MAXJOBS`. -/
def CounterInv (s : Shell) : Prop :=
  (∀ j ∈ s.jobs, j.pid = 0 → j.jid = 0) ∧
    (s.nextjid = maxjid s.jobs + 1 ∨
      ((MAXJOBS : Int) ≤ maxjid s.jobs ∧ 1 ≤ s.nextjid ∧ s.nextjid ≤ (MAXJOBS : Int)))

/-- Any two distinct active slots (pid not 0) hold different jids. -/
def JidsDistinct (jobs : List job_t) : Prop :=
  ∀ i k : Nat, i < jobs.length → k < jobs.length → i ≠ k →
    (jobs.getD i clearjob).pid ≠ 0 → (jobs.getD k clearjob).pid ≠ 0 →
    (jobs.getD i clearjob).jid ≠ (jobs.getD k clearjob).jid

/-- Fifteen jobs (pids 101 to 115) are added, the second one is deleted, and two
more jobs (pids 116 and 117) are added. -/
def wrapOps : List TableOp :=
  [.add 101 BG "a\n", .add 102 BG "a\n", .add 103 BG "a\n", .add 104 BG "a\n",
   .add 105 BG "a\n", .add 106 BG "a\n", .add 107 BG "a\n", .add 108 BG "a\n",
   .add 109 BG "a\n", .add 110 BG "a\n", .add 111 BG "a\n", .add 112 BG "a\n",
   .add 113 BG "a\n", .add 114 BG "a\n", .add 115 BG "a\n",
   .del 102, .add 116 BG "a\n", .add 117 BG "a\n"]

/-- The jid the claim expects in the new entry: one more than the largest jid,
or 1 when that exceeds `MAXJOBS`. -/
def claimedJid (jobs : List job_t) : Int :=
  if maxjid jobs + 1 > (MAXJOBS : Int) then 1 else maxjid jobs + 1

/-- Sixteen jobs (pids 101 to 116) fill the table and the first one is deleted. -/
def fillOps : List TableOp :=
  [.add 101 BG "a\n", .add 102 BG "a\n", .add 103 BG "a\n", .add 104 BG "a\n",
   .add 105 BG "a\n", .add 106 BG "a\n", .add 107 BG "a\n", .add 108 BG "a\n",
   .add 109 BG "a\n", .add 110 BG "a\n", .add 111 BG "a\n", .add 112 BG "a\n",
   .add 113 BG "a\n", .add 114 BG "a\n", .add 115 BG "a\n", .add 116 BG "a\n",
   .del 101]

/-- The table after `fillOps`: slot 0 free, jids 2 to 16 in use, `nextjid` 17. -/
def filledShell : Shell := applyOps (initShell false) fillOps

/-- A full table: sixteen background jobs, pids 101 to 116. -/
def fullShell : Shell :=
  applyOps (initShell false)
    [.add 101 BG "a\n", .add 102 BG "a\n", .add 103 BG "a\n", .add 104 BG "a\n",
     .add 105 BG "a\n", .add 106 BG "a\n", .add 107 BG "a\n", .add 108 BG "a\n",
     .add 109 BG "a\n", .add 110 BG "a\n", .add 111 BG "a\n", .add 112 BG "a\n",
     .add 113 BG "a\n", .add 114 BG "a\n", .add 115 BG "a\n", .add 116 BG "a\n"]

/-- Any two distinct slots of which one is active (pid not 0) hold different pids. -/
def PidsDistinct (jobs : List job_t) : Prop :=
  ∀ i k : Nat, i < jobs.length → k < jobs.length → i ≠ k →
    (jobs.getD i clearjob).pid ≠ 0 →
    (jobs.getD i clearjob).pid ≠ (jobs.getD k clearjob).pid

/-- A table with one running background job: `/bin/sleep 60 &`, pid 1234, jid 1. -/
def bgShell : Shell := (addjob (initShell false) 1234 BG "/bin/sleep 60 &\n").sh

/-- A table with one stopped job: `/bin/sleep 60`, pid 1234, jid 1. -/
def stoppedShell : Shell :=
  { jobs := initjobs.set 0 { pid := 1234, jid := 1, state := ST, cmdline := "/bin/sleep 60\n" },
    nextjid := 2, verbose := false }

/-- A non-empty string of decimal digits. -/
def isNumberRef (l : List Char) : Bool := !l.isEmpty && l.all isdigit

/-- The references the claim admits: a raw pid, or `%` followed by a job id. -/
def isWellFormedRef (l : List Char) : Bool :=
  isNumberRef l ||
    (match l with
     | '%' :: r => isNumberRef r
     | _ => false)

/-! ## Interrupt handlers, listing format and further sample states -/

/-- The handler `sigint_handler`: the signals it sends; it leaves the globals alone. -/
def sigint_handler (s : Shell) : Effect :=
  let fgpid_value := fgpid s.jobs
  if fgpid_value != 0 then
    { sh := s, out := "", kills := [(-fgpid_value, SIGINT)], waitfg := none }
  else Effect.say s ""

/-- The handler `sigtstp_handler`: the signals it sends; it leaves the globals alone. -/
def sigtstp_handler (s : Shell) : Effect :=
  let fgpid_value := fgpid s.jobs
  if fgpid_value != 0 then
    { sh := s, out := "", kills := [(-fgpid_value, SIGTSTP)], waitfg := none }
  else Effect.say s ""

/-- The word of the listing for a job state: `Running` for `BG`, `Foreground` for
`FG`, `Stopped` for `ST`. -/
def stateWord (state : Int) : String :=
  if state = BG then "Running " else if state = FG then "Foreground " else "Stopped "

/-- One line of the listing: `[jid] (pid) <word> cmdline`. -/
def jobLine (j : job_t) : String :=
  "[" ++ toString j.jid ++ "] (" ++ toString j.pid ++ ") " ++ stateWord j.state ++ j.cmdline

/-- The listing as described: in slot order, one line for each slot whose pid is
not 0 and nothing for a free slot. -/
def listing : List job_t → String
  | [] => ""
  | j :: rest => (if j.pid = 0 then "" else jobLine j) ++ listing rest

/-- The table after `fillOps` and one more background launch, pid 117: that job
sits in slot 0 with jid 17. -/
def seventeenShell : Shell := (addjob filledShell 117 BG "/bin/sleep 60 &\n").sh

/-- A slot is either free, as `clearjob` leaves it, or active: a pid and a jid of
at least 1 and one of the states `FG`, `BG`, `ST`. -/
def SlotOK (j : job_t) : Prop :=
  j = clearjob ∨ (1 ≤ j.pid ∧ 1 ≤ j.jid ∧ (j.state = FG ∨ j.state = BG ∨ j.state = ST))

/-- Well-formed globals: every slot is free or active and the counter is at least 1. -/
def WellFormed (s : Shell) : Prop := (∀ j ∈ s.jobs, SlotOK j) ∧ 1 ≤ s.nextjid

/-! ## Launches into a full table, and the calls that change the table -/

/-- The start-up state of the shell, not verbose. -/
def startSys : Sys := { sh := initShell false, waiting := false }

/-- A background launch of `/bin/a` whose child gets the given pid. -/
def launch (pid : Int) : Action := .command ["/bin/a"] true [] "/bin/a &\n" pid

/-- Sixteen background launches, pids 101 to 116: they fill the table. -/
def sixteenLaunches : List Action := (List.range 16).map (fun k => launch (101 + (k : Int)))

/-- The table those launches build: sixteen background jobs, pids 101 to 116 with
jids 1 to 16, and `nextjid` back at 1. -/
def crowdedShell : Shell :=
  applyOps (initShell false)
    ((List.range 16).map (fun k => TableOp.add (101 + (k : Int)) BG "/bin/a &\n"))

/-- A call that changes the job table: `addjob`, `deletejob`, and the builtins and
the handler that change the state of a job. -/
inductive TableCall where
  | addjob (pid : Int) (state : Int) (cmdline : String)
  | deletejob (pid : Int)
  | do_bgfg (argv0 : String) (jobArgument : String) (behind : List Char)
  | sigchld_handler (events : List (Int × WaitStatus))
deriving DecidableEq, Repr

/-- The condition on the arguments of a call: `addjob` gets a pid of at least 1
and one of the states `FG`, `BG`, `ST`. -/
def CallOK : TableCall → Prop
  | .addjob pid state _ => 1 ≤ pid ∧ (state = FG ∨ state = BG ∨ state = ST)
  | _ => True

instance (c : TableCall) : Decidable (CallOK c) := by
  cases c <;> unfold CallOK <;> exact inferInstance

/-- The globals after one call; `none` when the handler does not survive. -/
def applyCall (s : Shell) : TableCall → Option Shell
  | .addjob pid state cmdline => some (addjob s pid state cmdline).sh
  | .deletejob pid => some (deletejob s pid).2
  | .do_bgfg argv0 jobArgument behind => some (do_bgfg s argv0 jobArgument behind).sh
  | .sigchld_handler events => (sigchld_handler s events).map (fun r => r.1)

/-- The globals after a sequence of calls. -/
def applyCalls (s : Shell) : List TableCall → Option Shell
  | [] => some s
  | c :: more =>
    match applyCall s c with
    | some s1 => applyCalls s1 more
    | none => none

end Tsh

/-!
# The CART driver (`cart_driver.c`)

Shallow embedding of the file table of the driver and of `find_file`, `cart_open`,
`cart_close`, `cart_seek`, `cart_read` and `cart_write`.

* The global array `VnodeTable[MAX_FILES]` is a function from indices to entries;
  an access at an index outside `0 .. MAX_FILES-1` is outside the array, and a call
  that makes one has no result (`none`).
* A `file_name` is the text in the array up to its first 0 byte, or all
  `MAX_NAME_LENGTH` characters when `strncpy` was given a longer path and left no
  terminator.
* `int16_t` and `int32_t` values are `Int`.  In `find_file`, `cart_open` and
  `cart_close` handles and positions stay far below the bounds of these types.  In
  `cart_seek`, `cart_read` and `cart_write` the conversions between `uint32_t` and
  `int32_t` are explicit, and a sum that leaves the range of `int32_t`, which C
  leaves undefined, gives no result.
* The bus (`cart_io_bus`) is not part of the driver: an `Env` supplies the RT bit of
  the answer to every command the driver sends.
-/

namespace Cart

/-- Size of the array `file_name`: `#define MAX_NAME_LENGTH 136`. -/
def MAX_NAME_LENGTH : Nat := 136

/-- Frames reserved for one file: `#define MAX_FILE_SIZE 102`. -/
def MAX_FILE_SIZE : Int := 102

/-- Entries of `VnodeTable`: `#define MAX_FILES 1030`. -/
def MAX_FILES : Nat := 1030

/-- An entry of the file table, `struct file_handle`. -/
structure file_handle where
  file_name : List Char
  open_status : Int
  used_carts0 : Int
  used_carts1 : Int
  used_carts2 : Int
  file_pos : Int
  file_size : Int
deriving DecidableEq, Repr

/-- The global variables `VnodeTable` and `next_fd`. -/
structure Driver where
  VnodeTable : Nat → file_handle
  next_fd : Int

/-- An entry with every field 0, as `init_VnodeTable` leaves it. -/
def zeroHandle : file_handle :=
  { file_name := [], open_status := 0, used_carts0 := 0, used_carts1 := 0, used_carts2 := 0,
    file_pos := 0, file_size := 0 }

/-- The globals at start-up: a zeroed table and `next_fd = 0`. -/
def initDriver : Driver := { VnodeTable := fun _ => zeroHandle, next_fd := 0 }

/-- The table with entry `i` replaced: an assignment to fields of `VnodeTable[i]`. -/
def setEntry (t : Nat → file_handle) (i : Nat) (x : file_handle) : Nat → file_handle :=
  fun k => if k = i then x else t k

/-- The loop of `find_file` from index `i`, with `fuel` entries left in the array.
It ends with -1 at the first entry whose name is empty, and with -2 or the index
at the first entry whose name equals `filename`.  There is no result when the
loop runs off the array, or when `strcmp` is given a name that has no terminator
and agrees with `filename` on all its characters. -/
def find_file_loop (t : Nat → file_handle) (filename : List Char) : Nat → Nat → Option Int
  | 0, _ => none
  | fuel + 1, i =>
    if (t i).file_name = [] then some (-1)
    else if MAX_NAME_LENGTH ≤ (t i).file_name.length ∧
        filename.take MAX_NAME_LENGTH = (t i).file_name then none
    else if (t i).file_name = filename then
      some (if (t i).open_status ≠ 0 then -2 else (i : Int))
    else find_file_loop t filename fuel (i + 1)

/-- Check the status of a file in the table, `find_file`: -1 when there is none of
that name, -2 when it is open, its index when it is closed. -/
def find_file (d : Driver) (filename : List Char) : Option Int :=
  find_file_loop d.VnodeTable filename MAX_FILES 0

/-- What a driver call returns: the value, the globals afterwards, the text printed. -/
structure Result where
  ret : Int
  d : Driver
  out : String

/-- Open a file, `cart_open`. -/
def cart_open (d : Driver) (path : List Char) : Option Result :=
  match find_file d path with
  | none => none
  | some rt_fd =>
    if rt_fd = -1 then
      if d.next_fd < 0 ∨ (MAX_FILES : Int) ≤ d.next_fd then none
      else
        some { ret := d.next_fd + 1 - 1,
               d := { VnodeTable := setEntry d.VnodeTable d.next_fd.toNat
                        { d.VnodeTable d.next_fd.toNat with
                          file_name := path.take MAX_NAME_LENGTH,
                          open_status := 1,
                          file_pos := 0,
                          file_size := 0,
                          used_carts0 := (d.next_fd + 1) / 10,
                          used_carts1 := (d.next_fd % 10) * MAX_FILE_SIZE },
                      next_fd := d.next_fd + 1 },
               out := "" }
    else if rt_fd = -2 then
      some { ret := -1, d := d, out := "Invalid Command: cannot open a file twice." }
    else if rt_fd < 0 ∨ (MAX_FILES : Int) ≤ rt_fd then none
    else
      some { ret := rt_fd,
             d := { VnodeTable := setEntry d.VnodeTable rt_fd.toNat
                      { d.VnodeTable rt_fd.toNat with open_status := 1, file_pos := 0 },
                    next_fd := d.next_fd },
             out := "" }

/-- Close a file, `cart_close`. -/
def cart_close (d : Driver) (fd : Int) : Option Result :=
  if fd ≥ d.next_fd then some { ret := -1, d := d, out := "Invalide file handler." }
  else if fd < 0 ∨ (MAX_FILES : Int) ≤ fd then none
  else if (d.VnodeTable fd.toNat).open_status = 0 then some { ret := -1, d := d, out := "" }
  else
    some { ret := 0,
           d := { VnodeTable := setEntry d.VnodeTable fd.toNat
                    { d.VnodeTable fd.toNat with open_status := 0, file_pos := 0 },
                  next_fd := d.next_fd },
           out := "" }

/-- The globals after `cart_open` (unchanged when the call has no result). -/
def afterOpen (d : Driver) (path : List Char) : Driver :=
  match cart_open d path with
  | some r => r.d
  | none => d

/-- The globals after `cart_close` (unchanged when the call has no result). -/
def afterClose (d : Driver) (fd : Int) : Driver :=
  match cart_close d fd with
  | some r => r.d
  | none => d

/-- The table as calls of `cart_open` with non-empty names shorter than the name
buffer build it: `next_fd` lies within the array, the entries below `next_fd` have
non-empty, terminated, pairwise different names, and the entries from `next_fd`
on have an empty name. -/
def GoodTable (d : Driver) : Prop :=
  0 ≤ d.next_fd ∧ d.next_fd ≤ (MAX_FILES : Int) ∧
  (∀ i : Nat, (i : Int) < d.next_fd →
    (d.VnodeTable i).file_name ≠ [] ∧ (d.VnodeTable i).file_name.length < MAX_NAME_LENGTH) ∧
  (∀ i k : Nat, (i : Int) < d.next_fd → (k : Int) < d.next_fd →
    (d.VnodeTable i).file_name = (d.VnodeTable k).file_name → i = k) ∧
  (∀ i : Nat, d.next_fd ≤ (i : Int) → (d.VnodeTable i).file_name = [])

/-- The table after `cart_open("a")` at start-up: file `a` is open as handle 0. -/
def oneFileDriver : Driver := afterOpen initDriver "a".toList

/-- The table after `cart_open("")` at start-up: handle 0 has an empty name. -/
def emptyNameDriver : Driver := afterOpen initDriver []

/-- The table after `cart_open("")` and `cart_open("a")`: file `a` is open as
handle 1, behind the entry with the empty name. -/
def shadowedDriver : Driver := afterOpen emptyNameDriver "a".toList

/-! ## Seek, read and write -/

/-- Conversion to `int32_t`: the low 32 bits, read as signed. -/
def toInt32 (v : Int) : Int :=
  let m := v % 4294967296
  if m < 2147483648 then m else m - 4294967296

/-- The value lies in the range of `int32_t`. -/
def inInt32 (v : Int) : Prop := -2147483648 ≤ v ∧ v < 2147483648

instance (v : Int) : Decidable (inInt32 v) := by
  unfold inInt32
  exact inferInstance

/-- Seek to a position in the file, `cart_seek`.  `loc` is a `uint32_t`; the
comparison with `file_size` is made in unsigned 32-bit arithmetic, and the
assignment to `file_pos` converts `loc` to `int32_t`. -/
def cart_seek (d : Driver) (fd : Int) (loc : Nat) : Option Result :=
  if fd ≥ d.next_fd then some { ret := -1, d := d, out := "" }
  else if fd < 0 ∨ (MAX_FILES : Int) ≤ fd then none
  else if (loc : Int) > (d.VnodeTable fd.toNat).file_size % 4294967296 then
    some { ret := -1, d := d, out := "" }
  else if (d.VnodeTable fd.toNat).open_status = 0 then some { ret := -1, d := d, out := "" }
  else
    some { ret := 0,
           d := { VnodeTable := setEntry d.VnodeTable fd.toNat
                    { d.VnodeTable fd.toNat with file_pos := toInt32 (loc : Int) },
                  next_fd := d.next_fd },
           out := "" }

/-- The operations of the CART bus that the driver requests. -/
inductive CartOp where
  | INITMS
  | BZERO
  | LDCART
  | RDFRME
  | WRFRME
  | POWOFF
deriving DecidableEq, Repr

/-- A command for the bus as `Generate_cmd` packs it: the operation and the
registers CT1 (cartridge) and FM1 (frame). -/
structure BusCmd where
  ky1 : CartOp
  ct1 : Int
  fm1 : Int
deriving DecidableEq, Repr

/-- What the environment decides during one driver call: `rt n cmd` is the RT
bit (`getRT`) of the answer of `cart_io_bus` to the command `cmd` sent as bus
operation number `n` of the call (0 means success), and `data_ok n` tells whether
the assertion on buffer contents (`strlen`) that follows bus operation `n`
holds.  The bytes moved are not modelled. -/
structure Env where
  rt : Nat → BusCmd → Int
  data_ok : Nat → Bool

/-- How the loop of `cart_read` or `cart_write` ends. -/
inductive LoopEnd where
  /-- The loop condition failed; the local `filepos` has this value. -/
  | done (filepos : Int)
  /-- A bus operation failed: the function returns -1. -/
  | failed
  /-- An assertion failed, or `strncpy` was given an offset before the frame
  buffer or a negative length. -/
  | stopped
  /-- The passes counted by the fuel did not suffice. -/
  | unfinished
deriving DecidableEq, Repr

/-- The `while (unread != 0)` loop of `cart_read`: `frame0` is `used_carts[1]`,
`n` the number of bus operations made so far.  `/` and `%` of C truncate towards
zero (`Int.tdiv`, `Int.tmod`). -/
def read_loop (env : Env) (frame0 : Int) : Nat → Nat → Int → Int → LoopEnd
  | 0, _, filepos, unread => if unread = 0 then .done filepos else .unfinished
  | fuel + 1, n, filepos, unread =>
    if unread = 0 then .done filepos
    else if unread + Int.tmod filepos 1024 ≤ 1024 then
      if env.rt n { ky1 := .RDFRME, ct1 := 0, fm1 := Int.tdiv filepos 1024 + frame0 } ≠ 0
      then .failed
      else if Int.tmod filepos 1024 < 0 ∨ unread < 0 then .stopped
      else read_loop env frame0 fuel (n + 1) (filepos + unread) 0
    else
      if env.rt n { ky1 := .RDFRME, ct1 := 0, fm1 := Int.tdiv filepos 1024 + frame0 } ≠ 0
      then .failed
      else
        let r_bytes := 1024 - Int.tmod filepos 1024
        if Int.tmod filepos 1024 < 0 then .stopped
        else if Int.tmod (filepos + r_bytes) 1024 ≠ 0 then .stopped
        else read_loop env frame0 fuel (n + 1) (filepos + r_bytes) (unread - r_bytes)

/-- Read `count` bytes from a file, `cart_read`.  There is no result when `fd`
indexes outside the table, when `filepos + count` or `filesize - filepos` leaves
the range of `int32_t` (signed overflow is undefined in C), or when the loop
stops.  The loop is given more passes than it can make: every pass but the last
lowers `unread` by at least 1. -/
def cart_read (d : Driver) (env : Env) (fd : Int) (count : Int) : Option Result :=
  if fd ≥ d.next_fd then some { ret := -1, d := d, out := "" }
  else if fd < 0 ∨ (MAX_FILES : Int) ≤ fd then none
  else if (d.VnodeTable fd.toNat).open_status = 0 then some { ret := -1, d := d, out := "" }
  else if env.rt 0 { ky1 := .LDCART, ct1 := (d.VnodeTable fd.toNat).used_carts0, fm1 := 0 } ≠ 0
  then some { ret := -1, d := d, out := "" }
  else
    let filepos := (d.VnodeTable fd.toNat).file_pos
    let filesize := (d.VnodeTable fd.toNat).file_size
    if ¬ inInt32 (filepos + count) then none
    else
      let count1 := if filepos + count > filesize then filesize - filepos else count
      if ¬ inInt32 count1 then none
      else
        match read_loop env (d.VnodeTable fd.toNat).used_carts1 (count1.toNat + 2) 1 filepos
            count1 with
        | .done fp =>
          some { ret := count1,
                 d := { VnodeTable := setEntry d.VnodeTable fd.toNat
                          { d.VnodeTable fd.toNat with file_pos := fp },
                        next_fd := d.next_fd },
                 out := "" }
        | .failed => some { ret := -1, d := d, out := "" }
        | _ => none

/-- The `while (unwritten != 0)` loop of `cart_write`; every pass reads the frame
and writes it back. -/
def write_loop (env : Env) (frame0 : Int) : Nat → Nat → Int → Int → LoopEnd
  | 0, _, filepos, unwritten => if unwritten = 0 then .done filepos else .unfinished
  | fuel + 1, n, filepos, unwritten =>
    if unwritten = 0 then .done filepos
    else if unwritten + Int.tmod filepos 1024 ≤ 1024 then
      if env.rt n { ky1 := .RDFRME, ct1 := 0, fm1 := Int.tdiv filepos 1024 + frame0 } ≠ 0
      then .failed
      else if Int.tmod filepos 1024 < 0 ∨ unwritten < 0 then .stopped
      else if !env.data_ok n then .stopped
      else if env.rt (n + 1)
          { ky1 := .WRFRME, ct1 := 0, fm1 := Int.tdiv filepos 1024 + frame0 } ≠ 0
      then .failed
      else write_loop env frame0 fuel (n + 2) (filepos + unwritten) 0
    else
      if env.rt n { ky1 := .RDFRME, ct1 := 0, fm1 := Int.tdiv filepos 1024 + frame0 } ≠ 0
      then .failed
      else
        let fp := Int.tmod filepos 1024
        if fp < 0 then .stopped
        else if !env.data_ok n then .stopped
        else if env.rt (n + 1)
            { ky1 := .WRFRME, ct1 := 0, fm1 := Int.tdiv filepos 1024 + frame0 } ≠ 0
        then .failed
        else if Int.tmod (filepos + (1024 - fp)) 1024 ≠ 0 then .stopped
        else write_loop env frame0 fuel (n + 2) (filepos + (1024 - fp)) (unwritten - (1024 - fp))

/-- Write `count` bytes to a file, `cart_write`.  There is no result when `fd`
indexes outside the table, when `filepos + count` leaves the range of `int32_t`
(signed overflow is undefined in C), or when the loop stops. -/
def cart_write (d : Driver) (env : Env) (fd : Int) (count : Int) : Option Result :=
  if fd ≥ d.next_fd then some { ret := -1, d := d, out := "" }
  else if fd < 0 ∨ (MAX_FILES : Int) ≤ fd then none
  else if (d.VnodeTable fd.toNat).open_status = 0 then some { ret := -1, d := d, out := "" }
  else
    let filepos := (d.VnodeTable fd.toNat).file_pos
    let filesize := (d.VnodeTable fd.toNat).file_size
    if env.rt 0 { ky1 := .LDCART, ct1 := (d.VnodeTable fd.toNat).used_carts0, fm1 := 0 } ≠ 0
    then some { ret := -1, d := d, out := "" }
    else if ¬ inInt32 (filepos + count) then none
    else
      let filesize1 := if filepos + count > filesize then filepos + count else filesize
      match write_loop env (d.VnodeTable fd.toNat).used_carts1 (count.toNat + 2) 1 filepos
          count with
      | .done fp =>
        some { ret := count,
               d := { VnodeTable := setEntry d.VnodeTable fd.toNat
                        { d.VnodeTable fd.toNat with file_pos := fp, file_size := filesize1 },
                      next_fd := d.next_fd },
               out := "" }
      | .failed => some { ret := -1, d := d, out := "" }
      | _ => none

/-- An environment in which every bus operation succeeds and every assertion on
buffer contents holds. -/
def okEnv : Env := { rt := fun _ _ => 0, data_ok := fun _ => true }

/-- A call of the driver's interface with its arguments (and, for the calls that
use the bus, with what the environment answers). -/
inductive Call where
  | cart_open (path : List Char)
  | cart_close (fd : Int)
  | cart_seek (fd : Int) (loc : Nat)
  | cart_read (env : Env) (fd : Int) (count : Int)
  | cart_write (env : Env) (fd : Int) (count : Int)

/-- The result of one call. -/
def call (d : Driver) : Call → Option Result
  | .cart_open path => cart_open d path
  | .cart_close fd => cart_close d fd
  | .cart_seek fd loc => cart_seek d fd loc
  | .cart_read env fd count => cart_read d env fd count
  | .cart_write env fd count => cart_write d env fd count

/-- The globals after a sequence of calls that all have a result. -/
def runCalls (d : Driver) : List Call → Option Driver
  | [] => some d
  | c :: cs =>
    match call d c with
    | some r => runCalls r.d cs
    | none => none

/-- A state of the globals that calls of the interface produce from start-up. -/
def DriverReachable (d : Driver) : Prop := ∃ cs, runCalls initDriver cs = some d

/-- Positions and sizes in the table: `next_fd` lies within the array, and every
entry has `0 ≤ file_pos ≤ file_size` within the range of `int32_t`. -/
def PosInv (d : Driver) : Prop :=
  0 ≤ d.next_fd ∧ d.next_fd ≤ (MAX_FILES : Int) ∧
  ∀ i : Nat, 0 ≤ (d.VnodeTable i).file_pos ∧
    (d.VnodeTable i).file_pos ≤ (d.VnodeTable i).file_size ∧
    (d.VnodeTable i).file_size < 2147483648

/-- File `a` open as handle 0 with 3000 bytes, positioned at byte 1000:
`cart_open("a")`, a write of 3000 bytes, `cart_seek(0, 1000)`. -/
def sampleDriver : Driver :=
  (runCalls initDriver
    [.cart_open "a".toList, .cart_write okEnv 0 3000, .cart_seek 0 1000]).getD initDriver

/-- File `a` open as handle 0 with 1 byte, positioned at its end:
`cart_open("a")` and a write of 1 byte. -/
def endOfFileDriver : Driver :=
  (runCalls initDriver [.cart_open "a".toList, .cart_write okEnv 0 1]).getD initDriver

end Cart

/-! # The proxy (`src/proxy/proxy.c`, `src/proxy/cache.c`)

A C string is modelled as the list of its characters before the terminator. -/

namespace Proxy

/-! ## Splitting a URL -/

/-- The library function `strchr` for a character `c` other than the terminator:
`none` when `c` does not occur, else the characters before the first occurrence
and the string that starts at it (what the returned pointer points to). -/
def strchr (c : Char) : List Char → Option (List Char × List Char)
  | [] => none
  | x :: xs =>
    if x = c then some ([], x :: xs)
    else
      match strchr c xs with
      | some (before, found) => some (x :: before, found)
      | none => none

/-- The library function `strncasecmp`, as far as the code uses it: 0 when the
first `n` characters of the two strings agree up to the case of letters. -/
def strncasecmp (a b : List Char) (n : Nat) : Int :=
  if (a.take n).map Char.toLower = (b.take n).map Char.toLower then 0 else 1

/-- What `parse_url` returns, and what it has stored through `host`, `port` and
`path` when it returns 1. -/
inductive ParseResult where
  | returns0
  | returns1 (host port path : List Char)
deriving DecidableEq, Repr

/-- Split a URL, `parse_url`.  There is no result when `strcpy` writes beyond the
1024 bytes of `url_buf`. -/
def parse_url (url : List Char) : Option ParseResult :=
  if 1024 < url.length + 1 then none
  else if strncasecmp url "http://".toList "http://".length ≠ 0 then some .returns0
  else
    let host_ptr := url.drop "http://".length
    let (path, host_ptr1) :=
      match strchr '/' host_ptr with
      | some (before, path_ptr) => (path_ptr, before)
      | none => ("/".toList, host_ptr)
    let (port, host_ptr2) :=
      match strchr ':' host_ptr1 with
      | some (before, port_ptr) => (port_ptr.drop 1, before)
      | none => ("80".toList, host_ptr1)
    some (.returns1 host_ptr2 port path)

/-- A URL of 1024 characters: `http://` and 1017 times `a`. -/
def longUrl : List Char := "http://".toList ++ List.replicate 1017 'a'

/-- The part of a URL that gives the port: `:` and the port, or nothing. -/
def portPart : Option (List Char) → List Char
  | some p => ':' :: p
  | none => []

/-- The part of a URL behind host and port: `/` and the rest, or nothing. -/
def restPart : Option (List Char) → List Char
  | some r => '/' :: r
  | none => []

/-- The URL assembled from its parts: scheme, host, an optional port after `:` and
an optional rest after `/`. -/
def assemble (scheme host : List Char) (port rest : Option (List Char)) : List Char :=
  scheme ++ host ++ portPart port ++ restPart rest

/-- The path that belongs to a URL with the given rest: `/` and the rest, or `/`. -/
def pathOf : Option (List Char) → List Char
  | some r => '/' :: r
  | none => "/".toList

/-! ## The cache

The declarations of `cache.h` are not among the sources.  The two structures are
written here with the fields that `cache.c` uses; the constants `MAX_OBJECT_SIZE`
and `MAX_CACHE_SIZE` are parameters.  Pointers to items are addresses, `none` for
`NULL`; the memory maps the addresses in use to the items stored there. -/

/-- An item of the cache, `CachedItem`.  The object itself (`item_p`) is not
modelled. -/
structure CachedItem where
  url : List Char
  headers : List Char
  size : Nat
  prev : Option Nat
  next : Option Nat
deriving DecidableEq, Repr

/-- The list header, `CacheList`. -/
structure CacheList where
  size : Nat
  first : Option Nat
  last : Option Nat
deriving DecidableEq, Repr

/-- The items in memory and the list header. -/
structure Mem where
  heap : Nat → Option CachedItem
  list : CacheList

/-- How a call ends: with a result, with an access through `NULL` or to a block
that is not in use, or with its loop cut short by the fuel. -/
inductive Exec (α : Type) where
  | ok (a : α)
  | fault
  | outOfFuel

/-- The call ended with an access through `NULL` or to a block not in use. -/
def Exec.faulted {α : Type} : Exec α → Bool
  | .fault => true
  | _ => false

/-- The memory with the block at `a` replaced (`none`: the block is freed). -/
def store (h : Nat → Option CachedItem) (a : Nat) (v : Option CachedItem) :
    Nat → Option CachedItem :=
  fun k => if k = a then v else h k

/-- The assignment `p->next = v`. -/
def setNext (h : Nat → Option CachedItem) (p : Option Nat) (v : Option Nat) :
    Option (Nat → Option CachedItem) :=
  match p with
  | none => none
  | some a =>
    match h a with
    | none => none
    | some it => some (store h a (some { it with next := v }))

/-- The assignment `p->prev = v`. -/
def setPrev (h : Nat → Option CachedItem) (p : Option Nat) (v : Option Nat) :
    Option (Nat → Option CachedItem) :=
  match p with
  | none => none
  | some a =>
    match h a with
    | none => none
    | some it => some (store h a (some { it with prev := v }))

/-- Initialise the list header, `cache_init`. -/
def cache_init (m : Mem) : Mem :=
  { heap := m.heap, list := { size := 0, first := none, last := none } }

/-- The statement that ends both `cache_URL` and `find`: insert `item` at the
front of the list. -/
def insert_front (h : Nat → Option CachedItem) (l : CacheList) (item : Nat) : Option Mem :=
  match l.first with
  | some f =>
    match setNext h (some item) (some f) with
    | none => none
    | some h1 =>
      match setPrev h1 (some f) (some item) with
      | none => none
      | some h2 => some { heap := h2, list := { size := l.size, first := some item, last := l.last } }
  | none =>
    some { heap := h, list := { size := l.size, first := some item, last := some item } }

/-- The loop of `cache_URL` that makes room: while the new object does not fit,
delete the last node.  The type of the field `size` is declared in `cache.h`; a
subtraction that would go below zero is given no result. -/
def evict (MAX_CACHE_SIZE size : Nat) : Nat → Mem → Exec Mem
  | 0, m => if m.list.size + size > MAX_CACHE_SIZE then .outOfFuel else .ok m
  | fuel + 1, m =>
    if m.list.size + size > MAX_CACHE_SIZE then
      match m.list.last with
      | none => .fault
      | some temp_last =>
        match m.heap temp_last with
        | none => .fault
        | some lastItem =>
          if m.list.size < lastItem.size then .fault
          else
            match setNext m.heap lastItem.prev none with
            | none => .fault
            | some h1 =>
              evict MAX_CACHE_SIZE size fuel
                { heap := store h1 temp_last none,
                  list := { size := m.list.size - lastItem.size, first := m.list.first,
                            last := lastItem.prev } }
    else .ok m

/-- Add an item to the cache, `cache_URL`.  `new_item` is the pointer that
`malloc` returns: `NULL`, or the address of a block that was not in use. -/
def cache_URL (MAX_OBJECT_SIZE MAX_CACHE_SIZE : Nat) (fuel : Nat) (m : Mem)
    (URL headers : List Char) (size : Nat) (new_item : Option Nat) : Exec Mem :=
  if size > MAX_OBJECT_SIZE then .ok m
  else
    match new_item with
    | none => .fault
    | some p =>
      match evict MAX_CACHE_SIZE size fuel
          { heap := store m.heap p
              (some { url := URL, headers := headers, size := size, prev := none, next := none }),
            list := m.list } with
      | .ok m1 =>
        match insert_front m1.heap m1.list p with
        | none => .fault
        | some m2 =>
          .ok { heap := m2.heap,
                list := { size := m2.list.size + size, first := m2.list.first,
                          last := m2.list.last } }
      | .fault => .fault
      | .outOfFuel => .outOfFuel

/-- The loop of `find`: follow `next` from `temp` until the url of the item equals
`URL`; the result is `temp` when the loop ends. -/
def find_loop (h : Nat → Option CachedItem) (URL : List Char) :
    Nat → Option Nat → Exec (Option Nat)
  | _, none => .ok none
  | 0, some _ => .outOfFuel
  | fuel + 1, some a =>
    match h a with
    | none => .fault
    | some it => if it.url = URL then .ok (some a) else find_loop h URL fuel it.next

/-- The statement `if (temp->prev) temp->prev->next = temp->next;` of `find`. -/
def unlink_prev (h : Nat → Option CachedItem) (temp : Nat) : Option (Nat → Option CachedItem) :=
  match h temp with
  | none => none
  | some t =>
    match t.prev with
    | some p => setNext h (some p) t.next
    | none => some h

/-- The statement `if (temp->next) temp->next->prev = temp->prev;` of `find`. -/
def unlink_next (h : Nat → Option CachedItem) (temp : Nat) : Option (Nat → Option CachedItem) :=
  match h temp with
  | none => none
  | some t =>
    match t.next with
    | some n => setPrev h (some n) t.prev
    | none => some h

/-- The statements of `find` after the search: take `temp` out of the list and
insert it at the front. -/
def find_relink (m : Mem) (temp : Nat) : Option Mem :=
  match unlink_prev m.heap temp with
  | none => none
  | some h1 =>
    match unlink_next h1 temp with
    | none => none
    | some h2 =>
      match h2 temp with
      | none => none
      | some t =>
        match setPrev h2 (some temp) none with
        | none => none
        | some h3 =>
          match setNext h3 (some temp) none with
          | none => none
          | some h4 =>
            insert_front h4
              { size := m.list.size,
                first := if some temp = m.list.first then t.next else m.list.first,
                last := if some temp = m.list.last then t.prev else m.list.last }
              temp

/-- Look a URL up and move its item to the front, `find`: the pointer returned
and the memory afterwards. -/
def find (fuel : Nat) (m : Mem) (URL : List Char) : Exec (Option Nat × Mem) :=
  match find_loop m.heap URL fuel m.list.first with
  | .ok none => .ok (none, m)
  | .ok (some temp) =>
    match find_relink m temp with
    | none => .fault
    | some m1 => .ok (some temp, m1)
  | .fault => .fault
  | .outOfFuel => .outOfFuel

/-- A doubly linked segment: the blocks at `addrs`, in this order, are linked by
`next` from `first` up to `after` and by `prev` from `last` back to `before`. -/
def DL (h : Nat → Option CachedItem) :
    Option Nat → Option Nat → Option Nat → Option Nat → List Nat → Prop
  | first, before, after, last, [] => first = after ∧ last = before
  | first, before, after, last, a :: rest =>
    first = some a ∧ ∃ it, h a = some it ∧ it.prev = before ∧ DL h it.next (some a) after last rest

/-- The memory holds the cache whose items are, front to back, the blocks at
`addrs`: the addresses are distinct, `first` and `last` are the two ends, and the
blocks are doubly linked in this order. -/
def Rep (m : Mem) (addrs : List Nat) : Prop :=
  addrs.Nodup ∧ DL m.heap m.list.first none none m.list.last addrs

/-- What the cache keeps of the item at `a`: url, headers and size (`none` when
the block is not in use). -/
def itemAt (h : Nat → Option CachedItem) (a : Nat) : Option (List Char × List Char × Nat) :=
  match h a with
  | some it => some (it.url, it.headers, it.size)
  | none => none

/-- The url of the item at `a` (`none` when the block is not in use). -/
def urlAt (h : Nat → Option CachedItem) (a : Nat) : Option (List Char) :=
  match itemAt h a with
  | some x => some x.1
  | none => none

/-- The size of the item at `a` (0 when the block is not in use). -/
def sizeAt (h : Nat → Option CachedItem) (a : Nat) : Nat :=
  match itemAt h a with
  | some x => x.2.2
  | none => 0

/-- The sum of the sizes of the items at `addrs`. -/
def totalSize (h : Nat → Option CachedItem) (addrs : List Nat) : Nat :=
  (addrs.map (sizeAt h)).sum

/-- The memory at start-up: nothing in use, the header as `cache_init` leaves it. -/
def emptyMem : Mem :=
  cache_init { heap := fun _ => none, list := { size := 0, first := none, last := none } }

/-- The memory after a call of `cache_URL` with the constants 102400 and 1049000
and no headers (unchanged when the call has no result). -/
def afterCache (m : Mem) (URL : List Char) (size : Nat) (new_item : Nat) : Mem :=
  match cache_URL 102400 1049000 1 m URL [] size (some new_item) with
  | .ok m1 => m1
  | _ => m

/-- A cache of three items: `a` (100 bytes, block 1), `b` (200 bytes, block 2) and
`c` (300 bytes, block 3) were cached in this order, so the list is `c`, `b`, `a`. -/
def threeMem : Mem :=
  afterCache (afterCache (afterCache emptyMem "a".toList 100 1) "b".toList 200 2) "c".toList 300 3

/-- A memory with one item of 1000000 bytes at block 1, more than `cache_URL`
accepts when `MAX_OBJECT_SIZE` is 102400. -/
def bigItemMem : Mem :=
  { heap := store (fun _ => none) 1
      (some { url := "a".toList, headers := [], size := 1000000, prev := none, next := none }),
    list := { size := 1000000, first := some 1, last := some 1 } }

end Proxy

namespace Tsh

/-! ## Facts about the table loops -/

theorem firstIdx_eq_none {p : job_t → Bool} :
    ∀ {l : List job_t}, firstIdx p l = none ↔ ∀ j ∈ l, p j = false := by
  intro l
  induction l with
  | nil => simp [firstIdx]
  | cons a l ih =>
    by_cases h : p a = true
    · simp [firstIdx, h]
    · simp [firstIdx, h, ih]

theorem firstIdx_eq_some {p : job_t → Bool} :
    ∀ {l : List job_t} {i : Nat}, firstIdx p l = some i →
      i < l.length ∧ p (l.getD i clearjob) = true ∧
        ∀ k, k < i → p (l.getD k clearjob) = false := by
  intro l
  induction l with
  | nil => intro i h; simp [firstIdx] at h
  | cons a l ih =>
    intro i h
    by_cases hp : p a = true
    · simp [firstIdx, hp] at h
      subst h
      simp [hp]
    · simp only [firstIdx, hp] at h
      simp only [Bool.false_eq_true, if_false, Option.map_eq_some'] at h
      obtain ⟨m, hm, rfl⟩ := h
      obtain ⟨h1, h2, h3⟩ := ih hm
      refine ⟨by simp; omega, by simpa using h2, ?_⟩
      intro k hk
      cases k with
      | zero => simpa using hp
      | succ k => simpa using h3 k (by omega)

theorem firstIdx_isSome_of_mem {p : job_t → Bool} {l : List job_t} {j : job_t}
    (hj : j ∈ l) (hp : p j = true) : ∃ i, firstIdx p l = some i := by
  cases h : firstIdx p l with
  | some i => exact ⟨i, rfl⟩
  | none =>
    have := firstIdx_eq_none.mp h j hj
    simp [hp] at this

theorem getD_mem {l : List job_t} {i : Nat} (h : i < l.length) : l.getD i clearjob ∈ l := by
  rw [List.getD_eq_getElem l clearjob h]
  exact List.getElem_mem h

/-! ## Counting foreground slots -/

theorem countFG_cons (a : job_t) (l : List job_t) :
    countFG (a :: l) = (if a.state = FG then 1 else 0) + countFG l := by
  by_cases h : a.state = FG
  · simp [countFG, List.filter_cons, h]; omega
  · simp [countFG, List.filter_cons, h]

theorem countFG_set_le (l : List job_t) (i : Nat) (x : job_t) :
    countFG (l.set i x) ≤ countFG l + 1 := by
  induction l generalizing i with
  | nil => simp [countFG]
  | cons a l ih =>
    cases i with
    | zero =>
      simp only [List.set_cons_zero, countFG_cons]
      split <;> split <;> omega
    | succ i =>
      simp only [List.set_cons_succ, countFG_cons]
      have := ih i
      omega

theorem countFG_set_other (l : List job_t) (i : Nat) (x : job_t) (hx : x.state ≠ FG) :
    countFG (l.set i x) ≤ countFG l := by
  induction l generalizing i with
  | nil => simp [countFG]
  | cons a l ih =>
    cases i with
    | zero =>
      simp only [List.set_cons_zero, countFG_cons, hx, if_false]
      omega
    | succ i =>
      simp only [List.set_cons_succ, countFG_cons]
      have := ih i
      omega

theorem FgHasPid_set {l : List job_t} (h : FgHasPid l) (i : Nat) (x : job_t)
    (hx : x.state = FG → x.pid ≠ 0) : FgHasPid (l.set i x) := by
  intro j hj
  rcases List.mem_or_eq_of_mem_set hj with hj | rfl
  · exact h j hj
  · exact hx

theorem countFG_eq_zero_of_fgpid {l : List job_t} (h : FgHasPid l) (h0 : fgpid l = 0) :
    countFG l = 0 := by
  unfold fgpid at h0
  cases hf : firstIdx (fun j => j.state == FG) l with
  | none =>
    have hall := firstIdx_eq_none.mp hf
    simp only [countFG, List.length_eq_zero, List.filter_eq_nil_iff]
    intro j hj
    simpa using hall j hj
  | some i =>
    rw [hf] at h0
    obtain ⟨hi, hp, _⟩ := firstIdx_eq_some hf
    have hst : (l.getD i clearjob).state = FG := by simpa using hp
    exact absurd h0 (h _ (getD_mem hi) hst)

theorem FgHasPid_initjobs : FgHasPid initjobs := by
  intro j hj
  have : j = clearjob := List.eq_of_mem_replicate hj
  subst this
  intro h
  simp [clearjob, UNDEF, FG] at h

theorem countFG_initjobs : countFG initjobs = 0 := by decide

/-! ## Steps that create no foreground job -/

theorem deletejob_noFG (s : Shell) (pid : Int) (h : FgHasPid s.jobs) :
    FgHasPid (deletejob s pid).2.jobs ∧ countFG (deletejob s pid).2.jobs ≤ countFG s.jobs := by
  unfold deletejob
  split
  · exact ⟨h, le_refl _⟩
  · split
    · exact ⟨FgHasPid_set h _ _ (by simp [clearjob, UNDEF, FG]),
        countFG_set_other _ _ _ (by simp [clearjob, UNDEF, FG])⟩
    · exact ⟨h, le_refl _⟩

theorem sigchld_body_noFG {s s1 : Shell} {pid : Int} {status : WaitStatus} {out : String}
    (hb : sigchld_body s pid status = some (s1, out)) (h : FgHasPid s.jobs) :
    FgHasPid s1.jobs ∧ countFG s1.jobs ≤ countFG s.jobs := by
  unfold sigchld_body at hb
  split at hb
  · simp only [Option.some.injEq, Prod.mk.injEq] at hb
    rw [← hb.1]; exact deletejob_noFG s pid h
  · split at hb
    · split at hb
      · simp at hb
      · simp only [Option.some.injEq, Prod.mk.injEq] at hb
        rw [← hb.1]
        exact ⟨FgHasPid_set h _ _ (by simp [ST, FG]),
          countFG_set_other _ _ _ (by simp [ST, FG])⟩
    · split at hb
      · simp only [Option.some.injEq, Prod.mk.injEq] at hb
        rw [← hb.1]; exact deletejob_noFG s pid h
      · simp only [Option.some.injEq, Prod.mk.injEq] at hb
        rw [← hb.1]; exact ⟨h, le_refl _⟩

theorem sigchld_handler_noFG (events : List (Int × WaitStatus)) :
    ∀ {s s2 : Shell} {out : String}, sigchld_handler s events = some (s2, out) →
      FgHasPid s.jobs → FgHasPid s2.jobs ∧ countFG s2.jobs ≤ countFG s.jobs := by
  induction events with
  | nil =>
    intro s s2 out hh h
    simp only [sigchld_handler, Option.some.injEq, Prod.mk.injEq] at hh
    rw [← hh.1]; exact ⟨h, le_refl _⟩
  | cons e more ih =>
    intro s s2 out hh h
    obtain ⟨pid, status⟩ := e
    simp only [sigchld_handler] at hh
    split at hh
    · cases hb : sigchld_body s pid status with
      | none => simp [hb] at hh
      | some r =>
        obtain ⟨s1, out1⟩ := r
        simp only [hb] at hh
        cases hr : sigchld_handler s1 more with
        | none => simp [hr] at hh
        | some r2 =>
          obtain ⟨s3, out3⟩ := r2
          simp only [hr, Option.some.injEq, Prod.mk.injEq] at hh
          obtain ⟨h1, h2⟩ := sigchld_body_noFG hb h
          obtain ⟨h3, h4⟩ := ih hr h1
          rw [← hh.1]
          exact ⟨h3, le_trans h4 h2⟩
    · simp only [Option.some.injEq, Prod.mk.injEq] at hh
      rw [← hh.1]; exact ⟨h, le_refl _⟩

theorem getjobpid_eq_some {jobs : List job_t} {pid : Int} {i : Nat}
    (h : getjobpid jobs pid = some i) :
    1 ≤ pid ∧ i < jobs.length ∧ (jobs.getD i clearjob).pid = pid ∧
      ∀ k, k < i → (jobs.getD k clearjob).pid ≠ pid := by
  unfold getjobpid at h
  split at h
  · simp at h
  · obtain ⟨h1, h2, h3⟩ := firstIdx_eq_some h
    refine ⟨by omega, h1, by simpa using h2, ?_⟩
    intro k hk
    simpa using h3 k hk

theorem addjob_FG (s : Shell) (pid state : Int) (cmdline : String) (h : FgHasPid s.jobs) :
    FgHasPid (addjob s pid state cmdline).sh.jobs ∧
      countFG (addjob s pid state cmdline).sh.jobs ≤ countFG s.jobs + 1 ∧
      (state ≠ FG → countFG (addjob s pid state cmdline).sh.jobs ≤ countFG s.jobs) := by
  unfold addjob
  split
  · exact ⟨h, Nat.le_succ _, fun _ => le_refl _⟩
  · rename_i hpid
    split
    · refine ⟨FgHasPid_set h _ _ (fun _ => ?_), countFG_set_le _ _ _,
        fun hst => countFG_set_other _ _ _ hst⟩
      show pid ≠ 0
      omega
    · exact ⟨h, Nat.le_succ _, fun _ => le_refl _⟩

theorem bgfg_act_FG {s : Shell} {bg : Bool} {pid : Int} {i : Nat}
    (hi : getjobpid s.jobs pid = some i) (h : FgHasPid s.jobs) :
    FgHasPid (bgfg_act s bg pid i).sh.jobs ∧
      countFG (bgfg_act s bg pid i).sh.jobs ≤ countFG s.jobs + 1 ∧
      ((bgfg_act s bg pid i).waitfg = none →
        countFG (bgfg_act s bg pid i).sh.jobs ≤ countFG s.jobs) := by
  obtain ⟨hp1, _, hp2, _⟩ := getjobpid_eq_some hi
  have hne : ∀ st : Int,
      ({ s.jobs.getD i clearjob with state := st } : job_t).pid ≠ 0 := by
    intro st
    show (s.jobs.getD i clearjob).pid ≠ 0
    rw [hp2]; omega
  simp only [bgfg_act]
  split
  · exact ⟨FgHasPid_set h _ _ (fun _ => hne _),
      le_trans (countFG_set_other _ _ _ (by simp [BG, FG])) (Nat.le_succ _),
      fun _ => countFG_set_other _ _ _ (by simp [BG, FG])⟩
  · split
    · exact ⟨FgHasPid_set h _ _ (fun _ => hne _), countFG_set_le _ _ _,
        fun hw => by simp at hw⟩
    · split
      · exact ⟨FgHasPid_set h _ _ (fun _ => hne _), countFG_set_le _ _ _,
          fun hw => by simp at hw⟩
      · exact ⟨h, Nat.le_succ _, fun _ => le_refl _⟩

theorem do_bgfg_FG (s : Shell) (argv0 jobArgument : String) (behind : List Char)
    (h : FgHasPid s.jobs) :
    FgHasPid (do_bgfg s argv0 jobArgument behind).sh.jobs ∧
      countFG (do_bgfg s argv0 jobArgument behind).sh.jobs ≤ countFG s.jobs + 1 ∧
      ((do_bgfg s argv0 jobArgument behind).waitfg = none →
        countFG (do_bgfg s argv0 jobArgument behind).sh.jobs ≤ countFG s.jobs) := by
  have keep : ∀ out, FgHasPid (Effect.say s out).sh.jobs ∧
      countFG (Effect.say s out).sh.jobs ≤ countFG s.jobs + 1 ∧
      ((Effect.say s out).waitfg = none →
        countFG (Effect.say s out).sh.jobs ≤ countFG s.jobs) :=
    fun out => ⟨h, Nat.le_succ _, fun _ => le_refl _⟩
  unfold do_bgfg
  split
  · exact keep _
  · simp only
    split
    · exact keep _
    · split
      · exact keep _
      · rename_i i hi
        exact bgfg_act_FG hi h

theorem eval_FG {s : Shell} {argv : List String} {bg : Bool} {behind : List Char}
    {cmdline : String} {pid : Int} {e : Effect}
    (he : eval s argv bg behind cmdline pid = .returns e) (h : FgHasPid s.jobs) :
    FgHasPid e.sh.jobs ∧ countFG e.sh.jobs ≤ countFG s.jobs + 1 ∧
      (e.waitfg = none → countFG e.sh.jobs ≤ countFG s.jobs) := by
  have keep : ∀ out, FgHasPid (Effect.say s out).sh.jobs ∧
      countFG (Effect.say s out).sh.jobs ≤ countFG s.jobs + 1 ∧
      ((Effect.say s out).waitfg = none →
        countFG (Effect.say s out).sh.jobs ≤ countFG s.jobs) :=
    fun out => ⟨h, Nat.le_succ _, fun _ => le_refl _⟩
  unfold eval at he
  split at he
  · simp only [Outcome.returns.injEq] at he
    rw [← he]; exact keep _
  · split at he
    · simp at he
    · split at he
      · split at he
        · simp at he
        · cases bg with
          | false =>
            simp only [Bool.not_false, if_true, Outcome.returns.injEq] at he
            rw [← he]
            obtain ⟨a1, a2, _⟩ := addjob_FG s pid (if false = true then BG else FG) cmdline h
            exact ⟨a1, a2, fun hw => by simp at hw⟩
          | true =>
            simp only [Bool.not_true, Bool.false_eq_true, if_false, if_true,
              Outcome.returns.injEq] at he
            rw [← he]
            obtain ⟨a1, a2, a3⟩ := addjob_FG s pid BG cmdline h
            exact ⟨a1, a2, fun _ => a3 (by simp [BG, FG])⟩
      · split at he
        · simp only [Outcome.returns.injEq] at he
          rw [← he]; exact keep _
        · split at he
          · split at he
            · simp only [Outcome.returns.injEq] at he
              rw [← he]; exact keep _
            · simp only [Outcome.returns.injEq] at he
              rw [← he]; exact do_bgfg_FG s _ _ behind h
          · simp only [Outcome.returns.injEq] at he
            rw [← he]; exact keep _

theorem step_FgInv {s t : Sys} {a : Action} (hs : step s a = some t) (h : FgInv s) :
    FgInv t := by
  obtain ⟨h1, h2, h3⟩ := h
  cases a with
  | command argv bg behind cmdline pid =>
    simp only [step] at hs
    split at hs
    · simp at hs
    · rename_i hw
      have hw1 : s.waiting = false := by simpa using hw
      split at hs
      · rename_i e he
        simp only [Option.some.injEq] at hs
        obtain ⟨e1, e2, e3⟩ := eval_FG he h1
        have h0 := h3 hw1
        rw [← hs]
        refine ⟨e1, by simp only; omega, fun hwt => ?_⟩
        have : e.waitfg = none := by simpa using hwt
        have := e3 this
        simp only; omega
      · simp at hs
  | sigchld events =>
    simp only [step] at hs
    split at hs
    · rename_i sh1 out hh
      simp only [Option.some.injEq] at hs
      obtain ⟨e1, e2⟩ := sigchld_handler_noFG events hh h1
      rw [← hs]
      refine ⟨e1, by simp only; omega, fun hwt => ?_⟩
      have := h3 hwt
      simp only; omega
    · simp at hs
  | waitfgReturn =>
    simp only [step] at hs
    split at hs
    · rename_i hc
      simp only [Bool.and_eq_true, beq_iff_eq] at hc
      simp only [Option.some.injEq] at hs
      rw [← hs]
      have := countFG_eq_zero_of_fgpid h1 hc.2
      exact ⟨h1, by simp only; omega, fun _ => this⟩
    · simp at hs

theorem run_FgInv (acts : List Action) :
    ∀ {s t : Sys}, run s acts = some t → FgInv s → FgInv t := by
  induction acts with
  | nil =>
    intro s t hr h
    simp only [run, Option.some.injEq] at hr
    rw [← hr]; exact h
  | cons a more ih =>
    intro s t hr h
    simp only [run] at hr
    split at hr
    · rename_i s1 hs
      exact ih hr (step_FgInv hs h)
    · simp at hr

/-- C1: in every state the shell reaches from start-up by dispatching commands
(launches, `jobs`, `bg`, `fg`; only while the main flow is not inside `waitfg`),
by runs of `sigchld_handler` and by returns of `waitfg`, at most one slot of the
job table has state `FG`. -/
theorem at_most_one_foreground (t : Sys) (h : Reachable t) : countFG t.sh.jobs ≤ 1 := by
  obtain ⟨verbose, acts, hr⟩ := h
  have h0 : FgInv { sh := initShell verbose, waiting := false } :=
    ⟨FgHasPid_initjobs, by simp [initShell, countFG_initjobs],
      fun _ => by simp [initShell, countFG_initjobs]⟩
  exact (run_FgInv acts hr h0).2.1

theorem fgSession_reaches : Reachable fgSessionEnd :=
  ⟨false, fgSession, by decide⟩

/-- Witness for C1: the state after `fgSession` is reachable and has at most one
(in fact exactly one) foreground slot. -/
theorem at_most_one_foreground_witness :
    Reachable fgSessionEnd ∧ countFG fgSessionEnd.sh.jobs ≤ 1 :=
  ⟨fgSession_reaches, at_most_one_foreground fgSessionEnd fgSession_reaches⟩

/-! ## The job counter -/

theorem maxjid_foldl_ge (l : List job_t) :
    ∀ a : Int, a ≤ l.foldl (fun max j => if j.jid > max then j.jid else max) a ∧
      ∀ j ∈ l, j.jid ≤ l.foldl (fun max j => if j.jid > max then j.jid else max) a := by
  induction l with
  | nil => intro a; simp
  | cons b l ih =>
    intro a
    simp only [List.foldl_cons, List.mem_cons, forall_eq_or_imp]
    obtain ⟨h1, h2⟩ := ih (if b.jid > a then b.jid else a)
    refine ⟨?_, ?_, h2⟩
    · by_cases hb : b.jid > a <;> simp only [hb, if_true, if_false] at h1 ⊢ <;> omega
    · by_cases hb : b.jid > a <;> simp only [hb, if_true, if_false] at h1 ⊢ <;> omega

theorem maxjid_foldl_le (l : List job_t) :
    ∀ a m : Int, a ≤ m → (∀ j ∈ l, j.jid ≤ m) →
      l.foldl (fun max j => if j.jid > max then j.jid else max) a ≤ m := by
  induction l with
  | nil => intro a m ha _; simpa using ha
  | cons b l ih =>
    intro a m ha hl
    simp only [List.foldl_cons]
    apply ih
    · have := hl b (List.mem_cons_self _ _)
      split <;> omega
    · intro j hj
      exact hl j (List.mem_cons_of_mem _ hj)

theorem maxjid_nonneg (l : List job_t) : 0 ≤ maxjid l := (maxjid_foldl_ge l 0).1

theorem le_maxjid {l : List job_t} {j : job_t} (h : j ∈ l) : j.jid ≤ maxjid l :=
  (maxjid_foldl_ge l 0).2 j h

theorem maxjid_le {l : List job_t} {m : Int} (hm : 0 ≤ m) (h : ∀ j ∈ l, j.jid ≤ m) :
    maxjid l ≤ m := maxjid_foldl_le l 0 m hm h

theorem mem_set_self {l : List job_t} {i : Nat} (h : i < l.length) (x : job_t) :
    x ∈ l.set i x := by
  induction l generalizing i with
  | nil => simp at h
  | cons a l ih =>
    cases i with
    | zero => simp
    | succ i =>
      simp only [List.set_cons_succ, List.mem_cons]
      exact Or.inr (ih (by simpa using h))

theorem mem_set_of_ne {l : List job_t} {i : Nat} {x j : job_t} (hj : j ∈ l)
    (hne : j ≠ l.getD i clearjob) : j ∈ l.set i x := by
  induction l generalizing i with
  | nil => simp at hj
  | cons a l ih =>
    cases i with
    | zero =>
      simp only [List.getD_cons_zero] at hne
      simp only [List.mem_cons] at hj
      rcases hj with rfl | hj
      · exact absurd rfl hne
      · simp [hj]
    | succ i =>
      simp only [List.getD_cons_succ] at hne
      simp only [List.mem_cons] at hj
      simp only [List.set_cons_succ, List.mem_cons]
      rcases hj with rfl | hj
      · exact Or.inl rfl
      · exact Or.inr (ih hj hne)

theorem getD_set_self {l : List job_t} {i : Nat} (h : i < l.length) (x : job_t) :
    (l.set i x).getD i clearjob = x := by
  induction l generalizing i with
  | nil => simp at h
  | cons a l ih =>
    cases i with
    | zero => simp
    | succ i =>
      simp only [List.set_cons_succ, List.getD_cons_succ]
      exact ih (by simpa using h)

theorem getD_set_ne (l : List job_t) {i k : Nat} (h : i ≠ k) (x : job_t) :
    (l.set i x).getD k clearjob = l.getD k clearjob := by
  induction l generalizing i k with
  | nil => simp
  | cons a l ih =>
    cases i with
    | zero =>
      cases k with
      | zero => exact absurd rfl h
      | succ k => simp
    | succ i =>
      cases k with
      | zero => simp
      | succ k =>
        simp only [List.set_cons_succ, List.getD_cons_succ]
        exact ih (by omega)

/-- The new maximum when the job written into slot `i` has the largest jid. -/
theorem maxjid_set_gt {l : List job_t} {i : Nat} (h : i < l.length) {x : job_t}
    (hx : maxjid l < x.jid) : maxjid (l.set i x) = x.jid := by
  apply le_antisymm
  · apply maxjid_le (by have := maxjid_nonneg l; omega)
    intro j hj
    rcases List.mem_or_eq_of_mem_set hj with hj | rfl
    · have := le_maxjid hj; omega
    · exact le_refl _
  · exact le_maxjid (mem_set_self h x)

/-- A maximum of at least `m > 0` survives a write into a slot whose jid is 0. -/
theorem maxjid_set_keep {l : List job_t} {i : Nat} {x : job_t} {m : Int} (hm : 0 < m)
    (h0 : (l.getD i clearjob).jid = 0) (h : m ≤ maxjid l) : m ≤ maxjid (l.set i x) := by
  by_contra hlt
  have hall : ∀ j ∈ l, j.jid ≤ m - 1 := by
    intro j hj
    by_cases hji : j = l.getD i clearjob
    · rw [hji, h0]; omega
    · have := le_maxjid (mem_set_of_ne (x := x) hj hji)
      omega
  have := maxjid_le (by omega) hall
  omega

theorem CounterInv_init (verbose : Bool) : CounterInv (initShell verbose) := by
  refine ⟨?_, Or.inl (show (1 : Int) = maxjid initjobs + 1 by decide)⟩
  intro j hj _
  have : j = clearjob := List.eq_of_mem_replicate hj
  rw [this]; rfl

theorem addjob_CounterInv (s : Shell) (pid state : Int) (cmdline : String)
    (h : CounterInv s) : CounterInv (addjob s pid state cmdline).sh := by
  obtain ⟨h1, h2⟩ := h
  unfold addjob
  split
  · exact ⟨h1, h2⟩
  · rename_i hpid
    split
    · rename_i i hi
      obtain ⟨hlt, hfree, _⟩ := firstIdx_eq_some hi
      have hpid0 : (s.jobs.getD i clearjob).pid = 0 := by simpa using hfree
      have hjid0 : (s.jobs.getD i clearjob).jid = 0 := h1 _ (getD_mem hlt) hpid0
      refine ⟨?_, ?_⟩
      · intro j hj hj0
        rcases List.mem_or_eq_of_mem_set hj with hj | rfl
        · exact h1 j hj hj0
        · simp only at hj0; omega
      · simp only [MAXJOBS, Nat.cast_ofNat] at h2 ⊢
        rcases h2 with h2 | ⟨h2, h3, h4⟩
        · have hmax : maxjid (s.jobs.set i
              { pid := pid, jid := s.nextjid, state := state, cmdline := cmdline }) =
              s.nextjid := maxjid_set_gt hlt (by simp only; omega)
          rw [hmax]
          split
          · right; omega
          · left; rfl
        · have hmax : (16 : Int) ≤ maxjid (s.jobs.set i
              { pid := pid, jid := s.nextjid, state := state, cmdline := cmdline }) :=
            maxjid_set_keep (by omega) hjid0 h2
          right
          refine ⟨hmax, ?_⟩
          split <;> omega
    · exact ⟨h1, h2⟩

theorem deletejob_CounterInv (s : Shell) (pid : Int) (h : CounterInv s) :
    CounterInv (deletejob s pid).2 := by
  obtain ⟨h1, h2⟩ := h
  unfold deletejob
  split
  · exact ⟨h1, h2⟩
  · split
    · refine ⟨?_, Or.inl rfl⟩
      intro j hj hj0
      rcases List.mem_or_eq_of_mem_set hj with hj | rfl
      · exact h1 j hj hj0
      · rfl
    · exact ⟨h1, h2⟩

theorem applyOps_CounterInv (ops : List TableOp) :
    ∀ s : Shell, CounterInv s → CounterInv (applyOps s ops) := by
  induction ops with
  | nil => intro s h; exact h
  | cons op more ih =>
    intro s h
    simp only [applyOps, List.foldl_cons]
    apply ih
    cases op with
    | add pid state cmdline => exact addjob_CounterInv s pid state cmdline h
    | del pid => exact deletejob_CounterInv s pid h

theorem TableReachable_CounterInv {s : Shell} (h : TableReachable s) : CounterInv s := by
  obtain ⟨verbose, ops, rfl⟩ := h
  exact applyOps_CounterInv ops _ (CounterInv_init verbose)

/-! ## C2: job ids of active jobs -/

/-- C2 (the code departs from it): after `wrapOps` the table is full, slot 0
still holds pid 101 with jid 1, and slot 15 holds the new pid 117, to which
`addjob` gave jid 1 as well, the counter having wrapped from 16 to 1; so two
distinct active slots share a jid although the state is reachable. -/
theorem jid_reused_after_wrap :
    TableReachable (applyOps (initShell false) wrapOps) ∧
      ((applyOps (initShell false) wrapOps).jobs.getD 0 clearjob).pid = 101 ∧
      ((applyOps (initShell false) wrapOps).jobs.getD 15 clearjob).pid = 117 ∧
      ((applyOps (initShell false) wrapOps).jobs.getD 0 clearjob).jid = 1 ∧
      ((applyOps (initShell false) wrapOps).jobs.getD 15 clearjob).jid = 1 ∧
      ¬ JidsDistinct (applyOps (initShell false) wrapOps).jobs := by
  refine ⟨⟨false, wrapOps, rfl⟩, by decide, by decide, by decide, by decide, ?_⟩
  intro h
  exact h 0 15 (by decide) (by decide) (by decide) (by decide) (by decide) (by decide)

/-! ## C3: the jid `addjob` records -/

theorem filledShell_reachable : TableReachable filledShell := ⟨false, fillOps, rfl⟩

/-- C3: in the reachable table `filledShell` the largest jid is 16 and jid 1 is
free, so the next job is to get jid 1 (the wrap at `MAXJOBS`), but `addjob`
records 17: `deletejob` has set the counter to `maxjid + 1 = 17`, past the
ceiling at which `addjob` itself wraps it. -/
theorem addjob_jid_not_claimed :
    ¬ (∀ (s : Shell) (pid state : Int) (cmdline : String) (i : Nat),
        TableReachable s → firstIdx (fun j => j.pid == 0) s.jobs = some i → 1 ≤ pid →
        ((addjob s pid state cmdline).sh.jobs.getD i clearjob).jid = claimedJid s.jobs) := by
  intro h
  have h1 := h filledShell 117 BG "a\n" 0 filledShell_reachable (by decide) (by decide)
  revert h1
  decide

/-- What `addjob` records: in every reachable table with a free slot, `addjob`
with a pid of at least 1 succeeds and writes the new entry, with the current
counter `nextjid` as its jid, into the first free slot, leaving the other slots
alone.  The counter is one more than the largest jid whenever that jid is below
`MAXJOBS`; when the largest jid is `MAXJOBS` or more, the counter is either one
more than it or a value from 1 to `MAXJOBS`. -/
theorem addjob_records_nextjid (s : Shell) (pid state : Int) (cmdline : String) (i : Nat)
    (hs : TableReachable s) (hfree : firstIdx (fun j => j.pid == 0) s.jobs = some i)
    (hpid : 1 ≤ pid) :
    (addjob s pid state cmdline).ret = 1 ∧
      (addjob s pid state cmdline).sh.jobs =
        s.jobs.set i { pid := pid, jid := s.nextjid, state := state, cmdline := cmdline } ∧
      ((addjob s pid state cmdline).sh.jobs.getD i clearjob).jid = s.nextjid ∧
      (maxjid s.jobs < (MAXJOBS : Int) → s.nextjid = maxjid s.jobs + 1) ∧
      ((MAXJOBS : Int) ≤ maxjid s.jobs →
        s.nextjid = maxjid s.jobs + 1 ∨ (1 ≤ s.nextjid ∧ s.nextjid ≤ (MAXJOBS : Int))) := by
  obtain ⟨_, hc⟩ := TableReachable_CounterInv hs
  obtain ⟨hlt, _, _⟩ := firstIdx_eq_some hfree
  have hnot : ¬ pid < 1 := by omega
  refine ⟨?_, ?_, ?_, ?_, ?_⟩
  · simp [addjob, hnot, hfree]
  · simp [addjob, hnot, hfree]
  · have hjobs : (addjob s pid state cmdline).sh.jobs =
        s.jobs.set i { pid := pid, jid := s.nextjid, state := state, cmdline := cmdline } := by
      simp [addjob, hnot, hfree]
    rw [hjobs, getD_set_self hlt]
  · intro hmax
    rcases hc with hc | ⟨hc, _, _⟩
    · exact hc
    · omega
  · intro _
    rcases hc with hc | ⟨_, hc1, hc2⟩
    · exact Or.inl hc
    · exact Or.inr ⟨hc1, hc2⟩

/-- An instance of `addjob_records_nextjid`: in `filledShell` the next job gets
jid 17. -/
theorem addjob_records_nextjid_witness :
    TableReachable filledShell ∧
      firstIdx (fun j => j.pid == 0) filledShell.jobs = some 0 ∧ (1 : Int) ≤ 117 ∧
      ((addjob filledShell 117 BG "a\n").sh.jobs.getD 0 clearjob).jid = 17 :=
  ⟨filledShell_reachable, by decide, by decide,
    (addjob_records_nextjid filledShell 117 BG "a\n" 0 filledShell_reachable
      (by decide) (by decide)).2.2.1⟩

/-! ## C4: a full table -/

/-- C4: when every slot of the table is occupied, `addjob` returns 0 for every
pid and leaves the globals (every slot, `nextjid`) as they were; it prints
`Tried to create too many jobs` when the pid is at least 1; so the listing is the
same as before and a pid that was not in the table is still not in it. -/
theorem addjob_full_table (s : Shell) (pid state : Int) (cmdline : String)
    (hfull : ∀ j ∈ s.jobs, j.pid ≠ 0) :
    (addjob s pid state cmdline).ret = 0 ∧
      (addjob s pid state cmdline).sh = s ∧
      (1 ≤ pid → (addjob s pid state cmdline).out = "Tried to create too many jobs\n") ∧
      listjobs (addjob s pid state cmdline).sh.jobs = listjobs s.jobs ∧
      ((∀ j ∈ s.jobs, j.pid ≠ pid) →
        (∀ j ∈ (addjob s pid state cmdline).sh.jobs, j.pid ≠ pid) ∧
        getjobpid (addjob s pid state cmdline).sh.jobs pid = none) := by
  have hnone : firstIdx (fun j => j.pid == 0) s.jobs = none := by
    apply firstIdx_eq_none.mpr
    intro j hj
    simpa using hfull j hj
  have hsh : (addjob s pid state cmdline).sh = s := by
    unfold addjob
    split
    · rfl
    · rw [hnone]
  refine ⟨?_, hsh, ?_, by rw [hsh], ?_⟩
  · unfold addjob
    split
    · rfl
    · rw [hnone]
  · intro hpid
    have hnot : ¬ pid < 1 := by omega
    simp [addjob, hnot, hnone]
  · intro habs
    rw [hsh]
    refine ⟨habs, ?_⟩
    unfold getjobpid
    split
    · rfl
    · apply firstIdx_eq_none.mpr
      intro j hj
      simpa using habs j hj

/-- Witness for C4: a seventeenth job, pid 117, is turned away by the full table. -/
theorem addjob_full_table_witness :
    (∀ j ∈ fullShell.jobs, j.pid ≠ 0) ∧
      (addjob fullShell 117 BG "b\n").ret = 0 ∧
      (addjob fullShell 117 BG "b\n").sh = fullShell ∧
      getjobpid (addjob fullShell 117 BG "b\n").sh.jobs 117 = none :=
  have h := addjob_full_table fullShell 117 BG "b\n" (by decide)
  ⟨by decide, h.1, h.2.1, (h.2.2.2.2 (by decide)).2⟩

/-! ## C5 and C6: removing and stopping a job -/

theorem exists_getD_of_mem {l : List job_t} {j : job_t} (h : j ∈ l) :
    ∃ k, k < l.length ∧ l.getD k clearjob = j := by
  induction l with
  | nil => simp at h
  | cons a l ih =>
    simp only [List.mem_cons] at h
    rcases h with rfl | h
    · exact ⟨0, by simp, by simp⟩
    · obtain ⟨k, hk, hj⟩ := ih h
      exact ⟨k + 1, by simpa using hk, by simpa using hj⟩

theorem no_pid_after_clear {l : List job_t} {i : Nat} {pid : Int}
    (hi : getjobpid l pid = some i) (hd : PidsDistinct l) :
    ∀ j ∈ l.set i clearjob, j.pid ≠ pid := by
  obtain ⟨hpid, hlt, hp, _⟩ := getjobpid_eq_some hi
  intro j hj
  obtain ⟨k, hk, hjk⟩ := exists_getD_of_mem hj
  rw [List.length_set] at hk
  by_cases hki : i = k
  · subst hki
    rw [getD_set_self hlt] at hjk
    rw [← hjk]
    show (0 : Int) ≠ pid
    omega
  · rw [getD_set_ne l hki] at hjk
    have := hd i k hlt hk hki (by rw [hp]; omega)
    rw [hp, hjk] at this
    exact fun h => this h.symm

theorem getjobpid_eq_none_of_absent {l : List job_t} {pid : Int} (h : ∀ j ∈ l, j.pid ≠ pid) :
    getjobpid l pid = none := by
  unfold getjobpid
  split
  · rfl
  · apply firstIdx_eq_none.mpr
    intro j hj
    simpa using h j hj

theorem deletejob_of_getjobpid {s : Shell} {pid : Int} {i : Nat}
    (hi : getjobpid s.jobs pid = some i) :
    deletejob s pid =
      (1, { s with jobs := s.jobs.set i clearjob,
                   nextjid := maxjid (s.jobs.set i clearjob) + 1 }) := by
  unfold getjobpid at hi
  split at hi
  · simp at hi
  · rename_i hpid
    simp [deletejob, hpid, hi]

/-- C5: in a table whose pids are not negative (`addjob` stores pids of at least 1,
`clearjob` stores 0), for every pid: when no active job has that pid, `deletejob`
returns 0 and changes nothing; when an active job has it, `deletejob` returns 1,
the first slot `i` holding that pid is cleared (pid 0, jid 0, state `UNDEF`, empty
command line), every other slot is unchanged, `nextjid` becomes `maxjid + 1`, and,
pids in the table being distinct, `getjobpid` then finds nothing for that pid. -/
theorem deletejob_frame (s : Shell) (pid : Int) (hwf : ∀ j ∈ s.jobs, 0 ≤ j.pid) :
    ((∀ j ∈ s.jobs, j.pid ≠ 0 → j.pid ≠ pid) → deletejob s pid = (0, s)) ∧
    ((∃ j ∈ s.jobs, j.pid ≠ 0 ∧ j.pid = pid) →
      ∃ i, i < s.jobs.length ∧ getjobpid s.jobs pid = some i ∧
        (s.jobs.getD i clearjob).pid = pid ∧
        (deletejob s pid).1 = 1 ∧
        (deletejob s pid).2.jobs = s.jobs.set i clearjob ∧
        (deletejob s pid).2.jobs.getD i clearjob =
          { pid := 0, jid := 0, state := UNDEF, cmdline := "" } ∧
        (∀ k, k ≠ i →
          (deletejob s pid).2.jobs.getD k clearjob = s.jobs.getD k clearjob) ∧
        (deletejob s pid).2.nextjid = maxjid (deletejob s pid).2.jobs + 1 ∧
        (deletejob s pid).2.verbose = s.verbose ∧
        (PidsDistinct s.jobs → getjobpid (deletejob s pid).2.jobs pid = none)) := by
  constructor
  · intro hno
    unfold deletejob
    split
    · rfl
    · rename_i hpid
      have hnone : firstIdx (fun j => j.pid == pid) s.jobs = none := by
        apply firstIdx_eq_none.mpr
        intro j hj
        have : j.pid ≠ pid := fun h => hno j hj (by rw [h]; omega) h
        simpa using this
      rw [hnone]
  · rintro ⟨j, hj, hj0, hjp⟩
    have hpid : ¬ pid < 1 := by
      have := hwf j hj
      omega
    obtain ⟨i, hi⟩ := firstIdx_isSome_of_mem (p := fun j => j.pid == pid) hj (by simpa using hjp)
    have hg : getjobpid s.jobs pid = some i := by simp [getjobpid, hpid, hi]
    obtain ⟨_, hlt, hp, _⟩ := getjobpid_eq_some hg
    have hdel := deletejob_of_getjobpid hg
    refine ⟨i, hlt, hg, hp, by rw [hdel], by rw [hdel], ?_, ?_, by rw [hdel], by rw [hdel], ?_⟩
    · rw [hdel]
      exact getD_set_self hlt clearjob
    · intro k hk
      rw [hdel]
      exact getD_set_ne s.jobs (fun h => hk h.symm) clearjob
    · intro hd
      rw [hdel]
      exact getjobpid_eq_none_of_absent (no_pid_after_clear hg hd)

/-- Witness for C5: deleting pid 105 from the full table clears slot 4. -/
theorem deletejob_frame_witness :
    (∀ j ∈ fullShell.jobs, 0 ≤ j.pid) ∧
      ∃ i, i < fullShell.jobs.length ∧ getjobpid fullShell.jobs 105 = some i ∧
        (fullShell.jobs.getD i clearjob).pid = 105 ∧
        (deletejob fullShell 105).1 = 1 ∧
        (deletejob fullShell 105).2.jobs = fullShell.jobs.set i clearjob :=
  have h := (deletejob_frame fullShell 105 (by decide)).2
    ⟨{ pid := 105, jid := 5, state := BG, cmdline := "a\n" }, by decide, by decide, rfl⟩
  ⟨by decide, h.choose, h.choose_spec.1, h.choose_spec.2.1, h.choose_spec.2.2.1,
    h.choose_spec.2.2.2.1, h.choose_spec.2.2.2.2.1⟩

theorem firstIdx_set_congr {p : job_t → Bool} {l : List job_t} {i : Nat} {x : job_t}
    (hlt : i < l.length) (hx : p x = p (l.getD i clearjob)) :
    firstIdx p (l.set i x) = firstIdx p l := by
  induction l generalizing i with
  | nil => rfl
  | cons a l ih =>
    cases i with
    | zero =>
      simp only [List.getD_cons_zero] at hx
      simp only [List.set_cons_zero, firstIdx, hx]
    | succ i =>
      simp only [List.getD_cons_succ] at hx
      simp only [List.set_cons_succ, firstIdx, ih (by simpa using hlt) hx]

theorem pid2jid_of_getjobpid {l : List job_t} {pid : Int} {i : Nat}
    (hi : getjobpid l pid = some i) : pid2jid l pid = (l.getD i clearjob).jid := by
  unfold getjobpid at hi
  split at hi
  · simp at hi
  · rename_i hpid
    simp [pid2jid, hpid, hi]

theorem getjobpid_set_samepid {l : List job_t} {pid : Int} {i : Nat} {x : job_t}
    (hx : x.pid = (l.getD i clearjob).pid) (hi : getjobpid l pid = some i) :
    getjobpid (l.set i x) pid = some i := by
  obtain ⟨_, hlt, _, _⟩ := getjobpid_eq_some hi
  rw [← hi]
  unfold getjobpid
  rw [firstIdx_set_congr (p := fun j => j.pid == pid) hlt (by simp only [hx])]

theorem getjobpid_set_state {l : List job_t} {pid : Int} {i : Nat} (st : Int)
    (hi : getjobpid l pid = some i) :
    getjobpid (l.set i { l.getD i clearjob with state := st }) pid = some i :=
  getjobpid_set_samepid rfl hi

theorem jid2pid_set_same (l : List job_t) (jid : Int) {i : Nat} {x : job_t}
    (hlt : i < l.length) (hxp : x.pid = (l.getD i clearjob).pid)
    (hxj : x.jid = (l.getD i clearjob).jid) :
    jid2pid (l.set i x) jid = jid2pid l jid := by
  unfold jid2pid
  rw [firstIdx_set_congr (p := fun j => j.jid == jid) hlt (by simp only [hxj])]
  split
  · rfl
  · split
    · rename_i k _
      by_cases hk : i = k
      · subst hk
        rw [getD_set_self hlt, hxp]
      · rw [getD_set_ne l hk]
    · rfl

theorem bgfg_pid_set_same (l : List job_t) (jobArgument : String) (behind : List Char)
    {i : Nat} {x : job_t} (hlt : i < l.length) (hxp : x.pid = (l.getD i clearjob).pid)
    (hxj : x.jid = (l.getD i clearjob).jid) :
    bgfg_pid (l.set i x) jobArgument behind = bgfg_pid l jobArgument behind := by
  unfold bgfg_pid
  simp only [jid2pid_set_same l _ hlt hxp hxj]

theorem bgfg_pid_set_state (l : List job_t) (jobArgument : String) (behind : List Char)
    {i : Nat} (st : Int) (hlt : i < l.length) :
    bgfg_pid (l.set i { l.getD i clearjob with state := st }) jobArgument behind =
      bgfg_pid l jobArgument behind :=
  bgfg_pid_set_same (x := { l.getD i clearjob with state := st }) l jobArgument behind
    hlt rfl rfl

theorem bgfg_act_fg_of_BG (s : Shell) (pid : Int) (i : Nat)
    (hst : (s.jobs.getD i clearjob).state = BG) :
    bgfg_act s false pid i =
      { sh := { s with jobs := s.jobs.set i { s.jobs.getD i clearjob with state := FG } },
        out := "", kills := [], waitfg := some pid } := by
  simp only [bgfg_act, Bool.false_eq_true, if_false, hst, beq_self_eq_true, if_true]

theorem set_set_same (l : List job_t) (i : Nat) (x y : job_t) :
    (l.set i x).set i y = l.set i y := by
  induction l generalizing i with
  | nil => rfl
  | cons a l ih =>
    cases i with
    | zero => rfl
    | succ i => simp only [List.set_cons_succ, ih]

/-- When the reference passes the digit test and resolves to the job in slot `i`,
`do_bgfg` reaches its last part for that job. -/
theorem do_bgfg_resolved {s : Shell} {argv0 jobArgument : String} {behind : List Char}
    {i : Nat} (hnum : str_isnumber (argTail jobArgument behind) ≠ 0)
    (hi : getjobpid s.jobs (bgfg_pid s.jobs jobArgument behind) = some i) :
    do_bgfg s argv0 jobArgument behind =
      bgfg_act s (argv0 == "bg") (bgfg_pid s.jobs jobArgument behind) i := by
  obtain ⟨hpid, _, _, _⟩ := getjobpid_eq_some hi
  have hpid0 : ¬ bgfg_pid s.jobs jobArgument behind = 0 := by omega
  unfold do_bgfg
  simp [hnum, hpid0, hi]

/-- C7 as stated fails: `bg 1234` on the job of `bgShell`, whose state is `BG`
and not `ST`, sends `SIGCONT` to the group -1234 all the same. -/
theorem bg_signals_running_job :
    ¬ ((do_bgfg bgShell "bg" "1234" []).kills = [(-1234, SIGCONT)] ↔
        (bgShell.jobs.getD 0 clearjob).state = ST) := by
  decide

/-- C7 (amended): when the reference given to `bg` passes the digit test and
resolves to the active job in slot `i`, `do_bgfg` sets that job's state to `BG`,
changes no other field of it, no other slot and not `nextjid`, prints
`[jid] (pid) cmdline` with the job's own jid, pid and command line, waits for
nothing, and sends exactly one signal, `SIGCONT` to the process group `-pid`,
whatever the job's previous state. -/
theorem bg_sets_background (s : Shell) (jobArgument : String) (behind : List Char)
    (i : Nat) (hnum : str_isnumber (argTail jobArgument behind) ≠ 0)
    (hi : getjobpid s.jobs (bgfg_pid s.jobs jobArgument behind) = some i) :
    (s.jobs.getD i clearjob).pid = bgfg_pid s.jobs jobArgument behind ∧
    do_bgfg s "bg" jobArgument behind =
      { sh := { s with jobs := s.jobs.set i { s.jobs.getD i clearjob with state := BG } },
        out := "[" ++ toString (s.jobs.getD i clearjob).jid ++ "] (" ++
          toString (s.jobs.getD i clearjob).pid ++ ") " ++
          (s.jobs.getD i clearjob).cmdline,
        kills := [(-(s.jobs.getD i clearjob).pid, SIGCONT)],
        waitfg := none } := by
  obtain ⟨_, hlt, hp, _⟩ := getjobpid_eq_some hi
  refine ⟨hp, ?_⟩
  rw [do_bgfg_resolved hnum hi, ← hp]
  rw [← hp] at hi
  have hjid : pid2jid (s.jobs.set i { s.jobs.getD i clearjob with state := BG })
      (s.jobs.getD i clearjob).pid = (s.jobs.getD i clearjob).jid := by
    rw [pid2jid_of_getjobpid (getjobpid_set_state BG hi), getD_set_self hlt]
  simp only [bgfg_act, beq_self_eq_true, if_true, hjid]

/-- Witness for C7 (amended): `bg 1234` on the running job of `bgShell`. -/
theorem bg_sets_background_witness :
    str_isnumber (argTail "1234" []) ≠ 0 ∧
      getjobpid bgShell.jobs (bgfg_pid bgShell.jobs "1234" []) = some 0 ∧
      (do_bgfg bgShell "bg" "1234" []).kills =
        [(-(bgShell.jobs.getD 0 clearjob).pid, SIGCONT)] :=
  ⟨by decide, by decide,
    by rw [(bg_sets_background bgShell "1234" [] 0 (by decide) (by decide)).2]⟩

/-- C8: when the reference given to `fg` passes the digit test and resolves to
the active job in slot `i`, and that job is stopped or in the background,
`do_bgfg` sets its state to `FG`, changes no other field of it, no other slot and
not `nextjid`, prints nothing, then calls `waitfg`; it sends `SIGCONT` to the
process group `-pid` when the previous state was `ST` and sends no signal when it
was `BG`. -/
theorem fg_sets_foreground (s : Shell) (jobArgument : String) (behind : List Char)
    (i : Nat) (hnum : str_isnumber (argTail jobArgument behind) ≠ 0)
    (hi : getjobpid s.jobs (bgfg_pid s.jobs jobArgument behind) = some i)
    (hstate : (s.jobs.getD i clearjob).state = ST ∨ (s.jobs.getD i clearjob).state = BG) :
    (s.jobs.getD i clearjob).pid = bgfg_pid s.jobs jobArgument behind ∧
    do_bgfg s "fg" jobArgument behind =
      { sh := { s with jobs := s.jobs.set i { s.jobs.getD i clearjob with state := FG } },
        out := "",
        kills := if (s.jobs.getD i clearjob).state = ST then
            [(-(s.jobs.getD i clearjob).pid, SIGCONT)]
          else [],
        waitfg := some (s.jobs.getD i clearjob).pid } := by
  obtain ⟨_, hlt, hp, _⟩ := getjobpid_eq_some hi
  refine ⟨hp, ?_⟩
  rw [do_bgfg_resolved hnum hi, ← hp]
  have hfg : (("fg" : String) == "bg") = false := by decide
  have h1 : (ST == BG) = false := by decide
  have h2 : ¬ (BG = ST) := by decide
  rcases hstate with hst | hst
  · simp only [bgfg_act, hfg, hst, h1, Bool.false_eq_true, if_false, if_true,
      beq_self_eq_true]
  · simp only [bgfg_act, hfg, hst, h2, Bool.false_eq_true, if_false, if_true,
      beq_self_eq_true]

/-- The table `stoppedShell` arises when `/bin/sleep 60` is launched in the
foreground as pid 1234 and then stopped. -/
theorem stoppedShell_reachable : Reachable { sh := stoppedShell, waiting := false } :=
  ⟨false, [.command ["/bin/sleep", "60"] false [] "/bin/sleep 60\n" 1234,
    .sigchld [(1234, .stopped 20)], .waitfgReturn], by decide⟩

/-- Witness for C8: `fg %1` on the stopped job of `stoppedShell` continues it. -/
theorem fg_sets_foreground_witness :
    str_isnumber (argTail "%1" []) ≠ 0 ∧
      getjobpid stoppedShell.jobs (bgfg_pid stoppedShell.jobs "%1" []) = some 0 ∧
      ((stoppedShell.jobs.getD 0 clearjob).state = ST ∨
        (stoppedShell.jobs.getD 0 clearjob).state = BG) ∧
      (do_bgfg stoppedShell "fg" "%1" []).kills = [(-1234, SIGCONT)] :=
  ⟨by decide, by decide, by decide,
    by rw [(fg_sets_foreground stoppedShell "%1" [] 0 (by decide) (by decide)
      (by decide)).2]; rfl⟩

/-- C9: when a reference passes the digit test and resolves to the active job in
slot `i`, `bg` on it followed at once by `fg` on it leaves that job in state `FG`
with its pid, jid and command line, leaves every other slot and `nextjid` as they
were before the `bg`, and the `fg` step sends no signal (and then waits). -/
theorem bg_then_fg (s : Shell) (jobArgument : String) (behind : List Char) (i : Nat)
    (hnum : str_isnumber (argTail jobArgument behind) ≠ 0)
    (hi : getjobpid s.jobs (bgfg_pid s.jobs jobArgument behind) = some i) :
    do_bgfg (do_bgfg s "bg" jobArgument behind).sh "fg" jobArgument behind =
      { sh := { s with jobs := s.jobs.set i { s.jobs.getD i clearjob with state := FG } },
        out := "", kills := [],
        waitfg := some (s.jobs.getD i clearjob).pid } := by
  obtain ⟨_, hlt, hp, _⟩ := getjobpid_eq_some hi
  rw [do_bgfg_resolved hnum hi]
  have hsh : (bgfg_act s (("bg" : String) == "bg") (bgfg_pid s.jobs jobArgument behind) i).sh =
      { s with jobs := s.jobs.set i { s.jobs.getD i clearjob with state := BG } } := by
    simp only [bgfg_act, beq_self_eq_true, if_true]
  rw [hsh]
  have hi2 : getjobpid (s.jobs.set i { s.jobs.getD i clearjob with state := BG })
      (bgfg_pid (s.jobs.set i { s.jobs.getD i clearjob with state := BG })
        jobArgument behind) = some i := by
    rw [bgfg_pid_set_state s.jobs jobArgument behind BG hlt]
    exact getjobpid_set_state BG hi
  have hres : do_bgfg
      { s with jobs := s.jobs.set i { s.jobs.getD i clearjob with state := BG } }
      "fg" jobArgument behind = _ := do_bgfg_resolved hnum hi2
  have hfg : (("fg" : String) == "bg") = false := by decide
  rw [hres, hfg, bgfg_act_fg_of_BG _ _ _ (by
    show ((s.jobs.set i _).getD i clearjob).state = BG
    rw [getD_set_self hlt])]
  simp only []
  rw [bgfg_pid_set_state s.jobs jobArgument behind BG hlt, getD_set_self hlt,
    set_set_same, hp]

/-- Witness for C9: `bg %1` then `fg %1` on the stopped job of `stoppedShell`. -/
theorem bg_then_fg_witness :
    str_isnumber (argTail "%1" []) ≠ 0 ∧
      getjobpid stoppedShell.jobs (bgfg_pid stoppedShell.jobs "%1" []) = some 0 ∧
      (do_bgfg (do_bgfg stoppedShell "bg" "%1" []).sh "fg" "%1" []).kills = [] ∧
      ((do_bgfg (do_bgfg stoppedShell "bg" "%1" []).sh "fg" "%1" []).sh.jobs.getD 0
        clearjob).state = FG :=
  have h := bg_then_fg stoppedShell "%1" [] 0 (by decide) (by decide)
  ⟨by decide, by decide, by rw [h], by rw [h]; rfl⟩

/-! ## C10: malformed references -/

/-- C10 (the code departs from it): the reference `+1234` is neither a string of
digits nor `%` and digits, yet `bg +1234` on `stoppedShell` raises no argument
error: `str_isnumber` is applied behind the first character whatever that
character is, `atoi` reads 1234, the stopped job with that pid is set to `BG`
and its group is sent `SIGCONT`.  Likewise `bg x12` prints `%12: No such job`. -/
theorem bg_accepts_signed_reference :
    isWellFormedRef ("+1234" : String).toList = false ∧
      do_bgfg stoppedShell "bg" "+1234" [] =
        { sh := { stoppedShell with
            jobs := stoppedShell.jobs.set 0
              { pid := 1234, jid := 1, state := BG, cmdline := "/bin/sleep 60\n" } },
          out := "[1] (1234) /bin/sleep 60\n",
          kills := [(-1234, SIGCONT)],
          waitfg := none } ∧
      isWellFormedRef ("x12" : String).toList = false ∧
      do_bgfg stoppedShell "bg" "x12" [] = Effect.say stoppedShell "%12: No such job\n" := by
  decide

theorem str_isnumber_loop_eq_zero (l : List Char) :
    ∀ b : Bool, l.all isdigit = false → str_isnumber_loop l b = 0 := by
  induction l with
  | nil => intro b h; simp at h
  | cons e es ih =>
    intro b h
    by_cases he : isdigit e = true
    · simp only [str_isnumber_loop, he, Bool.not_true, Bool.false_eq_true, if_false]
      apply ih
      simpa [he] using h
    · simp [str_isnumber_loop, he]

/-- The part of C10 the code keeps: a reference whose characters behind the first
are not a non-empty string of digits gets the argument error, no signal is sent
and the globals are unchanged. -/
theorem do_bgfg_argument_error (s : Shell) (argv0 jobArgument : String)
    (behind : List Char) (hnum : isNumberRef (argTail jobArgument behind) = false) :
    do_bgfg s argv0 jobArgument behind =
      { sh := s, out := argv0 ++ ": argument must be a PID or %jobid\n",
        kills := [], waitfg := none } := by
  have h0 : str_isnumber (argTail jobArgument behind) = 0 := by
    unfold str_isnumber
    cases hl : argTail jobArgument behind with
    | nil => rfl
    | cons d ds =>
      rw [hl] at hnum
      exact str_isnumber_loop_eq_zero _ _ (by simpa [isNumberRef] using hnum)
  unfold do_bgfg
  simp [h0, Effect.say]

/-- The part of C10 about a missing reference: `bg` or `fg` without an argument
makes `eval` print the usage line and return with the globals unchanged, no
signal sent and no wait. -/
theorem eval_missing_reference (s : Shell) (argv0 : String) (bg : Bool)
    (behind : List Char) (cmdline : String) (pid : Int)
    (hcmd : argv0 = "bg" ∨ argv0 = "fg") :
    eval s [argv0] bg behind cmdline pid =
      .returns { sh := s, out := argv0 ++ " command requires PID or %jobid argument\n",
                 kills := [], waitfg := none } := by
  rcases hcmd with rfl | rfl
  · rfl
  · rfl

/-! ## C11: a pid that is not in the table -/

/-- C11 (the code departs from it): no job of `stoppedShell` has pid 5, yet
`bg 5` and `fg 5` do not print `(5): No such process`: the digit test is applied
behind the first character, finds the empty string there, and the argument error
is printed.  The table is unchanged and no signal is sent. -/
theorem one_digit_pid_rejected :
    getjobpid stoppedShell.jobs 5 = none ∧
      do_bgfg stoppedShell "bg" "5" [] =
        Effect.say stoppedShell "bg: argument must be a PID or %jobid\n" ∧
      do_bgfg stoppedShell "fg" "5" [] =
        Effect.say stoppedShell "fg: argument must be a PID or %jobid\n" ∧
      (do_bgfg stoppedShell "bg" "5" []).out ≠ "(5): No such process\n" := by
  decide

/-- The part of C11 the code keeps: a reference that passes the digit test, does
not start with `%` and is read by `atoi` as a number `p` other than 0 that no job
has for pid makes `bg` and `fg` print `(p): No such process`, send no signal and
leave the globals unchanged. -/
theorem do_bgfg_unknown_pid (s : Shell) (argv0 jobArgument : String) (behind : List Char)
    (p : Int) (hnum : str_isnumber (argTail jobArgument behind) ≠ 0)
    (hhead : argHead jobArgument ≠ '%') (hp : atoi jobArgument.toList = p) (hp0 : p ≠ 0)
    (hno : getjobpid s.jobs p = none) :
    do_bgfg s argv0 jobArgument behind =
      { sh := s, out := "(" ++ toString p ++ "): No such process\n", kills := [],
        waitfg := none } := by
  have hpid : bgfg_pid s.jobs jobArgument behind = p := by
    have hb : (argHead jobArgument == '%') = false := by simpa using hhead
    simp only [bgfg_pid, hb, Bool.false_eq_true, if_false, if_true]
    exact hp
  unfold do_bgfg
  simp [hnum, hpid, hp0, hno, Effect.say]

/-- The example of C11: `bg 9999` on a table without pid 9999. -/
theorem bg_9999_unknown :
    do_bgfg stoppedShell "bg" "9999" [] =
      Effect.say stoppedShell "(9999): No such process\n" := by
  decide

/-! ## C12: references by job id -/

theorem seventeenShell_reachable : TableReachable seventeenShell :=
  ⟨false, fillOps ++ [TableOp.add 117 BG "/bin/sleep 60 &\n"], by decide⟩

/-- C12 (the code departs from it): in the reachable table `seventeenShell` the
job in slot 0 is active with pid 117 and jid 17, `getjobjid` finds it and the
listing shows it as `[17]`, but `jid2pid` returns 0 for every jid above 16, so
`fg %17` and `bg %17` print `%17: No such job` and do nothing. -/
theorem jid_above_sixteen_not_resolved :
    TableReachable seventeenShell ∧
      getjobjid seventeenShell.jobs 17 = some 0 ∧
      (seventeenShell.jobs.getD 0 clearjob).pid = 117 ∧
      (seventeenShell.jobs.getD 0 clearjob).jid = 17 ∧
      jid2pid seventeenShell.jobs 17 = 0 ∧
      do_bgfg seventeenShell "fg" "%17" [] =
        Effect.say seventeenShell "%17: No such job\n" ∧
      do_bgfg seventeenShell "bg" "%17" [] =
        Effect.say seventeenShell "%17: No such job\n" := by
  refine ⟨seventeenShell_reachable, ?_, ?_, ?_, ?_, ?_, ?_⟩ <;> decide

theorem firstIdx_le_of_true {p : job_t → Bool} {l : List job_t} {i k : Nat}
    (hi : firstIdx p l = some i) (hk : p (l.getD k clearjob) = true) : i ≤ k := by
  by_contra hlt
  have := (firstIdx_eq_some hi).2.2 k (by omega)
  rw [hk] at this
  exact Bool.noConfusion this

theorem bgfg_pid_of_percent {jobs : List job_t} {jobArgument : String}
    {behind : List Char} (hhead : argHead jobArgument = '%') :
    bgfg_pid jobs jobArgument behind = jid2pid jobs (atoi (argTail jobArgument behind)) := by
  simp only [bgfg_pid, hhead, beq_self_eq_true, if_true, Bool.false_eq_true, if_false]

/-- The part of C12 about an unknown job id: in a table whose free slots have
jid 0, a reference `%j` with `j >= 1` that is the jid of no active job makes `bg`
and `fg` print `%j: No such job`, send no signal and change nothing. -/
theorem do_bgfg_unknown_jid (s : Shell) (argv0 jobArgument : String) (behind : List Char)
    (j : Int) (hnum : str_isnumber (argTail jobArgument behind) ≠ 0)
    (hhead : argHead jobArgument = '%') (hj : atoi (argTail jobArgument behind) = j)
    (hj1 : 1 ≤ j) (hfree : ∀ x ∈ s.jobs, x.pid = 0 → x.jid = 0)
    (hno : ∀ x ∈ s.jobs, x.pid ≠ 0 → x.jid ≠ j) :
    do_bgfg s argv0 jobArgument behind =
      { sh := s, out := "%" ++ toString j ++ ": No such job\n", kills := [],
        waitfg := none } := by
  have hnone : firstIdx (fun x => x.jid == j) s.jobs = none := by
    apply firstIdx_eq_none.mpr
    intro x hx
    by_cases hx0 : x.pid = 0
    · have := hfree x hx hx0
      simp only [beq_eq_false_iff_ne, ne_eq]
      omega
    · simpa using hno x hx hx0
  have hpid : bgfg_pid s.jobs jobArgument behind = 0 := by
    rw [bgfg_pid_of_percent hhead, hj]
    unfold jid2pid
    split
    · rfl
    · rw [hnone]
  unfold do_bgfg
  simp [hnum, hpid, hj, Effect.say]

/-- The part of C12 about a known job id: in a table whose free slots have jid 0
and whose pids are distinct and not negative, a reference `%j` with
`1 <= j <= 16` for which `getjobjid` finds slot `k` resolves to that very slot,
and `do_bgfg` acts on it. -/
theorem do_bgfg_jid_resolves (s : Shell) (argv0 jobArgument : String) (behind : List Char)
    (j : Int) (k : Nat) (hnum : str_isnumber (argTail jobArgument behind) ≠ 0)
    (hhead : argHead jobArgument = '%') (hj : atoi (argTail jobArgument behind) = j)
    (hj16 : j ≤ 16) (hk : getjobjid s.jobs j = some k)
    (hfree : ∀ x ∈ s.jobs, x.pid = 0 → x.jid = 0) (hpos : ∀ x ∈ s.jobs, 0 ≤ x.pid)
    (hd : PidsDistinct s.jobs) :
    bgfg_pid s.jobs jobArgument behind = (s.jobs.getD k clearjob).pid ∧
      getjobpid s.jobs (bgfg_pid s.jobs jobArgument behind) = some k ∧
      do_bgfg s argv0 jobArgument behind =
        bgfg_act s (argv0 == "bg") (s.jobs.getD k clearjob).pid k := by
  unfold getjobjid at hk
  split at hk
  · simp at hk
  · rename_i hj1
    obtain ⟨hlt, hjk, _⟩ := firstIdx_eq_some hk
    have hjid : (s.jobs.getD k clearjob).jid = j := by simpa using hjk
    have hpid : bgfg_pid s.jobs jobArgument behind = (s.jobs.getD k clearjob).pid := by
      rw [bgfg_pid_of_percent hhead, hj]
      unfold jid2pid
      have hg : ¬ (j < 1 ∨ j > 16) := by omega
      rw [if_neg hg, hk]
    have hmem := getD_mem hlt
    have hne : (s.jobs.getD k clearjob).pid ≠ 0 := by
      intro h0
      have := hfree _ hmem h0
      omega
    have hge : ¬ (s.jobs.getD k clearjob).pid < 1 := by
      have := hpos _ hmem
      omega
    have hget : getjobpid s.jobs (s.jobs.getD k clearjob).pid = some k := by
      unfold getjobpid
      rw [if_neg hge]
      obtain ⟨i, hi⟩ := firstIdx_isSome_of_mem
        (p := fun x => x.pid == (s.jobs.getD k clearjob).pid) hmem (by simp)
      obtain ⟨hilt, hip, _⟩ := firstIdx_eq_some hi
      have hle : i ≤ k := firstIdx_le_of_true hi (by simp)
      by_cases hik : i = k
      · rw [hi, hik]
      · have hipid : (s.jobs.getD i clearjob).pid = (s.jobs.getD k clearjob).pid := by
          simpa using hip
        exact absurd hipid (hd i k hilt hlt hik (by rw [hipid]; exact hne))
    refine ⟨hpid, by rw [hpid]; exact hget, ?_⟩
    have hres : do_bgfg s argv0 jobArgument behind = _ :=
      do_bgfg_resolved hnum (by rw [hpid]; exact hget)
    rw [hres, hpid]

/-! ## C13: the announcement of a background launch -/

/-- C13 (the code departs from it): in `filledShell` a background launch of pid
117 is registered with jid 17, but `eval` derives the number it prints from
`nextjid - 1` after `addjob` has wrapped `nextjid` to 1, and announces `[16]`. -/
theorem announcement_wrong_above_sixteen :
    (addjob filledShell 117 BG "/bin/sleep 60 &\n").ret = 1 ∧
      eval filledShell ["/bin/sleep", "60"] true [] "/bin/sleep 60 &\n" 117 =
        .returns { sh := seventeenShell, out := "[16] (117) /bin/sleep 60 &\n",
                   kills := [], waitfg := none } ∧
      pid2jid seventeenShell.jobs 117 = 17 := by
  decide

theorem firstIdx_set_new {p : job_t → Bool} {l : List job_t} {i : Nat} {y : job_t}
    (hlt : i < l.length) (hall : ∀ x ∈ l, p x = false) (hy : p y = true) :
    firstIdx p (l.set i y) = some i := by
  induction l generalizing i with
  | nil => simp at hlt
  | cons a l ih =>
    cases i with
    | zero => simp [firstIdx, hy]
    | succ i =>
      have ha : p a = false := hall a (List.mem_cons_self _ _)
      simp only [List.set_cons_succ, firstIdx, ha, Bool.false_eq_true, if_false]
      rw [ih (by simpa using hlt) (fun x hx => hall x (List.mem_cons_of_mem _ hx))]
      rfl

/-- The part of C13 the code keeps: when the counter `nextjid` is between 1 and
16, the table has a free slot and the new pid is not yet in the table, a
background launch is registered with jid `nextjid` and the announcement
`[j] (pid) cmdline` that `eval` prints (after the diagnostic line of `addjob` in
verbose mode) carries that jid, `pid2jid(pid)`. -/
theorem eval_bg_announcement (s : Shell) (argv0 : String) (args : List String)
    (behind : List Char) (cmdline : String) (pid : Int) (i : Nat)
    (hcmd : builtin_cmd argv0 = some 0) (hpid : 1 ≤ pid)
    (hfree : firstIdx (fun j => j.pid == 0) s.jobs = some i)
    (hnew : ∀ x ∈ s.jobs, x.pid ≠ pid) (hn1 : 1 ≤ s.nextjid) (hn16 : s.nextjid ≤ 16) :
    ∃ e, eval s (argv0 :: args) true behind cmdline pid = .returns e ∧
      e.sh = (addjob s pid BG cmdline).sh ∧
      pid2jid e.sh.jobs pid = s.nextjid ∧
      e.out = (addjob s pid BG cmdline).out ++ "[" ++ toString (pid2jid e.sh.jobs pid) ++
        "] (" ++ toString pid ++ ") " ++ cmdline := by
  obtain ⟨hlt, _, _⟩ := firstIdx_eq_some hfree
  have hnot : ¬ pid < 1 := by omega
  have hnot0 : ¬ pid ≤ 0 := by omega
  have hjobs : (addjob s pid BG cmdline).sh.jobs =
      s.jobs.set i { pid := pid, jid := s.nextjid, state := BG, cmdline := cmdline } := by
    simp [addjob, hnot, hfree]
  have hnext : (addjob s pid BG cmdline).sh.nextjid =
      if s.nextjid + 1 > (MAXJOBS : Int) then 1 else s.nextjid + 1 := by
    simp [addjob, hnot, hfree]
  have hjid : pid2jid (addjob s pid BG cmdline).sh.jobs pid = s.nextjid := by
    have hfi : firstIdx (fun j => j.pid == pid)
        (s.jobs.set i { pid := pid, jid := s.nextjid, state := BG, cmdline := cmdline }) =
        some i :=
      firstIdx_set_new hlt (fun x hx => by simpa using hnew x hx) (by simp)
    rw [hjobs]
    unfold pid2jid
    rw [if_neg hnot, hfi]
    simp only [getD_set_self hlt]
  have hprinted : (if (addjob s pid BG cmdline).sh.nextjid - 1 > 0 then
        (addjob s pid BG cmdline).sh.nextjid - 1 else (MAXJOBS : Int)) = s.nextjid := by
    rw [hnext]
    simp only [MAXJOBS, Nat.cast_ofNat]
    by_cases h16 : s.nextjid + 1 > 16
    · simp only [h16, if_true]
      have : s.nextjid = 16 := by omega
      rw [this]; decide
    · simp only [h16, if_false]
      have : s.nextjid + 1 - 1 > 0 := by omega
      simp only [this, if_true]
      omega
  refine ⟨{ sh := (addjob s pid BG cmdline).sh,
            out := (addjob s pid BG cmdline).out ++ "[" ++
              toString (if (addjob s pid BG cmdline).sh.nextjid - 1 > 0 then
                (addjob s pid BG cmdline).sh.nextjid - 1 else (MAXJOBS : Int)) ++
              "] (" ++ toString pid ++ ") " ++ cmdline,
            kills := [], waitfg := none }, ?_, rfl, hjid, ?_⟩
  · simp only [eval, hcmd, beq_self_eq_true, if_true, hnot0, if_false, Bool.not_true,
      Bool.false_eq_true]
  · simp only [hprinted, hjid]

/-! ## C14: the first background launch -/

theorem addjob_initShell (verbose : Bool) (pid state : Int) (cmdline : String)
    (hpid : 1 ≤ pid) :
    addjob (initShell verbose) pid state cmdline =
      { ret := 1,
        sh := { jobs := initjobs.set 0
                  { pid := pid, jid := 1, state := state, cmdline := cmdline },
                nextjid := 2, verbose := verbose },
        out := if verbose then
            "Added job [" ++ toString (1 : Int) ++ "] " ++ toString pid ++ " " ++ cmdline ++ "\n"
          else "" } := by
  have hnot : ¬ pid < 1 := by omega
  have hfree : firstIdx (fun j => j.pid == 0) (initShell verbose).jobs = some 0 := by
    cases verbose <;> decide
  simp only [addjob, hnot, if_false, hfree]
  have hn : (initShell verbose).nextjid = 1 := rfl
  have hj : (initShell verbose).jobs = initjobs := rfl
  have hv : (initShell verbose).verbose = verbose := rfl
  simp only [hn, hj, hv]
  have h2 : (if (1 : Int) + 1 > (MAXJOBS : Int) then (1 : Int) else 1 + 1) = 2 := by decide
  rw [h2]

/-- C14: from the initialised table (`nextjid` 1), a background launch of the
command line `c` (whose first word is not a builtin) with child pid `p`
registers the job in slot 0 with jid 1 and state `BG`, prints `[1] (p) c` (after
the diagnostic line of `addjob` when the shell runs in verbose mode), sends no
signal and does not wait; afterwards `getjobpid(p)` is slot 0, whose state is `BG`
and whose command line is `c`. -/
theorem first_background_launch (verbose : Bool) (argv0 : String) (args : List String)
    (behind : List Char) (c : String) (p : Int) (hcmd : builtin_cmd argv0 = some 0)
    (hp : 1 ≤ p) :
    ∃ e, eval (initShell verbose) (argv0 :: args) true behind c p = .returns e ∧
      e.sh.jobs = initjobs.set 0 { pid := p, jid := 1, state := BG, cmdline := c } ∧
      e.sh.nextjid = 2 ∧
      e.out = (if verbose then "Added job [1] " ++ toString p ++ " " ++ c ++ "\n" else "") ++
        ("[1] (" ++ toString p ++ ") " ++ c) ∧
      e.kills = [] ∧ e.waitfg = none ∧
      getjobpid e.sh.jobs p = some 0 ∧
      (e.sh.jobs.getD 0 clearjob).jid = 1 ∧
      (e.sh.jobs.getD 0 clearjob).state = BG ∧
      (e.sh.jobs.getD 0 clearjob).cmdline = c := by
  have hnot0 : ¬ p ≤ 0 := by omega
  have hnot : ¬ p < 1 := by omega
  have hadd := addjob_initShell verbose p BG c hp
  have hset : initjobs.set 0 { pid := p, jid := 1, state := BG, cmdline := c } =
      { pid := p, jid := 1, state := BG, cmdline := c } ::
        List.replicate 15 clearjob := rfl
  refine ⟨{ sh := (addjob (initShell verbose) p BG c).sh,
            out := (addjob (initShell verbose) p BG c).out ++ "[" ++
              toString (if (addjob (initShell verbose) p BG c).sh.nextjid - 1 > 0 then
                (addjob (initShell verbose) p BG c).sh.nextjid - 1 else (MAXJOBS : Int)) ++
              "] (" ++ toString p ++ ") " ++ c,
            kills := [], waitfg := none }, ?_, ?_, ?_, ?_, rfl, rfl, ?_, ?_, ?_, ?_⟩
  · simp only [eval, hcmd, beq_self_eq_true, if_true, hnot0, if_false, Bool.not_true,
      Bool.false_eq_true]
  · rw [hadd]
  · rw [hadd]
  · rw [hadd]
    have h1 : (if (2 : Int) - 1 > 0 then (2 : Int) - 1 else (MAXJOBS : Int)) = 1 := by decide
    have ht : toString (1 : Int) = "1" := by decide
    simp only [h1, ht]
    cases verbose
    · simp only [Bool.false_eq_true, if_false, String.append_assoc]
      rfl
    · simp only [if_true, String.append_assoc]
      rfl
  · rw [hadd, hset]
    simp [getjobpid, hnot, firstIdx]
  · rw [hadd, hset]; rfl
  · rw [hadd, hset]; rfl
  · rw [hadd, hset]; rfl

/-- Witness for C14: `/bin/sleep 5 &` launched as pid 4321 from the initialised
table. -/
theorem first_background_launch_witness :
    builtin_cmd "/bin/sleep" = some 0 ∧ (1 : Int) ≤ 4321 ∧
      ∃ e, eval (initShell false) ["/bin/sleep", "5"] true [] "/bin/sleep 5 &\n" 4321 =
          .returns e ∧
        e.out = "[1] (4321) /bin/sleep 5 &\n" ∧ getjobpid e.sh.jobs 4321 = some 0 := by
  obtain ⟨e, he, _, _, hout, _, _, hget, _⟩ :=
    first_background_launch false "/bin/sleep" ["5"] [] "/bin/sleep 5 &\n" 4321
      (by decide) (by decide)
  exact ⟨by decide, by decide, e, he, by rw [hout]; decide, hget⟩

/-! ## C15: reports of the child-status handler -/

/-- C15 (the code departs from it): the job of `bgShell` is killed by signal 9,
and the report says `terminated by signal 2`; it is stopped by signal 19, and the
report says `stopped by signal 20`: both numbers are fixed in the format strings.
The jid and pid in the reports are those of the job. -/
theorem report_signal_number_fixed :
    (sigchld_body bgShell 1234 (.signaled 9)).map Prod.snd =
        some "Job [1] (1234) terminated by signal 2\n" ∧
      (sigchld_body bgShell 1234 (.stopped 19)).map Prod.snd =
        some "Job [1] (1234) stopped by signal 20\n" := by
  decide

/-! ## C16: the listing -/

theorem listjob_eq_jobLine (i : Nat) (j : job_t)
    (hst : j.pid ≠ 0 → j.state = BG ∨ j.state = FG ∨ j.state = ST) :
    listjob i j = if j.pid = 0 then "" else jobLine j := by
  by_cases hp : j.pid = 0
  · simp [listjob, hp]
  · have hne : (j.pid != 0) = true := by simpa using hp
    simp only [listjob, hne, if_true, hp, if_false, jobLine, stateWord]
    rcases hst hp with h | h | h
    · simp only [h, beq_self_eq_true, if_true]
    · have h1 : (FG == BG) = false := by decide
      have h2 : ¬ (FG = BG) := by decide
      simp only [h, h1, h2, Bool.false_eq_true, if_false, beq_self_eq_true, if_true]
    · have h1 : (ST == BG) = false := by decide
      have h2 : (ST == FG) = false := by decide
      have h3 : ¬ (ST = BG) := by decide
      have h4 : ¬ (ST = FG) := by decide
      simp only [h, h1, h2, h3, h4, Bool.false_eq_true, if_false, beq_self_eq_true, if_true]

theorem listjobsFrom_eq_listing (jobs : List job_t) :
    ∀ i : Nat, (∀ j ∈ jobs, j.pid ≠ 0 → j.state = BG ∨ j.state = FG ∨ j.state = ST) →
      listjobsFrom i jobs = listing jobs := by
  induction jobs with
  | nil => intro i _; rfl
  | cons a l ih =>
    intro i h
    simp only [listjobsFrom, listing]
    rw [listjob_eq_jobLine i a (h a (List.mem_cons_self _ _)),
      ih (i + 1) (fun j hj => h j (List.mem_cons_of_mem _ hj))]

/-- C16: for every job table whose active slots are in state `BG`, `FG` or `ST`,
the text `listjobs` prints is the concatenation, in slot order, of one line
`[jid] (pid) <Running|Foreground|Stopped> cmdline` per slot whose pid is not 0
and of nothing for the free slots; and the command `jobs` prints that text,
sends nothing, waits for nothing and leaves the globals unchanged (so a second
`jobs` prints the same). -/
theorem listjobs_format (s : Shell) (args : List String) (bg : Bool) (behind : List Char)
    (cmdline : String) (pid : Int)
    (hst : ∀ j ∈ s.jobs, j.pid ≠ 0 → j.state = BG ∨ j.state = FG ∨ j.state = ST) :
    listjobs s.jobs = listing s.jobs ∧
      eval s ("jobs" :: args) bg behind cmdline pid =
        .returns { sh := s, out := listing s.jobs, kills := [], waitfg := none } := by
  have h := listjobsFrom_eq_listing s.jobs 0 hst
  refine ⟨h, ?_⟩
  have hc : builtin_cmd "jobs" = some 1 := by decide
  have h10 : ((1 : Int) == 0) = false := by decide
  simp only [eval, hc, h10, Bool.false_eq_true, if_false, beq_self_eq_true, if_true,
    Effect.say]
  rw [← h]
  rfl

/-- Witness for C16: the listing of the table with one stopped job. -/
theorem listjobs_format_witness :
    (∀ j ∈ stoppedShell.jobs, j.pid ≠ 0 → j.state = BG ∨ j.state = FG ∨ j.state = ST) ∧
      listjobs stoppedShell.jobs = "[1] (1234) Stopped /bin/sleep 60\n" :=
  ⟨by decide,
    (listjobs_format stoppedShell [] false [] "jobs\n" 0 (by decide)).1.trans (by decide)⟩

/-! ## C17: the interrupt and suspend handlers -/

theorem fgpid_of_exists {jobs : List job_t} (h : FgHasPid jobs)
    (hfg : ∃ j ∈ jobs, j.state = FG) :
    fgpid jobs ≠ 0 ∧ ∃ j ∈ jobs, j.state = FG ∧ j.pid = fgpid jobs := by
  obtain ⟨j, hj, hjs⟩ := hfg
  obtain ⟨i, hi⟩ := firstIdx_isSome_of_mem (p := fun j => j.state == FG) hj (by simpa using hjs)
  obtain ⟨hlt, hp, _⟩ := firstIdx_eq_some hi
  have hst : (jobs.getD i clearjob).state = FG := by simpa using hp
  have hval : fgpid jobs = (jobs.getD i clearjob).pid := by
    unfold fgpid
    rw [hi]
  refine ⟨?_, jobs.getD i clearjob, getD_mem hlt, hst, hval.symm⟩
  rw [hval]
  exact h _ (getD_mem hlt) hst

theorem fgpid_of_none {jobs : List job_t} (h : ∀ j ∈ jobs, j.state ≠ FG) : fgpid jobs = 0 := by
  have hnone : firstIdx (fun j => j.state == FG) jobs = none := by
    apply firstIdx_eq_none.mpr
    intro j hj
    simpa using h j hj
  unfold fgpid
  rw [hnone]

/-- C17: in a job table whose `FG` slots hold a pid, `sigint_handler` and
`sigtstp_handler` leave the globals unchanged; when some job has state `FG`,
`fgpid(jobs)` is the pid of such a job and the handlers send exactly one signal,
`SIGINT` respectively `SIGTSTP`, to the process group `-fgpid(jobs)`; when no job
has state `FG` they send nothing. -/
theorem interrupt_handlers (s : Shell) (h : FgHasPid s.jobs) :
    (sigint_handler s).sh = s ∧ (sigtstp_handler s).sh = s ∧
    ((∃ j ∈ s.jobs, j.state = FG) →
      (∃ j ∈ s.jobs, j.state = FG ∧ j.pid = fgpid s.jobs) ∧
      (sigint_handler s).kills = [(-fgpid s.jobs, SIGINT)] ∧
      (sigtstp_handler s).kills = [(-fgpid s.jobs, SIGTSTP)]) ∧
    ((∀ j ∈ s.jobs, j.state ≠ FG) →
      (sigint_handler s).kills = [] ∧ (sigtstp_handler s).kills = []) := by
  refine ⟨?_, ?_, ?_, ?_⟩
  · unfold sigint_handler
    simp only
    split <;> rfl
  · unfold sigtstp_handler
    simp only
    split <;> rfl
  · intro hfg
    obtain ⟨hne, hex⟩ := fgpid_of_exists h hfg
    have hb : (fgpid s.jobs != 0) = true := by simpa using hne
    refine ⟨hex, ?_, ?_⟩
    · simp only [sigint_handler, hb, if_true]
    · simp only [sigtstp_handler, hb, if_true]
  · intro hno
    have h0 := fgpid_of_none hno
    constructor
    · simp [sigint_handler, h0, Effect.say]
    · simp [sigtstp_handler, h0, Effect.say]

/-- Witness for C17: with pid 100 in the foreground, ctrl-c sends `SIGINT` to the
group -100. -/
theorem interrupt_handlers_witness :
    FgHasPid fgSessionEnd.sh.jobs ∧ (∃ j ∈ fgSessionEnd.sh.jobs, j.state = FG) ∧
      (sigint_handler fgSessionEnd.sh).kills = [(-100, SIGINT)] :=
  have hwf : FgHasPid fgSessionEnd.sh.jobs := by unfold FgHasPid; decide
  have hfg : ∃ j ∈ fgSessionEnd.sh.jobs, j.state = FG := by decide
  ⟨hwf, hfg, ((interrupt_handlers fgSessionEnd.sh hwf).2.2.1 hfg).2.1.trans (by decide)⟩

/-! ## Well-formedness of the reachable tables -/

theorem SlotOK_set {l : List job_t} (h : ∀ j ∈ l, SlotOK j) (i : Nat) {x : job_t}
    (hx : SlotOK x) : ∀ j ∈ l.set i x, SlotOK j := by
  intro j hj
  rcases List.mem_or_eq_of_mem_set hj with hj | rfl
  · exact h j hj
  · exact hx

theorem SlotOK_active_of_pid {j : job_t} (h : SlotOK j) (hp : 1 ≤ j.pid) :
    1 ≤ j.pid ∧ 1 ≤ j.jid ∧ (j.state = FG ∨ j.state = BG ∨ j.state = ST) := by
  rcases h with rfl | h
  · exact absurd hp (by decide)
  · exact h

theorem addjob_WellFormed (s : Shell) (pid state : Int) (cmdline : String)
    (hst : state = FG ∨ state = BG ∨ state = ST) (h : WellFormed s) :
    WellFormed (addjob s pid state cmdline).sh := by
  obtain ⟨h1, h2⟩ := h
  unfold addjob
  split
  · exact ⟨h1, h2⟩
  · split
    · rename_i hpid _ _ _
      have hp1 : 1 ≤ pid := by omega
      refine ⟨SlotOK_set h1 _ (Or.inr ⟨hp1, h2, hst⟩), ?_⟩
      simp only
      split <;> omega
    · exact ⟨h1, h2⟩

theorem deletejob_WellFormed (s : Shell) (pid : Int) (h : WellFormed s) :
    WellFormed (deletejob s pid).2 := by
  obtain ⟨h1, h2⟩ := h
  unfold deletejob
  split
  · exact ⟨h1, h2⟩
  · split
    · rename_i i _
      refine ⟨SlotOK_set h1 _ (Or.inl rfl), ?_⟩
      have := maxjid_nonneg (s.jobs.set i clearjob)
      simp only
      omega
    · exact ⟨h1, h2⟩

theorem set_state_WellFormed {s : Shell} {pid : Int} {i : Nat} (st : Int)
    (hst : st = FG ∨ st = BG ∨ st = ST) (hi : getjobpid s.jobs pid = some i)
    (h : WellFormed s) :
    WellFormed { s with jobs := s.jobs.set i { s.jobs.getD i clearjob with state := st } } := by
  obtain ⟨h1, h2⟩ := h
  obtain ⟨hp, hlt, hpi, _⟩ := getjobpid_eq_some hi
  have hact := SlotOK_active_of_pid (h1 _ (getD_mem hlt)) (by rw [hpi]; exact hp)
  exact ⟨SlotOK_set h1 _ (Or.inr ⟨hact.1, hact.2.1, hst⟩), h2⟩

theorem sigchld_body_WellFormed {s s1 : Shell} {pid : Int} {status : WaitStatus}
    {out : String} (hb : sigchld_body s pid status = some (s1, out)) (h : WellFormed s) :
    WellFormed s1 := by
  unfold sigchld_body at hb
  split at hb
  · simp only [Option.some.injEq, Prod.mk.injEq] at hb
    rw [← hb.1]; exact deletejob_WellFormed s pid h
  · split at hb
    · split at hb
      · simp at hb
      · rename_i i hi
        simp only [Option.some.injEq, Prod.mk.injEq] at hb
        rw [← hb.1]
        exact set_state_WellFormed ST (Or.inr (Or.inr rfl)) hi h
    · split at hb
      · simp only [Option.some.injEq, Prod.mk.injEq] at hb
        rw [← hb.1]; exact deletejob_WellFormed s pid h
      · simp only [Option.some.injEq, Prod.mk.injEq] at hb
        rw [← hb.1]; exact h

theorem sigchld_handler_WellFormed (events : List (Int × WaitStatus)) :
    ∀ {s s2 : Shell} {out : String}, sigchld_handler s events = some (s2, out) →
      WellFormed s → WellFormed s2 := by
  induction events with
  | nil =>
    intro s s2 out hh h
    simp only [sigchld_handler, Option.some.injEq, Prod.mk.injEq] at hh
    rw [← hh.1]; exact h
  | cons e more ih =>
    intro s s2 out hh h
    obtain ⟨pid, status⟩ := e
    simp only [sigchld_handler] at hh
    split at hh
    · cases hb : sigchld_body s pid status with
      | none => simp [hb] at hh
      | some r =>
        obtain ⟨s1, out1⟩ := r
        simp only [hb] at hh
        cases hr : sigchld_handler s1 more with
        | none => simp [hr] at hh
        | some r2 =>
          obtain ⟨s3, out3⟩ := r2
          simp only [hr, Option.some.injEq, Prod.mk.injEq] at hh
          rw [← hh.1]
          exact ih hr (sigchld_body_WellFormed hb h)
    · simp only [Option.some.injEq, Prod.mk.injEq] at hh
      rw [← hh.1]; exact h

theorem bgfg_act_WellFormed {s : Shell} {bg : Bool} {pid : Int} {i : Nat}
    (hi : getjobpid s.jobs pid = some i) (h : WellFormed s) :
    WellFormed (bgfg_act s bg pid i).sh := by
  simp only [bgfg_act]
  split
  · exact set_state_WellFormed BG (Or.inr (Or.inl rfl)) hi h
  · split
    · exact set_state_WellFormed FG (Or.inl rfl) hi h
    · split
      · exact set_state_WellFormed FG (Or.inl rfl) hi h
      · exact h

theorem do_bgfg_WellFormed (s : Shell) (argv0 jobArgument : String) (behind : List Char)
    (h : WellFormed s) : WellFormed (do_bgfg s argv0 jobArgument behind).sh := by
  unfold do_bgfg
  split
  · exact h
  · simp only
    split
    · exact h
    · split
      · exact h
      · rename_i i hi
        exact bgfg_act_WellFormed hi h

theorem eval_WellFormed {s : Shell} {argv : List String} {bg : Bool} {behind : List Char}
    {cmdline : String} {pid : Int} {e : Effect}
    (he : eval s argv bg behind cmdline pid = .returns e) (h : WellFormed s) :
    WellFormed e.sh := by
  unfold eval at he
  split at he
  · simp only [Outcome.returns.injEq] at he
    rw [← he]; exact h
  · split at he
    · simp at he
    · split at he
      · split at he
        · simp at he
        · cases bg with
          | false =>
            simp only [Bool.not_false, if_true, Outcome.returns.injEq] at he
            rw [← he]
            exact addjob_WellFormed s pid _ cmdline (Or.inl rfl) h
          | true =>
            simp only [Bool.not_true, Bool.false_eq_true, if_false, if_true,
              Outcome.returns.injEq] at he
            rw [← he]
            exact addjob_WellFormed s pid BG cmdline (Or.inr (Or.inl rfl)) h
      · split at he
        · simp only [Outcome.returns.injEq] at he
          rw [← he]; exact h
        · split at he
          · split at he
            · simp only [Outcome.returns.injEq] at he
              rw [← he]; exact h
            · simp only [Outcome.returns.injEq] at he
              rw [← he]; exact do_bgfg_WellFormed s _ _ behind h
          · simp only [Outcome.returns.injEq] at he
            rw [← he]; exact h

theorem step_WellFormed {s t : Sys} {a : Action} (hs : step s a = some t)
    (h : WellFormed s.sh) : WellFormed t.sh := by
  cases a with
  | command argv bg behind cmdline pid =>
    simp only [step] at hs
    split at hs
    · simp at hs
    · split at hs
      · rename_i e he
        simp only [Option.some.injEq] at hs
        rw [← hs]; exact eval_WellFormed he h
      · simp at hs
  | sigchld events =>
    simp only [step] at hs
    split at hs
    · rename_i sh1 out hh
      simp only [Option.some.injEq] at hs
      rw [← hs]; exact sigchld_handler_WellFormed events hh h
    · simp at hs
  | waitfgReturn =>
    simp only [step] at hs
    split at hs
    · simp only [Option.some.injEq] at hs
      rw [← hs]; exact h
    · simp at hs

theorem run_WellFormed (acts : List Action) :
    ∀ {s t : Sys}, run s acts = some t → WellFormed s.sh → WellFormed t.sh := by
  induction acts with
  | nil =>
    intro s t hr h
    simp only [run, Option.some.injEq] at hr
    rw [← hr]; exact h
  | cons a more ih =>
    intro s t hr h
    simp only [run] at hr
    split at hr
    · rename_i s1 hs
      exact ih hr (step_WellFormed hs h)
    · simp at hr

/-- Every state the shell reaches has well-formed globals. -/
theorem reachable_WellFormed {t : Sys} (h : Reachable t) : WellFormed t.sh := by
  obtain ⟨verbose, acts, hr⟩ := h
  refine run_WellFormed acts hr ⟨?_, le_refl (1 : Int)⟩
  intro j hj
  exact Or.inl (List.eq_of_mem_replicate hj)

/-- In every state the shell reaches, each `FG` slot holds a pid (the premise of
`interrupt_handlers`) and each active slot is in state `BG`, `FG` or `ST` (the
premise of `listjobs_format`). -/
theorem reachable_premises {t : Sys} (h : Reachable t) :
    FgHasPid t.sh.jobs ∧
      ∀ j ∈ t.sh.jobs, j.pid ≠ 0 → j.state = BG ∨ j.state = FG ∨ j.state = ST := by
  have hwf := reachable_WellFormed h
  constructor
  · intro j hj hst
    rcases hwf.1 j hj with rfl | hact
    · exact absurd hst (by decide)
    · omega
  · intro j hj hp
    rcases hwf.1 j hj with rfl | hact
    · exact absurd rfl hp
    · rcases hact.2.2 with h1 | h1 | h1
      · exact Or.inr (Or.inl h1)
      · exact Or.inl h1
      · exact Or.inr (Or.inr h1)

end Tsh

namespace Cart

/-! ## Facts about `find_file` -/

theorem setEntry_same (t : Nat → file_handle) (i : Nat) (x : file_handle) :
    setEntry t i x i = x := by
  simp [setEntry]

theorem setEntry_other (t : Nat → file_handle) {i k : Nat} (x : file_handle) (h : k ≠ i) :
    setEntry t i x k = t k := by
  simp [setEntry, h]

/-- The scan ends with -1 at the first empty name when no name before it matches. -/
theorem find_file_loop_absent (t : Nat → file_handle) (name : List Char) :
    ∀ (fuel i n : Nat), i ≤ n → n < i + fuel → (t n).file_name = [] →
      (∀ m, i ≤ m → m < n → (t m).file_name ≠ [] ∧
        (t m).file_name.length < MAX_NAME_LENGTH ∧ (t m).file_name ≠ name) →
      find_file_loop t name fuel i = some (-1) := by
  intro fuel
  induction fuel with
  | zero => intro i n h1 h2; omega
  | succ fuel ih =>
    intro i n h1 h2 hn hbefore
    by_cases hin : i = n
    · subst hin
      simp [find_file_loop, hn]
    · obtain ⟨a, b, c⟩ := hbefore i (le_refl _) (by omega)
      have hb : ¬ (MAX_NAME_LENGTH ≤ (t i).file_name.length ∧
          name.take MAX_NAME_LENGTH = (t i).file_name) := fun h => by omega
      simp only [find_file_loop, a, hb, c, if_false]
      exact ih (i + 1) n (by omega) (by omega) hn
        (fun m hm1 hm2 => hbefore m (by omega) hm2)

/-- The scan ends at the first entry whose name matches, when the names before it
are non-empty, terminated and different. -/
theorem find_file_loop_found (t : Nat → file_handle) (name : List Char) :
    ∀ (fuel i k : Nat), i ≤ k → k < i + fuel → (t k).file_name = name → name ≠ [] →
      name.length < MAX_NAME_LENGTH →
      (∀ m, i ≤ m → m < k → (t m).file_name ≠ [] ∧
        (t m).file_name.length < MAX_NAME_LENGTH ∧ (t m).file_name ≠ name) →
      find_file_loop t name fuel i =
        some (if (t k).open_status ≠ 0 then -2 else (k : Int)) := by
  intro fuel
  induction fuel with
  | zero => intro i k h1 h2; omega
  | succ fuel ih =>
    intro i k h1 h2 hk hne hshort hbefore
    by_cases hik : i = k
    · subst hik
      have hb : ¬ (MAX_NAME_LENGTH ≤ name.length ∧
          name.take MAX_NAME_LENGTH = name) := fun h => by omega
      simp only [find_file_loop, hk, hne, hb, if_false, if_true]
    · obtain ⟨a, b, c⟩ := hbefore i (le_refl _) (by omega)
      have hb : ¬ (MAX_NAME_LENGTH ≤ (t i).file_name.length ∧
          name.take MAX_NAME_LENGTH = (t i).file_name) := fun h => by omega
      simp only [find_file_loop, a, hb, c, if_false]
      exact ih (i + 1) k (by omega) (by omega) hk hne hshort
        (fun m hm1 hm2 => hbefore m (by omega) hm2)

/-- The scan runs off the array when every remaining name is non-empty and
different. -/
theorem find_file_loop_runs_off (t : Nat → file_handle) (name : List Char) :
    ∀ (fuel i : Nat),
      (∀ m, i ≤ m → m < i + fuel → (t m).file_name ≠ [] ∧
        (t m).file_name.length < MAX_NAME_LENGTH ∧ (t m).file_name ≠ name) →
      find_file_loop t name fuel i = none := by
  intro fuel
  induction fuel with
  | zero => intro i _; rfl
  | succ fuel ih =>
    intro i hall
    obtain ⟨a, b, c⟩ := hall i (le_refl _) (by omega)
    have hb : ¬ (MAX_NAME_LENGTH ≤ (t i).file_name.length ∧
        name.take MAX_NAME_LENGTH = (t i).file_name) := fun h => by omega
    simp only [find_file_loop, a, hb, c, if_false]
    exact ih (i + 1) (fun m hm1 hm2 => hall m (by omega) (by omega))

theorem find_file_of_match {d : Driver} {name : List Char} {k : Nat} (hg : GoodTable d)
    (hk : (k : Int) < d.next_fd) (hname : (d.VnodeTable k).file_name = name) :
    find_file d name =
      some (if (d.VnodeTable k).open_status ≠ 0 then -2 else (k : Int)) := by
  obtain ⟨h0, hmax, hnames, hdist, _⟩ := hg
  obtain ⟨hne, hshort⟩ := hnames k hk
  rw [hname] at hne hshort
  have hkm : k < MAX_FILES := by
    have : (k : Int) < (MAX_FILES : Int) := by omega
    exact_mod_cast this
  apply find_file_loop_found d.VnodeTable name MAX_FILES 0 k (Nat.zero_le _) (by omega)
    hname hne hshort
  intro m _ hmk
  have hm : (m : Int) < d.next_fd := by omega
  obtain ⟨a, b⟩ := hnames m hm
  refine ⟨a, b, ?_⟩
  intro hmn
  have := hdist m k hm hk (by rw [hmn, hname])
  omega

theorem find_file_of_absent {d : Driver} {name : List Char} (hg : GoodTable d)
    (hno : ∀ k : Nat, (k : Int) < d.next_fd → (d.VnodeTable k).file_name ≠ name) :
    find_file d name = if d.next_fd < (MAX_FILES : Int) then some (-1) else none := by
  obtain ⟨h0, hmax, hnames, hdist, hrest⟩ := hg
  have hbefore : ∀ m : Nat, m < d.next_fd.toNat → (d.VnodeTable m).file_name ≠ [] ∧
      (d.VnodeTable m).file_name.length < MAX_NAME_LENGTH ∧
      (d.VnodeTable m).file_name ≠ name := by
    intro m hm
    have hm2 : (m : Int) < d.next_fd := by omega
    exact ⟨(hnames m hm2).1, (hnames m hm2).2, hno m hm2⟩
  split
  · rename_i hlt
    apply find_file_loop_absent d.VnodeTable name MAX_FILES 0 d.next_fd.toNat (Nat.zero_le _)
    · have : (d.next_fd.toNat : Int) < (MAX_FILES : Int) := by omega
      have : d.next_fd.toNat < MAX_FILES := by exact_mod_cast this
      omega
    · exact hrest _ (by omega)
    · intro m _ hm
      exact hbefore m hm
  · rename_i hge
    apply find_file_loop_runs_off d.VnodeTable name MAX_FILES 0
    intro m _ hm
    apply hbefore m
    have : (MAX_FILES : Int) ≤ d.next_fd := by omega
    have h2 : ((MAX_FILES : Nat) : Int) ≤ (d.next_fd.toNat : Int) := by omega
    have : MAX_FILES ≤ d.next_fd.toNat := by exact_mod_cast h2
    omega

/-! ## `cart_open` and `cart_close` on a good table -/

theorem GoodTable_of_names {d e : Driver} (hg : GoodTable d) (hn : e.next_fd = d.next_fd)
    (hnames : ∀ i, (e.VnodeTable i).file_name = (d.VnodeTable i).file_name) :
    GoodTable e := by
  obtain ⟨h0, hmax, hne, hdist, hrest⟩ := hg
  refine ⟨by omega, by omega, ?_, ?_, ?_⟩
  · intro i hi
    rw [hnames i]
    exact hne i (by omega)
  · intro i k hi hk h
    rw [hnames i, hnames k] at h
    exact hdist i k (by omega) (by omega) h
  · intro i hi
    rw [hnames i]
    exact hrest i (by omega)

theorem GoodTable_init : GoodTable initDriver := by
  refine ⟨le_refl _, by decide, ?_, ?_, ?_⟩
  · intro i hi
    have : (0 : Int) ≤ (i : Int) := Int.ofNat_nonneg i
    have h0 : initDriver.next_fd = 0 := rfl
    omega
  · intro i k hi
    have : (0 : Int) ≤ (i : Int) := Int.ofNat_nonneg i
    have h0 : initDriver.next_fd = 0 := rfl
    omega
  · intro i _
    rfl

/-- `cart_open` for a name that is in the table, in entry `k`. -/
theorem cart_open_match {d : Driver} {name : List Char} {k : Nat} (hg : GoodTable d)
    (hk : (k : Int) < d.next_fd) (hname : (d.VnodeTable k).file_name = name) :
    cart_open d name =
      if (d.VnodeTable k).open_status ≠ 0 then
        some { ret := -1, d := d, out := "Invalid Command: cannot open a file twice." }
      else
        some { ret := (k : Int),
               d := { VnodeTable := setEntry d.VnodeTable k
                        { d.VnodeTable k with open_status := 1, file_pos := 0 },
                      next_fd := d.next_fd },
               out := "" } := by
  have hf := find_file_of_match hg hk hname
  have hmax := hg.2.1
  have hk0 : (0 : Int) ≤ (k : Int) := Int.ofNat_nonneg k
  unfold cart_open
  by_cases hopen : (d.VnodeTable k).open_status ≠ 0
  · rw [if_pos hopen] at hf
    rw [hf, if_pos hopen]
    have h1 : ¬ ((-2 : Int) = -1) := by decide
    simp only [h1, if_false, if_true]
  · rw [if_neg hopen] at hf
    rw [hf, if_neg hopen]
    have h1 : ¬ ((k : Int) = -1) := by omega
    have h2 : ¬ ((k : Int) = -2) := by omega
    have h3 : ¬ ((k : Int) < 0 ∨ (MAX_FILES : Int) ≤ (k : Int)) := by omega
    simp only [if_false, h1, h2, h3, Int.toNat_ofNat]

/-- `cart_open` for a name that is not in the table. -/
theorem cart_open_absent {d : Driver} {name : List Char} (hg : GoodTable d)
    (hno : ∀ k : Nat, (k : Int) < d.next_fd → (d.VnodeTable k).file_name ≠ name) :
    cart_open d name =
      if d.next_fd < (MAX_FILES : Int) then
        some { ret := d.next_fd + 1 - 1,
               d := { VnodeTable := setEntry d.VnodeTable d.next_fd.toNat
                        { d.VnodeTable d.next_fd.toNat with
                          file_name := name.take MAX_NAME_LENGTH,
                          open_status := 1,
                          file_pos := 0,
                          file_size := 0,
                          used_carts0 := (d.next_fd + 1) / 10,
                          used_carts1 := (d.next_fd % 10) * MAX_FILE_SIZE },
                      next_fd := d.next_fd + 1 },
               out := "" }
      else none := by
  have hf := find_file_of_absent hg hno
  have h0 := hg.1
  unfold cart_open
  rw [hf]
  by_cases hlt : d.next_fd < (MAX_FILES : Int)
  · have h3 : ¬ (d.next_fd < 0 ∨ (MAX_FILES : Int) ≤ d.next_fd) := by omega
    simp only [hlt, if_true, h3, if_false]
  · simp only [hlt, if_false]

/-- A good table stays good under `cart_open` with a non-empty name shorter than
the name buffer. -/
theorem cart_open_good {d : Driver} {name : List Char} {r : Result} (hg : GoodTable d)
    (hne : name ≠ []) (hshort : name.length < MAX_NAME_LENGTH)
    (h : cart_open d name = some r) : GoodTable r.d := by
  by_cases hex : ∃ k : Nat, (k : Int) < d.next_fd ∧ (d.VnodeTable k).file_name = name
  · obtain ⟨k, hk, hname⟩ := hex
    rw [cart_open_match hg hk hname] at h
    split at h
    · simp only [Option.some.injEq] at h
      rw [← h]; exact hg
    · simp only [Option.some.injEq] at h
      rw [← h]
      refine GoodTable_of_names hg ?_ ?_
      · rfl
      intro i
      by_cases hik : i = k
      · subst hik
        simp only [setEntry_same]
      · simp only [setEntry_other _ _ hik]
  · have hno : ∀ k : Nat, (k : Int) < d.next_fd → (d.VnodeTable k).file_name ≠ name :=
      fun k hk hname => hex ⟨k, hk, hname⟩
    rw [cart_open_absent hg hno] at h
    split at h
    · rename_i hlt
      simp only [Option.some.injEq] at h
      rw [← h]
      obtain ⟨h0, hmax, hnames, hdist, hrest⟩ := hg
      have htake : name.take MAX_NAME_LENGTH = name := List.take_of_length_le (by omega)
      have hn : ((d.next_fd.toNat : Nat) : Int) = d.next_fd := Int.toNat_of_nonneg h0
      refine ⟨by simp only; omega, by simp only; omega, ?_, ?_, ?_⟩
      · intro i hi
        simp only at hi ⊢
        by_cases hin : i = d.next_fd.toNat
        · subst hin
          simp only [setEntry_same, htake]
          exact ⟨hne, hshort⟩
        · simp only [setEntry_other _ _ hin]
          exact hnames i (by omega)
      · intro i k hi hk hik
        simp only at hi hk hik
        by_cases hin : i = d.next_fd.toNat
        · by_cases hkn : k = d.next_fd.toNat
          · omega
          · rw [hin] at hik
            simp only [setEntry_same, setEntry_other _ _ hkn, htake] at hik
            exact absurd hik.symm (hno k (by omega))
        · by_cases hkn : k = d.next_fd.toNat
          · rw [hkn] at hik
            simp only [setEntry_same, setEntry_other _ _ hin, htake] at hik
            exact absurd hik (hno i (by omega))
          · simp only [setEntry_other _ _ hin, setEntry_other _ _ hkn] at hik
            exact hdist i k (by omega) (by omega) hik
      · intro i hi
        simp only at hi ⊢
        have hin : i ≠ d.next_fd.toNat := by omega
        simp only [setEntry_other _ _ hin]
        exact hrest i (by omega)
    · simp at h

/-- A good table stays good under `cart_close`. -/
theorem cart_close_good {d : Driver} {fd : Int} {r : Result} (hg : GoodTable d)
    (h : cart_close d fd = some r) : GoodTable r.d := by
  unfold cart_close at h
  split at h
  · simp only [Option.some.injEq] at h
    rw [← h]; exact hg
  · split at h
    · simp at h
    · split at h
      · simp only [Option.some.injEq] at h
        rw [← h]; exact hg
      · simp only [Option.some.injEq] at h
        rw [← h]
        refine GoodTable_of_names hg ?_ ?_
        · rfl
        intro i
        by_cases hik : i = fd.toNat
        · subst hik
          simp only [setEntry_same]
        · simp only [setEntry_other _ _ hik]

theorem afterOpen_good {d : Driver} {name : List Char} (hg : GoodTable d) (hne : name ≠ [])
    (hshort : name.length < MAX_NAME_LENGTH) : GoodTable (afterOpen d name) := by
  unfold afterOpen
  cases h : cart_open d name with
  | none => exact hg
  | some r => exact cart_open_good hg hne hshort h

theorem oneFileDriver_good : GoodTable oneFileDriver :=
  afterOpen_good GoodTable_init (by decide) (by decide)

/-! ## C19: opening a file that is open -/

/-- C19 as stated fails: after `cart_open("")` (handle 0) and `cart_open("a")`
(handle 1) the file `a` is open, yet a second `cart_open("a")` returns the new
handle 2 instead of -1 and moves `next_fd` to 3: the scan of `find_file` stops at
the empty name in entry 0 and never sees entry 1. -/
theorem open_twice_behind_empty_name :
    (cart_open initDriver []).map Result.ret = some 0 ∧
      (cart_open emptyNameDriver "a".toList).map Result.ret = some 1 ∧
      (shadowedDriver.VnodeTable 1).file_name = "a".toList ∧
      (shadowedDriver.VnodeTable 1).open_status = 1 ∧
      shadowedDriver.next_fd = 2 ∧
      (cart_open shadowedDriver "a".toList).map Result.ret = some 2 ∧
      (cart_open shadowedDriver "a".toList).map (fun r => r.d.next_fd) = some 3 := by
  decide

/-- C19 (amended): in a table built from non-empty names shorter than the name
buffer (entries below `next_fd` with non-empty, terminated, pairwise different
names, empty names from `next_fd` on), for every name of a file that is
currently open, `cart_open` returns -1 and leaves the file table and `next_fd`
unchanged. -/
theorem cart_open_twice_refused (d : Driver) (name : List Char) (k : Nat)
    (hg : GoodTable d) (hk : (k : Int) < d.next_fd)
    (hname : (d.VnodeTable k).file_name = name)
    (hopen : (d.VnodeTable k).open_status ≠ 0) :
    cart_open d name =
      some { ret := -1, d := d, out := "Invalid Command: cannot open a file twice." } := by
  rw [cart_open_match hg hk hname, if_pos hopen]

/-- Witness for C19 (amended): `a` is open as handle 0 and is opened again. -/
theorem cart_open_twice_refused_witness :
    GoodTable oneFileDriver ∧ ((0 : Nat) : Int) < oneFileDriver.next_fd ∧
      (oneFileDriver.VnodeTable 0).file_name = "a".toList ∧
      (oneFileDriver.VnodeTable 0).open_status ≠ 0 ∧
      (cart_open oneFileDriver "a".toList).map Result.ret = some (-1) :=
  ⟨oneFileDriver_good, by decide, by decide, by decide,
    by rw [cart_open_twice_refused oneFileDriver "a".toList 0 oneFileDriver_good (by decide)
      (by decide) (by decide)]; rfl⟩

/-! ## C20: close and reopen -/

/-- C20 as stated fails: in the table left by `cart_open("")`, `cart_open("a")`
returns handle 1 and `cart_close(1)` returns 0, but the second `cart_open("a")`
returns the new handle 2 and moves `next_fd` from 2 to 3: `find_file` stops at the
empty name in entry 0 and does not find the closed file. -/
theorem reopen_allocates_behind_empty_name :
    (cart_open emptyNameDriver "a".toList).map Result.ret = some 1 ∧
      (cart_open emptyNameDriver "a".toList).map (fun r => r.d.next_fd) = some 2 ∧
      (cart_close shadowedDriver 1).map Result.ret = some 0 ∧
      (cart_open (afterClose shadowedDriver 1) "a".toList).map Result.ret = some 2 ∧
      (cart_open (afterClose shadowedDriver 1) "a".toList).map (fun r => r.d.next_fd) =
        some 3 := by
  decide

/-- What a successful `cart_open` leaves behind on a good table: the handle is
the index of an entry below `next_fd` that carries the name, is open and is at
position 0. -/
theorem cart_open_handle {d : Driver} {name : List Char} {r1 : Result} (hg : GoodTable d)
    (hshort : name.length < MAX_NAME_LENGTH)
    (h1 : cart_open d name = some r1) (hfd : 0 ≤ r1.ret) :
    ∃ k : Nat, r1.ret = (k : Int) ∧ (k : Int) < r1.d.next_fd ∧
      (r1.d.VnodeTable k).file_name = name ∧ (r1.d.VnodeTable k).open_status = 1 ∧
      (r1.d.VnodeTable k).file_pos = 0 := by
  by_cases hex : ∃ k : Nat, (k : Int) < d.next_fd ∧ (d.VnodeTable k).file_name = name
  · obtain ⟨k, hk, hname⟩ := hex
    rw [cart_open_match hg hk hname] at h1
    split at h1
    · simp only [Option.some.injEq] at h1
      rw [← h1] at hfd
      have hneg : ¬ ((0 : Int) ≤ -1) := by decide
      exact absurd hfd hneg
    · simp only [Option.some.injEq] at h1
      rw [← h1]
      refine ⟨k, rfl, hk, ?_, ?_, ?_⟩
      · simp only [setEntry_same]; exact hname
      · simp only [setEntry_same]
      · simp only [setEntry_same]
  · have hno : ∀ k : Nat, (k : Int) < d.next_fd → (d.VnodeTable k).file_name ≠ name :=
      fun k hk hname => hex ⟨k, hk, hname⟩
    rw [cart_open_absent hg hno] at h1
    split at h1
    · simp only [Option.some.injEq] at h1
      rw [← h1]
      have h0 := hg.1
      have hn : ((d.next_fd.toNat : Nat) : Int) = d.next_fd := Int.toNat_of_nonneg h0
      have htake : name.take MAX_NAME_LENGTH = name := List.take_of_length_le (by omega)
      refine ⟨d.next_fd.toNat, by simp only; omega, by simp only; omega, ?_, ?_, ?_⟩
      · simp only [setEntry_same, htake]
      · simp only [setEntry_same]
      · simp only [setEntry_same]
    · simp at h1

/-- Closing an open file at position 0 and opening its name again restores the
table. -/
theorem close_reopen_restores {d1 : Driver} {name : List Char} {k : Nat}
    (hg : GoodTable d1) (hk : (k : Int) < d1.next_fd)
    (hname : (d1.VnodeTable k).file_name = name)
    (hopen : (d1.VnodeTable k).open_status = 1) (hpos : (d1.VnodeTable k).file_pos = 0) :
    ∃ r2 r3, cart_close d1 (k : Int) = some r2 ∧ r2.ret = 0 ∧
      cart_open r2.d name = some r3 ∧ r3.ret = (k : Int) ∧
      r3.d.next_fd = d1.next_fd ∧ r3.d.VnodeTable = d1.VnodeTable := by
  have hmax := hg.2.1
  have hk0 : (0 : Int) ≤ (k : Int) := Int.ofNat_nonneg k
  have c1 : ¬ ((k : Int) ≥ d1.next_fd) := by omega
  have c2 : ¬ ((k : Int) < 0 ∨ (MAX_FILES : Int) ≤ (k : Int)) := by omega
  have c3 : ¬ ((d1.VnodeTable k).open_status = 0) := by rw [hopen]; decide
  have hclose : cart_close d1 (k : Int) =
      some { ret := 0,
             d := { VnodeTable := setEntry d1.VnodeTable k
                      { d1.VnodeTable k with open_status := 0, file_pos := 0 },
                    next_fd := d1.next_fd },
             out := "" } := by
    simp only [cart_close, c1, c2, Int.toNat_ofNat, c3, if_false]
  have hg2 : GoodTable
      { VnodeTable := setEntry d1.VnodeTable k
          { d1.VnodeTable k with open_status := 0, file_pos := 0 },
        next_fd := d1.next_fd } := by
    refine GoodTable_of_names hg ?_ ?_
    · rfl
    intro i
    by_cases hik : i = k
    · subst hik
      simp only [setEntry_same]
    · simp only [setEntry_other _ _ hik]
  have hopen2 := @cart_open_match _ name k hg2 hk (by simp only [setEntry_same]; exact hname)
  rw [if_neg (by simp only [setEntry_same]; decide)] at hopen2
  refine ⟨_, _, hclose, rfl, hopen2, rfl, rfl, ?_⟩
  funext i
  by_cases hik : i = k
  · subst hik
    simp only [setEntry_same]
    rw [← hopen, ← hpos]
  · simp only [setEntry_other _ _ hik]

/-- C20 (amended): in a table built from non-empty names shorter than the name
buffer, for every such name: if `cart_open(name)` returns a handle `fd`, then
`cart_close(fd)` returns 0 and a second `cart_open(name)` returns the same `fd`;
afterwards the file is open with `file_pos` 0, and the whole table (so the file's
size, cart and start frame) and `next_fd` are exactly what they were before the
close: no new handle is allocated. -/
theorem close_then_reopen (d : Driver) (name : List Char) (r1 : Result)
    (hg : GoodTable d) (hne : name ≠ []) (hshort : name.length < MAX_NAME_LENGTH)
    (h1 : cart_open d name = some r1) (hfd : 0 ≤ r1.ret) :
    ∃ r2 r3, cart_close r1.d r1.ret = some r2 ∧ r2.ret = 0 ∧
      cart_open r2.d name = some r3 ∧ r3.ret = r1.ret ∧
      r3.d.next_fd = r1.d.next_fd ∧ r3.d.VnodeTable = r1.d.VnodeTable ∧
      (r3.d.VnodeTable r1.ret.toNat).file_name = name ∧
      (r3.d.VnodeTable r1.ret.toNat).open_status = 1 ∧
      (r3.d.VnodeTable r1.ret.toNat).file_pos = 0 := by
  obtain ⟨k, hret, hk, hname, hopen, hpos⟩ := cart_open_handle hg hshort h1 hfd
  obtain ⟨r2, r3, hc, hr2, ho, hr3, hn, ht⟩ :=
    close_reopen_restores (cart_open_good hg hne hshort h1) hk hname hopen hpos
  rw [hret]
  refine ⟨r2, r3, hc, hr2, ho, hr3, hn, ht, ?_, ?_, ?_⟩
  · rw [ht, Int.toNat_ofNat]; exact hname
  · rw [ht, Int.toNat_ofNat]; exact hopen
  · rw [ht, Int.toNat_ofNat]; exact hpos

/-- Witness for C20 (amended): `a` is opened at start-up, closed and reopened. -/
theorem close_then_reopen_witness :
    GoodTable initDriver ∧ "a".toList ≠ [] ∧ "a".toList.length < MAX_NAME_LENGTH ∧
      ∃ r1, cart_open initDriver "a".toList = some r1 ∧ 0 ≤ r1.ret ∧
        ∃ r2 r3, cart_close r1.d r1.ret = some r2 ∧ r2.ret = 0 ∧
          cart_open r2.d "a".toList = some r3 ∧ r3.ret = r1.ret ∧
          r3.d.next_fd = r1.d.next_fd := by
  refine ⟨GoodTable_init, by decide, by decide, ?_⟩
  have hret : (cart_open initDriver "a".toList).map Result.ret = some 0 := by decide
  cases h : cart_open initDriver "a".toList with
  | none => rw [h] at hret; simp at hret
  | some r1 =>
    rw [h] at hret
    have h0 : r1.ret = 0 := by simpa using hret
    have hfd : 0 ≤ r1.ret := by omega
    obtain ⟨r2, r3, a, b, c, e, f, _⟩ :=
      close_then_reopen initDriver "a".toList r1 GoodTable_init (by decide) (by decide) h hfd
    exact ⟨r1, rfl, hfd, r2, r3, a, b, c, e, f⟩

end Cart

namespace Cart

/-! ## C21: seeking -/

theorem toInt32_of_range (v : Int) (h0 : 0 ≤ v) (h1 : v < 2147483648) : toInt32 v = v := by
  unfold toInt32
  have hm : v % 4294967296 = v := Int.emod_eq_of_lt h0 (by omega)
  simp only [hm]
  rw [if_pos h1]

/-- C21: for a handle `0 ≤ fd < next_fd` of a table within the array whose file
size is a non-negative `int32_t`, and every offset `loc`, `cart_seek` has a
result: when the file is open and `loc ≤ file_size` it returns 0 and `file_pos`
becomes `loc`; otherwise it returns -1 and the globals are unchanged.  In both
cases `next_fd`, every `file_size`, `open_status`, name and cartridge field, and
every other entry stay as they were. -/
theorem cart_seek_contract (d : Driver) (fd : Int) (loc : Nat)
    (hfd0 : 0 ≤ fd) (hfd : fd < d.next_fd) (hn : d.next_fd ≤ (MAX_FILES : Int))
    (hs0 : 0 ≤ (d.VnodeTable fd.toNat).file_size)
    (hs1 : (d.VnodeTable fd.toNat).file_size < 2147483648) :
    ∃ r, cart_seek d fd loc = some r ∧
      (((d.VnodeTable fd.toNat).open_status ≠ 0 ∧
          (loc : Int) ≤ (d.VnodeTable fd.toNat).file_size) →
        r.ret = 0 ∧ (r.d.VnodeTable fd.toNat).file_pos = (loc : Int)) ∧
      (¬ ((d.VnodeTable fd.toNat).open_status ≠ 0 ∧
          (loc : Int) ≤ (d.VnodeTable fd.toNat).file_size) →
        r.ret = -1 ∧ r.d.VnodeTable = d.VnodeTable) ∧
      r.d.next_fd = d.next_fd ∧
      (∀ i : Nat, (r.d.VnodeTable i).file_size = (d.VnodeTable i).file_size ∧
        (r.d.VnodeTable i).open_status = (d.VnodeTable i).open_status ∧
        (r.d.VnodeTable i).file_name = (d.VnodeTable i).file_name ∧
        (r.d.VnodeTable i).used_carts0 = (d.VnodeTable i).used_carts0 ∧
        (r.d.VnodeTable i).used_carts1 = (d.VnodeTable i).used_carts1 ∧
        (r.d.VnodeTable i).used_carts2 = (d.VnodeTable i).used_carts2) ∧
      (∀ i : Nat, i ≠ fd.toNat → r.d.VnodeTable i = d.VnodeTable i) := by
  have h1 : ¬ fd ≥ d.next_fd := by omega
  have h2 : ¬ (fd < 0 ∨ (MAX_FILES : Int) ≤ fd) := by omega
  have hm : (d.VnodeTable fd.toNat).file_size % 4294967296 = (d.VnodeTable fd.toNat).file_size :=
    Int.emod_eq_of_lt hs0 (by omega)
  unfold cart_seek
  rw [if_neg h1, if_neg h2, hm]
  by_cases hloc : (loc : Int) > (d.VnodeTable fd.toNat).file_size
  · rw [if_pos hloc]
    refine ⟨_, rfl, ?_, ?_, rfl, ?_, ?_⟩
    · intro h
      omega
    · intro _
      exact ⟨rfl, rfl⟩
    · intro i
      exact ⟨rfl, rfl, rfl, rfl, rfl, rfl⟩
    · intro i _
      rfl
  · rw [if_neg hloc]
    by_cases hopen : (d.VnodeTable fd.toNat).open_status = 0
    · rw [if_pos hopen]
      refine ⟨_, rfl, ?_, ?_, rfl, ?_, ?_⟩
      · intro h
        exact absurd hopen h.1
      · intro _
        exact ⟨rfl, rfl⟩
      · intro i
        exact ⟨rfl, rfl, rfl, rfl, rfl, rfl⟩
      · intro i _
        rfl
    · rw [if_neg hopen]
      refine ⟨_, rfl, ?_, ?_, rfl, ?_, ?_⟩
      · intro _
        refine ⟨rfl, ?_⟩
        dsimp only
        rw [setEntry_same]
        have hl0 : (0 : Int) ≤ (loc : Int) := Int.ofNat_nonneg loc
        have hl1 : (loc : Int) < 2147483648 := by omega
        dsimp only
        exact toInt32_of_range (loc : Int) hl0 hl1
      · intro h
        exact absurd ⟨hopen, by omega⟩ h
      · intro i
        dsimp only
        by_cases hi : i = fd.toNat
        · subst hi
          rw [setEntry_same]
          exact ⟨rfl, rfl, rfl, rfl, rfl, rfl⟩
        · rw [setEntry_other _ _ hi]
          exact ⟨rfl, rfl, rfl, rfl, rfl, rfl⟩
      · intro i hi
        exact setEntry_other _ _ hi

/-- Witness for C21: a seek to byte 2000 of the 3000 bytes of file `a`. -/
theorem cart_seek_contract_witness :
    ∃ r, cart_seek sampleDriver 0 2000 = some r ∧ r.ret = 0 ∧
      (r.d.VnodeTable 0).file_pos = 2000 ∧ (r.d.VnodeTable 0).file_size = 3000 := by
  obtain ⟨r, hr, hok, _, _, hframe, _⟩ :=
    cart_seek_contract sampleDriver 0 2000 (by decide) (by decide) (by decide) (by decide)
      (by decide)
  have h := hok ⟨by decide, by decide⟩
  exact ⟨r, hr, h.1, h.2, (hframe 0).1.trans (by decide)⟩

end Cart

namespace Cart

/-! ## The loops of `cart_read` and `cart_write` -/

theorem read_loop_zero (env : Env) (frame0 : Int) (fuel n : Nat) (filepos : Int) :
    read_loop env frame0 fuel n filepos 0 = .done filepos := by
  cases fuel <;> simp [read_loop]

theorem write_loop_zero (env : Env) (frame0 : Int) (fuel n : Nat) (filepos : Int) :
    write_loop env frame0 fuel n filepos 0 = .done filepos := by
  cases fuel <;> simp [write_loop]

theorem tmod_1024 (a : Int) (h : 0 ≤ a) : Int.tmod a 1024 = a % 1024 :=
  Int.tmod_eq_emod h (by decide)

/-- When the loop of `cart_read` ends normally from a non-negative position, the
number of bytes to read was not negative and the position has advanced by it. -/
theorem read_loop_done (env : Env) (frame0 : Int) :
    ∀ (fuel n : Nat) (filepos unread fp : Int), 0 ≤ filepos →
      (fuel = 0 → 0 ≤ unread) →
      read_loop env frame0 fuel n filepos unread = .done fp →
      0 ≤ unread ∧ fp = filepos + unread := by
  intro fuel
  induction fuel with
  | zero =>
    intro n filepos unread fp _ hu h
    have hu0 := hu rfl
    unfold read_loop at h
    split at h
    · rename_i h0
      injection h with h
      subst h0
      exact ⟨le_refl _, by omega⟩
    · cases h
  | succ fuel ih =>
    intro n filepos unread fp hpos _ h
    have ht := tmod_1024 filepos hpos
    unfold read_loop at h
    rw [ht] at h
    split at h
    · rename_i h0
      injection h with h
      subst h0
      exact ⟨le_refl _, by omega⟩
    · split at h
      · split at h
        · cases h
        · split at h
          · cases h
          · rename_i hns
            rw [read_loop_zero] at h
            injection h with h
            exact ⟨by omega, h.symm⟩
      · split at h
        · cases h
        · dsimp only at h
          split at h
          · cases h
          · split at h
            · cases h
            · rename_i hbig _ _ _
              have hr := ih (n + 1) (filepos + (1024 - filepos % 1024))
                (unread - (1024 - filepos % 1024)) fp (by omega) (fun _ => by omega) h
              exact ⟨by omega, by omega⟩

/-- When every bus operation succeeds, the loop of `cart_read` ends normally from
a non-negative position, given more passes than bytes to read. -/
theorem read_loop_ok (env : Env) (frame0 : Int) (hrt : ∀ n c, env.rt n c = 0) :
    ∀ (fuel n : Nat) (filepos unread : Int), 0 ≤ filepos → 0 ≤ unread →
      unread.toNat < fuel →
      read_loop env frame0 fuel n filepos unread = .done (filepos + unread) := by
  intro fuel
  induction fuel with
  | zero =>
    intro n filepos unread _ _ h
    omega
  | succ fuel ih =>
    intro n filepos unread hpos hu hf
    have ht := tmod_1024 filepos hpos
    have ht2 : Int.tmod (filepos + (1024 - filepos % 1024)) 1024 = 0 := by
      rw [tmod_1024 _ (by omega)]
      omega
    unfold read_loop
    rw [ht]
    by_cases h0 : unread = 0
    · rw [if_pos h0, h0, add_zero]
    · rw [if_neg h0]
      by_cases hl : unread + filepos % 1024 ≤ 1024
      · rw [if_pos hl, hrt, if_neg (by simp), if_neg (by omega), read_loop_zero]
      · rw [if_neg hl, hrt, if_neg (by simp)]
        dsimp only
        rw [if_neg (by omega), ht2, if_neg (by simp),
          ih (n + 1) _ _ (by omega) (by omega) (by omega)]
        congr 1
        omega

/-- When the loop of `cart_write` ends normally from a non-negative position, the
number of bytes to write was not negative and the position has advanced by it. -/
theorem write_loop_done (env : Env) (frame0 : Int) :
    ∀ (fuel n : Nat) (filepos unwritten fp : Int), 0 ≤ filepos →
      (fuel = 0 → 0 ≤ unwritten) →
      write_loop env frame0 fuel n filepos unwritten = .done fp →
      0 ≤ unwritten ∧ fp = filepos + unwritten := by
  intro fuel
  induction fuel with
  | zero =>
    intro n filepos unwritten fp _ hu h
    have hu0 := hu rfl
    unfold write_loop at h
    split at h
    · rename_i h0
      injection h with h
      subst h0
      exact ⟨le_refl _, by omega⟩
    · cases h
  | succ fuel ih =>
    intro n filepos unwritten fp hpos _ h
    have ht := tmod_1024 filepos hpos
    unfold write_loop at h
    rw [ht] at h
    split at h
    · rename_i h0
      injection h with h
      subst h0
      exact ⟨le_refl _, by omega⟩
    · split at h
      · split at h
        · cases h
        · split at h
          · cases h
          · split at h
            · cases h
            · split at h
              · cases h
              · rw [write_loop_zero] at h
                injection h with h
                exact ⟨by omega, h.symm⟩
      · split at h
        · cases h
        · dsimp only at h
          split at h
          · cases h
          · split at h
            · cases h
            · split at h
              · cases h
              · split at h
                · cases h
                · have hr := ih (n + 2) (filepos + (1024 - filepos % 1024))
                    (unwritten - (1024 - filepos % 1024)) fp (by omega) (fun _ => by omega) h
                  exact ⟨by omega, by omega⟩

/-- When every bus operation succeeds and every assertion on buffer contents
holds, the loop of `cart_write` ends normally from a non-negative position, given
more passes than bytes to write. -/
theorem write_loop_ok (env : Env) (frame0 : Int) (hrt : ∀ n c, env.rt n c = 0)
    (hok : ∀ n, env.data_ok n = true) :
    ∀ (fuel n : Nat) (filepos unwritten : Int), 0 ≤ filepos → 0 ≤ unwritten →
      unwritten.toNat < fuel →
      write_loop env frame0 fuel n filepos unwritten = .done (filepos + unwritten) := by
  intro fuel
  induction fuel with
  | zero =>
    intro n filepos unwritten _ _ h
    omega
  | succ fuel ih =>
    intro n filepos unwritten hpos hu hf
    have ht := tmod_1024 filepos hpos
    have ht2 : Int.tmod (filepos + (1024 - filepos % 1024)) 1024 = 0 := by
      rw [tmod_1024 _ (by omega)]
      omega
    unfold write_loop
    rw [ht]
    by_cases h0 : unwritten = 0
    · rw [if_pos h0, h0, add_zero]
    · rw [if_neg h0]
      by_cases hl : unwritten + filepos % 1024 ≤ 1024
      · rw [if_pos hl, hrt, if_neg (by simp), if_neg (by omega), hok, if_neg (by simp), hrt,
          if_neg (by simp), write_loop_zero]
      · rw [if_neg hl, hrt, if_neg (by simp)]
        dsimp only
        rw [if_neg (by omega), hok, if_neg (by simp), hrt, if_neg (by simp), ht2,
          if_neg (by simp), ih (n + 2) _ _ (by omega) (by omega) (by omega)]
        congr 1
        omega

end Cart

namespace Cart

/-! ## Positions and sizes in the reachable tables -/

theorem PosInv_set (d : Driver) (i : Nat) (x : file_handle) (n : Int) (h : PosInv d)
    (hn0 : 0 ≤ n) (hn1 : n ≤ (MAX_FILES : Int))
    (hx : 0 ≤ x.file_pos ∧ x.file_pos ≤ x.file_size ∧ x.file_size < 2147483648) :
    PosInv { VnodeTable := setEntry d.VnodeTable i x, next_fd := n } := by
  refine ⟨hn0, hn1, ?_⟩
  intro k
  dsimp only
  by_cases hk : k = i
  · subst hk
    rw [setEntry_same]
    exact hx
  · rw [setEntry_other _ _ hk]
    exact h.2.2 k

theorem zero_lt_int32 : (0 : Int) < 2147483648 := by decide

theorem PosInv_init : PosInv initDriver := by
  refine ⟨le_refl _, by decide, ?_⟩
  intro i
  exact ⟨le_refl _, le_refl _, zero_lt_int32⟩

theorem cart_open_PosInv (d : Driver) (path : List Char) (r : Result) (h : PosInv d)
    (hc : cart_open d path = some r) : PosInv r.d := by
  obtain ⟨h0, h1, h2⟩ := h
  unfold cart_open at hc
  split at hc
  · cases hc
  · split at hc
    · split at hc
      · cases hc
      · injection hc with hc
        subst hc
        exact PosInv_set d _ _ _ ⟨h0, h1, h2⟩ (by omega) (by omega)
          ⟨le_refl _, le_refl _, zero_lt_int32⟩
    · split at hc
      · injection hc with hc
        subst hc
        exact ⟨h0, h1, h2⟩
      · split at hc
        · cases hc
        · injection hc with hc
          subst hc
          rename_i rt_fd _ _ _ _
          exact PosInv_set d _ _ _ ⟨h0, h1, h2⟩ h0 h1
            ⟨le_refl _, (h2 rt_fd.toNat).1.trans (h2 rt_fd.toNat).2.1, (h2 rt_fd.toNat).2.2⟩

theorem cart_close_PosInv (d : Driver) (fd : Int) (r : Result) (h : PosInv d)
    (hc : cart_close d fd = some r) : PosInv r.d := by
  obtain ⟨h0, h1, h2⟩ := h
  unfold cart_close at hc
  split at hc
  · injection hc with hc
    subst hc
    exact ⟨h0, h1, h2⟩
  · split at hc
    · cases hc
    · split at hc
      · injection hc with hc
        subst hc
        exact ⟨h0, h1, h2⟩
      · injection hc with hc
        subst hc
        exact PosInv_set d _ _ _ ⟨h0, h1, h2⟩ h0 h1
          ⟨le_refl _, (h2 fd.toNat).1.trans (h2 fd.toNat).2.1, (h2 fd.toNat).2.2⟩

theorem cart_seek_PosInv (d : Driver) (fd : Int) (loc : Nat) (r : Result) (h : PosInv d)
    (hc : cart_seek d fd loc = some r) : PosInv r.d := by
  obtain ⟨h0, h1, h2⟩ := h
  have hs := h2 fd.toNat
  have hm : (d.VnodeTable fd.toNat).file_size % 4294967296 = (d.VnodeTable fd.toNat).file_size :=
    Int.emod_eq_of_lt (by omega) (by omega)
  unfold cart_seek at hc
  rw [hm] at hc
  split at hc
  · injection hc with hc
    subst hc
    exact ⟨h0, h1, h2⟩
  · split at hc
    · cases hc
    · split at hc
      · injection hc with hc
        subst hc
        exact ⟨h0, h1, h2⟩
      · split at hc
        · injection hc with hc
          subst hc
          exact ⟨h0, h1, h2⟩
        · injection hc with hc
          subst hc
          have hl0 : (0 : Int) ≤ (loc : Int) := Int.ofNat_nonneg loc
          have hl1 : (loc : Int) < 2147483648 := by omega
          have ht := toInt32_of_range (loc : Int) hl0 hl1
          refine PosInv_set d _ _ _ ⟨h0, h1, h2⟩ h0 h1 ?_
          dsimp only
          rw [ht]
          exact ⟨hl0, by omega, hs.2.2⟩

theorem cart_read_PosInv (d : Driver) (env : Env) (fd count : Int) (r : Result) (h : PosInv d)
    (hc : cart_read d env fd count = some r) : PosInv r.d := by
  obtain ⟨h0, h1, h2⟩ := h
  have hs := h2 fd.toNat
  unfold cart_read at hc
  split at hc
  · injection hc with hc
    subst hc
    exact ⟨h0, h1, h2⟩
  · split at hc
    · cases hc
    · split at hc
      · injection hc with hc
        subst hc
        exact ⟨h0, h1, h2⟩
      · split at hc
        · injection hc with hc
          subst hc
          exact ⟨h0, h1, h2⟩
        · dsimp only at hc
          by_cases hin : inInt32 ((d.VnodeTable fd.toNat).file_pos + count)
          · rw [if_neg (not_not.mpr hin)] at hc
            generalize hc1 : (if (d.VnodeTable fd.toNat).file_pos + count >
                (d.VnodeTable fd.toNat).file_size
              then (d.VnodeTable fd.toNat).file_size - (d.VnodeTable fd.toNat).file_pos
              else count) = count1 at hc
            have hle : count1 ≤ (d.VnodeTable fd.toNat).file_size -
                (d.VnodeTable fd.toNat).file_pos := by
              split at hc1 <;> omega
            split at hc
            · cases hc
            · split at hc
              · rename_i fp hloop
                injection hc with hc
                subst hc
                have hd := read_loop_done env _ _ _ _ _ fp hs.1 (fun hz => by omega) hloop
                refine PosInv_set d _ _ _ ⟨h0, h1, h2⟩ h0 h1 ?_
                dsimp only
                exact ⟨by omega, by omega, hs.2.2⟩
              · injection hc with hc
                subst hc
                exact ⟨h0, h1, h2⟩
              · cases hc
          · rw [if_pos hin] at hc
            cases hc

theorem cart_write_PosInv (d : Driver) (env : Env) (fd count : Int) (r : Result) (h : PosInv d)
    (hc : cart_write d env fd count = some r) : PosInv r.d := by
  obtain ⟨h0, h1, h2⟩ := h
  have hs := h2 fd.toNat
  unfold cart_write at hc
  split at hc
  · injection hc with hc
    subst hc
    exact ⟨h0, h1, h2⟩
  · split at hc
    · cases hc
    · split at hc
      · injection hc with hc
        subst hc
        exact ⟨h0, h1, h2⟩
      · dsimp only at hc
        split at hc
        · injection hc with hc
          subst hc
          exact ⟨h0, h1, h2⟩
        · by_cases hin : inInt32 ((d.VnodeTable fd.toNat).file_pos + count)
          · rw [if_neg (not_not.mpr hin)] at hc
            generalize hc1 : (if (d.VnodeTable fd.toNat).file_pos + count >
                (d.VnodeTable fd.toNat).file_size
              then (d.VnodeTable fd.toNat).file_pos + count
              else (d.VnodeTable fd.toNat).file_size) = filesize1 at hc
            unfold inInt32 at hin
            have hle : (d.VnodeTable fd.toNat).file_pos + count ≤ filesize1 ∧
                filesize1 < 2147483648 := by
              split at hc1 <;> omega
            split at hc
            · rename_i fp hloop
              injection hc with hc
              subst hc
              have hd := write_loop_done env _ _ _ _ _ fp hs.1 (fun hz => by omega) hloop
              refine PosInv_set d _ _ _ ⟨h0, h1, h2⟩ h0 h1 ?_
              dsimp only
              exact ⟨by omega, by omega, hle.2⟩
            · injection hc with hc
              subst hc
              exact ⟨h0, h1, h2⟩
            · cases hc
          · rw [if_pos hin] at hc
            cases hc

theorem call_PosInv (d : Driver) (c : Call) (r : Result) (h : PosInv d)
    (hc : call d c = some r) : PosInv r.d := by
  cases c with
  | cart_open path => exact cart_open_PosInv d path r h hc
  | cart_close fd => exact cart_close_PosInv d fd r h hc
  | cart_seek fd loc => exact cart_seek_PosInv d fd loc r h hc
  | cart_read env fd count => exact cart_read_PosInv d env fd count r h hc
  | cart_write env fd count => exact cart_write_PosInv d env fd count r h hc

theorem runCalls_PosInv (cs : List Call) :
    ∀ (d e : Driver), PosInv d → runCalls d cs = some e → PosInv e := by
  induction cs with
  | nil =>
    intro d e h hr
    injection hr with hr
    subst hr
    exact h
  | cons c cs ih =>
    intro d e h hr
    unfold runCalls at hr
    split at hr
    · rename_i r hc
      exact ih r.d e (call_PosInv d c r h hc) hr
    · cases hr

/-- In every state that calls of the interface which all have a result produce
from start-up, `next_fd` lies within the array and every entry has
`0 ≤ file_pos ≤ file_size < 2^31`: the premises on positions and sizes of the
theorems below hold there. -/
theorem reachable_PosInv (d : Driver) (h : DriverReachable d) : PosInv d := by
  obtain ⟨cs, hcs⟩ := h
  exact runCalls_PosInv cs initDriver d PosInv_init hcs

end Cart

namespace Cart

/-! ## Handles that are not valid -/

/-- A handle at or above `next_fd` is refused by all four calls, which return -1
and leave the globals as they are. -/
theorem high_handle_refused (d : Driver) (env : Env) (fd : Int) (loc : Nat) (count : Int)
    (h : d.next_fd ≤ fd) :
    (∃ r, cart_close d fd = some r ∧ r.ret = -1 ∧ r.d = d) ∧
    (∃ r, cart_seek d fd loc = some r ∧ r.ret = -1 ∧ r.d = d) ∧
    (∃ r, cart_read d env fd count = some r ∧ r.ret = -1 ∧ r.d = d) ∧
    (∃ r, cart_write d env fd count = some r ∧ r.ret = -1 ∧ r.d = d) := by
  have hge : fd ≥ d.next_fd := h
  refine ⟨?_, ?_, ?_, ?_⟩
  · unfold cart_close
    rw [if_pos hge]
    exact ⟨_, rfl, rfl, rfl⟩
  · unfold cart_seek
    rw [if_pos hge]
    exact ⟨_, rfl, rfl, rfl⟩
  · unfold cart_read
    rw [if_pos hge]
    exact ⟨_, rfl, rfl, rfl⟩
  · unfold cart_write
    rw [if_pos hge]
    exact ⟨_, rfl, rfl, rfl⟩

/-- With file `a` open as handle 0 (`next_fd = 1`), the handle -1 passes the only
test the four calls make (`fd >= next_fd`), and each of them goes on to read
`VnodeTable[-1]`, storage before the array.  What is stored there is decided by
the memory layout of the program and is not part of the embedding, so the calls
have no result here. -/
theorem negative_handle_not_refused :
    oneFileDriver.next_fd = 1 ∧
    (cart_close oneFileDriver (-1)).isSome = false ∧
    (cart_seek oneFileDriver (-1) 0).isSome = false ∧
    (cart_read oneFileDriver okEnv (-1) 1).isSome = false ∧
    (cart_write oneFileDriver okEnv (-1) 1).isSome = false := by
  decide

/-! ## C23: reading -/

/-- When every bus operation succeeds, `cart_read` on an open file of a table
within the array, with `0 ≤ file_pos ≤ file_size`, `0 ≤ count` and
`file_pos + count` within `int32_t`, returns `min count (file_size - file_pos)`,
advances `file_pos` by that amount and changes nothing else. -/
theorem cart_read_ok (d : Driver) (env : Env) (fd count : Int)
    (hfd0 : 0 ≤ fd) (hfd : fd < d.next_fd) (hn : d.next_fd ≤ (MAX_FILES : Int))
    (hopen : (d.VnodeTable fd.toNat).open_status ≠ 0)
    (hp0 : 0 ≤ (d.VnodeTable fd.toNat).file_pos)
    (hps : (d.VnodeTable fd.toNat).file_pos ≤ (d.VnodeTable fd.toNat).file_size)
    (hc0 : 0 ≤ count) (hc1 : (d.VnodeTable fd.toNat).file_pos + count < 2147483648)
    (hrt : ∀ n c, env.rt n c = 0) :
    ∃ r, cart_read d env fd count = some r ∧
      r.ret = min count ((d.VnodeTable fd.toNat).file_size - (d.VnodeTable fd.toNat).file_pos) ∧
      (r.d.VnodeTable fd.toNat).file_pos = (d.VnodeTable fd.toNat).file_pos + r.ret ∧
      (r.d.VnodeTable fd.toNat).file_pos ≤ (d.VnodeTable fd.toNat).file_size ∧
      (r.d.VnodeTable fd.toNat).file_size = (d.VnodeTable fd.toNat).file_size ∧
      r.d.next_fd = d.next_fd ∧
      (∀ i : Nat, i ≠ fd.toNat → r.d.VnodeTable i = d.VnodeTable i) := by
  have h1 : ¬ fd ≥ d.next_fd := by omega
  have h2 : ¬ (fd < 0 ∨ (MAX_FILES : Int) ≤ fd) := by omega
  have hin : inInt32 ((d.VnodeTable fd.toNat).file_pos + count) := by
    unfold inInt32
    omega
  unfold cart_read
  rw [if_neg h1, if_neg h2, if_neg hopen, hrt, if_neg (by simp)]
  dsimp only
  rw [if_neg (not_not.mpr hin)]
  generalize hk : (if (d.VnodeTable fd.toNat).file_pos + count >
      (d.VnodeTable fd.toNat).file_size
    then (d.VnodeTable fd.toNat).file_size - (d.VnodeTable fd.toNat).file_pos
    else count) = count1
  have hmin : count1 =
      min count ((d.VnodeTable fd.toNat).file_size - (d.VnodeTable fd.toNat).file_pos) := by
    split at hk
    · rw [min_eq_right (by omega)]
      exact hk.symm
    · rw [min_eq_left (by omega)]
      exact hk.symm
  have hk0 : 0 ≤ count1 := by
    rw [hmin]
    exact le_min hc0 (by omega)
  have hkle : count1 ≤ (d.VnodeTable fd.toNat).file_size - (d.VnodeTable fd.toNat).file_pos := by
    rw [hmin]
    exact min_le_right _ _
  have hkc : count1 ≤ count := by
    rw [hmin]
    exact min_le_left _ _
  have hin1 : inInt32 count1 := by
    unfold inInt32
    omega
  rw [if_neg (not_not.mpr hin1),
    read_loop_ok env _ hrt _ 1 _ _ hp0 hk0 (by omega)]
  refine ⟨_, rfl, hmin, ?_, ?_, ?_, rfl, ?_⟩
  · dsimp only
    rw [setEntry_same]
  · dsimp only
    rw [setEntry_same]
    dsimp only
    omega
  · dsimp only
    rw [setEntry_same]
  · intro i hi
    exact setEntry_other _ _ hi

/-- C23: file `a` is open as handle 0 with `file_pos = file_size = 1`, and every
bus operation succeeds.  For `count = 2147483647` the test
`filepos + count > filesize` adds 1 and 2147483647 in `int32_t`: the sum is not
representable, the count is not reset to the 0 bytes left, and the call has no
defined result. -/
theorem cart_read_clamp_overflow :
    (endOfFileDriver.VnodeTable 0).open_status = 1 ∧
    (endOfFileDriver.VnodeTable 0).file_pos = 1 ∧
    (endOfFileDriver.VnodeTable 0).file_size = 1 ∧
    (cart_read endOfFileDriver okEnv 0 2147483647).isSome = false ∧
    (cart_read endOfFileDriver okEnv 0 2147483646).map (fun r => r.ret) = some 0 := by
  decide

/-! ## C24: writing -/

/-- C24 as stated fails: file `a` is open as handle 0 with `file_pos = 1`, every
bus operation succeeds and every assertion holds, and `count = 2147483647` is
not negative; the position `file_pos + count` that the call would have to reach
is not an `int32_t`, and the call has no defined result. -/
theorem cart_write_overflow :
    (endOfFileDriver.VnodeTable 0).open_status = 1 ∧
    (endOfFileDriver.VnodeTable 0).file_pos = 1 ∧
    (0 : Int) ≤ 2147483647 ∧
    (cart_write endOfFileDriver okEnv 0 2147483647).isSome = false := by
  decide

/-- C24: when every bus operation succeeds and every assertion on buffer contents
holds, `cart_write` on an open file of a table within the array, with
`0 ≤ file_pos`, `0 ≤ count` and `file_pos + count` within `int32_t`, returns
`count`, advances `file_pos` by `count`, sets `file_size` to the larger of the old
size and the new position, and changes nothing else: the entry written is the old
one with these two fields replaced (same name, `open_status` and cartridge
fields), every other entry and `next_fd` are as before, and nothing is printed. -/
theorem cart_write_contract (d : Driver) (env : Env) (fd count : Int)
    (hfd0 : 0 ≤ fd) (hfd : fd < d.next_fd) (hn : d.next_fd ≤ (MAX_FILES : Int))
    (hopen : (d.VnodeTable fd.toNat).open_status ≠ 0)
    (hp0 : 0 ≤ (d.VnodeTable fd.toNat).file_pos)
    (hc0 : 0 ≤ count) (hc1 : (d.VnodeTable fd.toNat).file_pos + count < 2147483648)
    (hrt : ∀ n c, env.rt n c = 0) (hok : ∀ n, env.data_ok n = true) :
    ∃ r, cart_write d env fd count = some r ∧
      r.ret = count ∧
      (r.d.VnodeTable fd.toNat).file_pos = (d.VnodeTable fd.toNat).file_pos + count ∧
      (r.d.VnodeTable fd.toNat).file_size =
        max (d.VnodeTable fd.toNat).file_size ((d.VnodeTable fd.toNat).file_pos + count) ∧
      (r.d.VnodeTable fd.toNat).open_status = (d.VnodeTable fd.toNat).open_status ∧
      r.d.next_fd = d.next_fd ∧
      (∀ i : Nat, i ≠ fd.toNat → r.d.VnodeTable i = d.VnodeTable i) ∧
      (r.d.VnodeTable fd.toNat).file_name = (d.VnodeTable fd.toNat).file_name ∧
      (r.d.VnodeTable fd.toNat).used_carts0 = (d.VnodeTable fd.toNat).used_carts0 ∧
      (r.d.VnodeTable fd.toNat).used_carts1 = (d.VnodeTable fd.toNat).used_carts1 ∧
      (r.d.VnodeTable fd.toNat).used_carts2 = (d.VnodeTable fd.toNat).used_carts2 ∧
      r.d.VnodeTable fd.toNat =
        { file_name := (d.VnodeTable fd.toNat).file_name,
          open_status := (d.VnodeTable fd.toNat).open_status,
          used_carts0 := (d.VnodeTable fd.toNat).used_carts0,
          used_carts1 := (d.VnodeTable fd.toNat).used_carts1,
          used_carts2 := (d.VnodeTable fd.toNat).used_carts2,
          file_pos := (d.VnodeTable fd.toNat).file_pos + count,
          file_size :=
            max (d.VnodeTable fd.toNat).file_size ((d.VnodeTable fd.toNat).file_pos + count) } ∧
      r.out = "" := by
  have h1 : ¬ fd ≥ d.next_fd := by omega
  have h2 : ¬ (fd < 0 ∨ (MAX_FILES : Int) ≤ fd) := by omega
  have hin : inInt32 ((d.VnodeTable fd.toNat).file_pos + count) := by
    unfold inInt32
    omega
  unfold cart_write
  rw [if_neg h1, if_neg h2, if_neg hopen]
  dsimp only
  rw [hrt, if_neg (by simp), if_neg (not_not.mpr hin)]
  generalize hk : (if (d.VnodeTable fd.toNat).file_pos + count >
      (d.VnodeTable fd.toNat).file_size
    then (d.VnodeTable fd.toNat).file_pos + count
    else (d.VnodeTable fd.toNat).file_size) = filesize1
  have hmax : filesize1 =
      max (d.VnodeTable fd.toNat).file_size ((d.VnodeTable fd.toNat).file_pos + count) := by
    split at hk
    · rw [max_eq_right (by omega)]
      exact hk.symm
    · rw [max_eq_left (by omega)]
      exact hk.symm
  rw [write_loop_ok env _ hrt hok _ 1 _ _ hp0 hc0 (by omega)]
  refine ⟨_, rfl, rfl, ?_, ?_, ?_, rfl, ?_, ?_, ?_, ?_, ?_, ?_, rfl⟩
  · dsimp only
    rw [setEntry_same]
  · dsimp only
    rw [setEntry_same]
    exact hmax
  · dsimp only
    rw [setEntry_same]
  · intro i hi
    exact setEntry_other _ _ hi
  · dsimp only
    rw [setEntry_same]
  · dsimp only
    rw [setEntry_same]
  · dsimp only
    rw [setEntry_same]
  · dsimp only
    rw [setEntry_same]
  · dsimp only
    rw [setEntry_same, hmax]

/-- Witness for C24 (amended): 5000 bytes written at byte 1000 of the 3000 bytes of
file `a`; the file grows to 6000 bytes. -/
theorem cart_write_contract_witness :
    ∃ r, cart_write sampleDriver okEnv 0 5000 = some r ∧ r.ret = 5000 ∧
      (r.d.VnodeTable 0).file_pos = 6000 ∧ (r.d.VnodeTable 0).file_size = 6000 := by
  obtain ⟨r, hr, hret, hpos, hsize, _⟩ :=
    cart_write_contract sampleDriver okEnv 0 5000 (by decide) (by decide) (by decide)
      (by decide) (by decide) (by decide) (by decide) (fun _ _ => rfl) (fun _ => rfl)
  exact ⟨r, hr, hret, hpos.trans (by decide), hsize.trans (by decide)⟩

end Cart

namespace Tsh

/-! ## C28: a stop event for a child that is not in the table -/

/-- C28: sixteen background launches fill the table.  The launch of a seventeenth
child, pid 117, returns normally although `addjob` found no free slot, so the
child runs without an entry; when it stops, `getjobpid(jobs, 117)` in the stopped
branch of `sigchld_handler` finds no job and the handler does not survive.  A
termination event for the same pid is harmless (`deletejob` finds nothing to
delete). -/
theorem stop_event_for_untracked_child :
    (run startSys sixteenLaunches).map (fun t => t.sh) = some crowdedShell ∧
    (run startSys (sixteenLaunches ++ [launch 117])).map (fun t => t.sh) =
      some crowdedShell ∧
    getjobpid crowdedShell.jobs 117 = none ∧
    sigchld_handler crowdedShell [(117, .stopped 20)] = none ∧
    run startSys (sixteenLaunches ++ [launch 117, .sigchld [(117, .stopped 20)]]) = none ∧
    (run startSys (sixteenLaunches ++ [launch 117, .sigchld [(117, .exited 0)]])).map
      (fun t => t.sh) = some crowdedShell := by
  decide

end Tsh

namespace Tsh

/-! ## C29: well-formedness under the calls that change the table -/

theorem applyCall_WellFormed (s s1 : Shell) (c : TableCall) (hc : CallOK c)
    (h : WellFormed s) (ha : applyCall s c = some s1) : WellFormed s1 := by
  cases c with
  | addjob pid state cmdline =>
    injection ha with ha
    subst ha
    exact addjob_WellFormed s pid state cmdline hc.2 h
  | deletejob pid =>
    injection ha with ha
    subst ha
    exact deletejob_WellFormed s pid h
  | do_bgfg argv0 jobArgument behind =>
    injection ha with ha
    subst ha
    exact do_bgfg_WellFormed s argv0 jobArgument behind h
  | sigchld_handler events =>
    change Option.map _ (Tsh.sigchld_handler s events) = some s1 at ha
    cases hr : Tsh.sigchld_handler s events with
    | none =>
      rw [hr] at ha
      cases ha
    | some r =>
      rw [hr] at ha
      injection ha with ha
      subst ha
      exact sigchld_handler_WellFormed events hr h

theorem applyCalls_WellFormed (calls : List TableCall) :
    ∀ (s t : Shell), (∀ c ∈ calls, CallOK c) → WellFormed s →
      applyCalls s calls = some t → WellFormed t := by
  induction calls with
  | nil =>
    intro s t _ h ha
    injection ha with ha
    subst ha
    exact h
  | cons c more ih =>
    intro s t hok h ha
    unfold applyCalls at ha
    split at ha
    · rename_i s1 hs1
      exact ih s1 t (fun c1 hc1 => hok c1 (List.mem_cons_of_mem _ hc1))
        (applyCall_WellFormed s s1 c (hok c (List.mem_cons_self _ _)) h hs1) ha
    · cases ha

theorem initShell_WellFormed (verbose : Bool) : WellFormed (initShell verbose) := by
  refine ⟨?_, le_refl (1 : Int)⟩
  intro j hj
  exact Or.inl (List.eq_of_mem_replicate hj)

/-- C29: start from `initjobs` and make any sequence of calls of `addjob` (with a
pid of at least 1 and a state among `FG`, `BG`, `ST`), `deletejob`, `do_bgfg` and
`sigchld_handler` that the shell survives.  Then every slot of the table is free
(pid 0, jid 0, state `UNDEF`, empty command line) or active (pid and jid at least
1, state `FG`, `BG` or `ST`), and `fgpid` is 0 exactly when no job has state
`FG`. -/
theorem wellformed_preserved (verbose : Bool) (calls : List TableCall) (t : Shell)
    (hok : ∀ c ∈ calls, CallOK c)
    (hrun : applyCalls (initShell verbose) calls = some t) :
    (∀ j ∈ t.jobs,
      (j.pid = 0 ∧ j.jid = 0 ∧ j.state = UNDEF ∧ j.cmdline = "") ∨
      (1 ≤ j.pid ∧ 1 ≤ j.jid ∧ (j.state = FG ∨ j.state = BG ∨ j.state = ST))) ∧
    (fgpid t.jobs = 0 ↔ ∀ j ∈ t.jobs, j.state ≠ FG) := by
  have hwf := applyCalls_WellFormed calls (initShell verbose) t hok
    (initShell_WellFormed verbose) hrun
  have hfg : FgHasPid t.jobs := by
    intro j hj hst
    rcases hwf.1 j hj with rfl | hact
    · exact absurd hst (by decide)
    · omega
  constructor
  · intro j hj
    rcases hwf.1 j hj with rfl | hact
    · exact Or.inl ⟨rfl, rfl, rfl, rfl⟩
    · exact Or.inr hact
  · constructor
    · intro h0 j hj hst
      exact (fgpid_of_exists hfg ⟨j, hj, hst⟩).1 h0
    · exact fgpid_of_none

/-- Witness for C29: a foreground job is added and then stopped; the table is that
of `stoppedShell`. -/
theorem wellformed_preserved_witness :
    (∀ j ∈ stoppedShell.jobs,
      (j.pid = 0 ∧ j.jid = 0 ∧ j.state = UNDEF ∧ j.cmdline = "") ∨
      (1 ≤ j.pid ∧ 1 ≤ j.jid ∧ (j.state = FG ∨ j.state = BG ∨ j.state = ST))) ∧
    (fgpid stoppedShell.jobs = 0 ↔ ∀ j ∈ stoppedShell.jobs, j.state ≠ FG) :=
  wellformed_preserved false
    [.addjob 1234 FG "/bin/sleep 60\n", .sigchld_handler [(1234, .stopped 20)]]
    stoppedShell (by decide) (by decide)

end Tsh

namespace Proxy

/-! ## Doubly linked segments -/

theorem store_same (h : Nat → Option CachedItem) (a : Nat) (v : Option CachedItem) :
    store h a v a = v := by
  simp [store]

theorem store_other (h : Nat → Option CachedItem) {a k : Nat} (v : Option CachedItem)
    (hk : k ≠ a) : store h a v k = h k := by
  simp [store, hk]

/-- A segment depends only on the blocks at its addresses. -/
theorem DL_congr {h h1 : Nat → Option CachedItem} (addrs : List Nat) :
    ∀ {first before after last : Option Nat}, (∀ a ∈ addrs, h1 a = h a) →
      DL h first before after last addrs → DL h1 first before after last addrs := by
  induction addrs with
  | nil =>
    intro first before after last _ hd
    exact hd
  | cons a rest ih =>
    intro first before after last hagree hd
    obtain ⟨hf, it, ha, hp, hrest⟩ := hd
    refine ⟨hf, it, ?_, hp, ?_⟩
    · rw [hagree a (List.mem_cons_self _ _)]
      exact ha
    · exact ih (fun k hk => hagree k (List.mem_cons_of_mem _ hk)) hrest

/-- Two segments that meet make one segment. -/
theorem DL_append {h : Nat → Option CachedItem} (xs ys : List Nat) :
    ∀ {first before mid midlast after last : Option Nat},
      DL h first before mid midlast xs → DL h mid midlast after last ys →
      DL h first before after last (xs ++ ys) := by
  induction xs with
  | nil =>
    intro first before mid midlast after last hx hy
    obtain ⟨h1, h2⟩ := hx
    subst h1
    subst h2
    exact hy
  | cons a rest ih =>
    intro first before mid midlast after last hx hy
    obtain ⟨hf, it, ha, hp, hrest⟩ := hx
    exact ⟨hf, it, ha, hp, ih hrest hy⟩

/-- A segment splits at any point. -/
theorem DL_split {h : Nat → Option CachedItem} (xs ys : List Nat) :
    ∀ {first before after last : Option Nat},
      DL h first before after last (xs ++ ys) →
      ∃ mid midlast, DL h first before mid midlast xs ∧ DL h mid midlast after last ys := by
  induction xs with
  | nil =>
    intro first before after last hd
    exact ⟨first, before, ⟨rfl, rfl⟩, hd⟩
  | cons a rest ih =>
    intro first before after last hd
    obtain ⟨hf, it, ha, hp, hrest⟩ := hd
    obtain ⟨mid, midlast, h1, h2⟩ := ih hrest
    exact ⟨mid, midlast, ⟨hf, it, ha, hp, h1⟩, h2⟩

/-- The pointer `last` of a segment that is not empty is its last address. -/
theorem DL_last {h : Nat → Option CachedItem} (xs : List Nat) :
    ∀ {first before after last : Option Nat} (x : Nat),
      DL h first before after last (xs ++ [x]) → last = some x := by
  induction xs with
  | nil =>
    intro first before after last x hd
    obtain ⟨_, it, _, _, hrest⟩ := hd
    exact hrest.2
  | cons a rest ih =>
    intro first before after last x hd
    obtain ⟨_, it, _, _, hrest⟩ := hd
    exact ih x hrest

/-- Every address of a segment is in use. -/
theorem DL_alloc {h : Nat → Option CachedItem} (xs : List Nat) :
    ∀ {first before after last : Option Nat},
      DL h first before after last xs → ∀ a ∈ xs, ∃ it, h a = some it := by
  induction xs with
  | nil =>
    intro first before after last _ a ha
    cases ha
  | cons x rest ih =>
    intro first before after last hd a ha
    obtain ⟨_, it, hx, _, hrest⟩ := hd
    rcases List.mem_cons.mp ha with rfl | hmem
    · exact ⟨it, hx⟩
    · exact ih hrest a hmem

/-- Writing `prev` of the first block moves the back end of the segment. -/
theorem DL_set_before {h : Nat → Option CachedItem} {y : Nat} {rest : List Nat}
    {first before after last : Option Nat} (v : Option Nat)
    (hd : DL h first before after last (y :: rest)) (hn : (y :: rest).Nodup) :
    ∃ yi, h y = some yi ∧ first = some y ∧
      DL (store h y (some { yi with prev := v })) first v after last (y :: rest) := by
  obtain ⟨hf, it, hy, _, hrest⟩ := hd
  refine ⟨it, hy, hf, hf, { it with prev := v }, store_same _ _ _, rfl, ?_⟩
  refine DL_congr rest ?_ hrest
  intro a ha
  have hne : a ≠ y := fun e => (List.nodup_cons.mp hn).1 (e ▸ ha)
  exact store_other _ _ hne

/-- Writing `next` of the last block moves the front end of what follows. -/
theorem DL_set_after {h : Nat → Option CachedItem} (xs : List Nat) :
    ∀ {first before after last : Option Nat} (x : Nat) (v : Option Nat),
      DL h first before after last (xs ++ [x]) → (xs ++ [x]).Nodup →
      ∃ xi, h x = some xi ∧
        DL (store h x (some { xi with next := v })) first before v last (xs ++ [x]) := by
  induction xs with
  | nil =>
    intro first before after last x v hd _
    obtain ⟨hf, it, hx, hp, hrest⟩ := hd
    obtain ⟨_, hl⟩ := hrest
    exact ⟨it, hx, hf, { it with next := v }, store_same _ _ _, hp, rfl, hl⟩
  | cons a rest ih =>
    intro first before after last x v hd hn
    obtain ⟨hf, it, ha, hp, hrest⟩ := hd
    have hn2 : (rest ++ [x]).Nodup := (List.nodup_cons.mp hn).2
    have hax : a ≠ x := by
      intro e
      apply (List.nodup_cons.mp hn).1
      rw [e]
      exact List.mem_append_right _ (List.mem_singleton_self x)
    obtain ⟨xi, hx, hnew⟩ := ih x v hrest hn2
    refine ⟨xi, hx, hf, it, ?_, hp, hnew⟩
    rw [store_other _ _ hax]
    exact ha

theorem DL_first_mem {h : Nat → Option CachedItem} {x : Nat} {rest : List Nat}
    {first before after last : Option Nat} (hd : DL h first before after last (x :: rest)) :
    first = some x :=
  hd.1

theorem nil_or_snoc (xs : List Nat) : xs = [] ∨ ∃ init x, xs = init ++ [x] := by
  rcases List.eq_nil_or_concat xs with h | ⟨init, x, h⟩
  · exact Or.inl h
  · exact Or.inr ⟨init, x, by rw [h, List.concat_eq_append]⟩

theorem DL_last_mem {h : Nat → Option CachedItem} (xs : List Nat) (hne : xs ≠ [])
    {first before after last : Option Nat} (hd : DL h first before after last xs) :
    ∃ x ∈ xs, last = some x := by
  rcases nil_or_snoc xs with rfl | ⟨init, x, rfl⟩
  · exact absurd rfl hne
  · exact ⟨x, List.mem_append_right _ (List.mem_singleton_self x), DL_last init x hd⟩

/-- The pointer `last` of a list is its last address, `NULL` for the empty list. -/
theorem DL_last_eq {h : Nat → Option CachedItem} (xs : List Nat)
    {first after last : Option Nat} (hd : DL h first none after last xs) :
    last = xs.getLast? := by
  rcases nil_or_snoc xs with rfl | ⟨init, x, rfl⟩
  · exact hd.2
  · rw [DL_last init x hd, List.getLast?_append, List.getLast?_singleton]
    rfl

theorem itemAt_store {h : Nat → Option CachedItem} {a : Nat} {it it1 : CachedItem}
    (ha : h a = some it) (h1 : it1.url = it.url) (h2 : it1.headers = it.headers)
    (h3 : it1.size = it.size) (k : Nat) :
    itemAt (store h a (some it1)) k = itemAt h k := by
  unfold itemAt
  by_cases hk : k = a
  · subst hk
    rw [store_same, ha]
    simp only [h1, h2, h3]
  · rw [store_other _ _ hk]

theorem setNext_some {h : Nat → Option CachedItem} {a : Nat} {it : CachedItem}
    (ha : h a = some it) (v : Option Nat) :
    setNext h (some a) v = some (store h a (some { it with next := v })) := by
  simp only [setNext, ha]

theorem setPrev_some {h : Nat → Option CachedItem} {a : Nat} {it : CachedItem}
    (ha : h a = some it) (v : Option Nat) :
    setPrev h (some a) v = some (store h a (some { it with prev := v })) := by
  simp only [setPrev, ha]

/-- The insertion at the front that ends `cache_URL` and `find`: a block that is
not in the list and has no neighbours becomes the first item. -/
theorem insert_front_spec (h : Nat → Option CachedItem) (l : CacheList) (a : Nat)
    (t : CachedItem) (zs : List Nat)
    (hd : DL h l.first none none l.last zs) (hn : zs.Nodup) (ha : a ∉ zs)
    (hat : h a = some t) (hp : t.prev = none) (hx : t.next = none) :
    ∃ m1, insert_front h l a = some m1 ∧
      DL m1.heap m1.list.first none none m1.list.last (a :: zs) ∧
      m1.list.size = l.size ∧ (∀ k, itemAt m1.heap k = itemAt h k) := by
  cases zs with
  | nil =>
    obtain ⟨hf, hl⟩ := hd
    refine ⟨{ heap := h, list := { size := l.size, first := some a, last := some a } },
      ?_, ?_, rfl, fun _ => rfl⟩
    · unfold insert_front
      rw [hf]
    · exact ⟨rfl, t, hat, hp, hx, rfl⟩
  | cons z rest =>
    obtain ⟨hf, zi, hz, hzp, hrest⟩ := hd
    have hza : z ≠ a := fun e => ha (e ▸ List.mem_cons_self _ _)
    have hz1 : store h a (some { t with next := some z }) z = some zi := by
      rw [store_other _ _ hza]
      exact hz
    refine ⟨{ heap := store (store h a (some { t with next := some z })) z
                (some { zi with prev := some a }),
              list := { size := l.size, first := some a, last := l.last } },
      ?_, ?_, rfl, ?_⟩
    · unfold insert_front
      rw [hf]
      dsimp only
      rw [setNext_some hat]
      dsimp only
      rw [setPrev_some hz1]
    · refine ⟨rfl, { t with next := some z }, ?_, hp, rfl, { zi with prev := some a }, ?_,
        rfl, ?_⟩
      · dsimp only
        rw [store_other _ _ (Ne.symm hza), store_same]
      · dsimp only
        rw [store_same]
      · refine DL_congr rest ?_ hrest
        intro k hk
        dsimp only
        have hkz : k ≠ z := fun e => (List.nodup_cons.mp hn).1 (e ▸ hk)
        have hka : k ≠ a := fun e => ha (e ▸ List.mem_cons_of_mem _ hk)
        rw [store_other _ _ hkz, store_other _ _ hka]
    · intro k
      dsimp only
      refine Eq.trans (itemAt_store hz1 ?_ ?_ ?_ k) (itemAt_store hat ?_ ?_ ?_ k) <;> rfl

end Proxy

namespace Proxy

/-! ## Moving an item to the front -/

/-- The first statement of the unlinking in `find`: the block before `temp`, when
there is one, gets the successor of `temp` as its `next`. -/
theorem unlink_prev_spec {h : Nat → Option CachedItem} {a : Nat} {t : CachedItem}
    (xs : List Nat) {first midlast : Option Nat}
    (hd : DL h first none (some a) midlast xs) (hn : xs.Nodup) (ha : a ∉ xs)
    (hp : t.prev = midlast) :
    ∃ h1, (match t.prev with
           | some p => setNext h (some p) t.next
           | none => some h) = some h1 ∧
      DL h1 (if some a = first then t.next else first) none t.next midlast xs ∧
      (∀ k, k ∉ xs → h1 k = h k) ∧ (∀ k, itemAt h1 k = itemAt h k) := by
  rcases nil_or_snoc xs with rfl | ⟨init, x, rfl⟩
  · obtain ⟨hf, hl⟩ := hd
    refine ⟨h, ?_, ?_, fun _ _ => rfl, fun _ => rfl⟩
    · rw [hp, hl]
    · rw [hf, if_pos rfl]
      exact ⟨rfl, hl⟩
  · have hl : midlast = some x := DL_last init x hd
    obtain ⟨xi, hx, hnew⟩ := DL_set_after init x t.next hd hn
    have hfirst : first ≠ some a := by
      intro e
      cases init with
      | nil =>
        have h1 : first = some x := hd.1
        rw [h1] at e
        injection e with e
        exact ha (e ▸ List.mem_singleton_self x)
      | cons y rest =>
        have h1 : first = some y := hd.1
        rw [h1] at e
        injection e with e
        exact ha (e ▸ List.mem_cons_self _ _)
    refine ⟨store h x (some { xi with next := t.next }), ?_, ?_, ?_, ?_⟩
    · rw [hp, hl]
      dsimp only
      exact setNext_some hx t.next
    · rw [if_neg (Ne.symm hfirst)]
      exact hnew
    · intro k hk
      have hkx : k ≠ x := fun e =>
        hk (by rw [e]; exact List.mem_append_right _ (List.mem_singleton_self x))
      exact store_other _ _ hkx
    · intro k
      refine itemAt_store hx ?_ ?_ ?_ k <;> rfl

/-- The second statement of the unlinking in `find`: the block after `temp`, when
there is one, gets the predecessor of `temp` as its `prev`. -/
theorem unlink_next_spec {h : Nat → Option CachedItem} {a : Nat} {t : CachedItem}
    (ys : List Nat) {last : Option Nat}
    (hd : DL h t.next (some a) none last ys) (hn : ys.Nodup) (ha : a ∉ ys) :
    ∃ h2, (match t.next with
           | some n => setPrev h (some n) t.prev
           | none => some h) = some h2 ∧
      DL h2 t.next t.prev none (if some a = last then t.prev else last) ys ∧
      (∀ k, k ∉ ys → h2 k = h k) ∧ (∀ k, itemAt h2 k = itemAt h k) := by
  cases ys with
  | nil =>
    obtain ⟨hf, hl⟩ := hd
    refine ⟨h, ?_, ?_, fun _ _ => rfl, fun _ => rfl⟩
    · rw [hf]
    · rw [hl, if_pos rfl]
      exact ⟨hf, rfl⟩
  | cons y rest =>
    obtain ⟨yi, hy, hf, hnew⟩ := DL_set_before t.prev hd hn
    obtain ⟨z, hz, hlast⟩ := DL_last_mem (y :: rest) (List.cons_ne_nil _ _) hd
    have hlast2 : ¬ some a = last := by
      intro e
      rw [hlast] at e
      injection e with e
      exact ha (e ▸ hz)
    refine ⟨store h y (some { yi with prev := t.prev }), ?_, ?_, ?_, ?_⟩
    · rw [hf]
      dsimp only
      exact setPrev_some hy t.prev
    · rw [if_neg hlast2]
      exact hnew
    · intro k hk
      have hky : k ≠ y := fun e => hk (by rw [e]; exact List.mem_cons_self _ _)
      exact store_other _ _ hky
    · intro k
      refine itemAt_store hy ?_ ?_ ?_ k <;> rfl

/-- The statements of `find` after the search, on a list in which `temp` is the
block at `a`: the result is the list with `a` moved to the front. -/
theorem find_relink_spec (m : Mem) (xs ys : List Nat) (a : Nat)
    (hrep : Rep m (xs ++ a :: ys)) :
    ∃ m1, find_relink m a = some m1 ∧ Rep m1 (a :: (xs ++ ys)) ∧
      m1.list.size = m.list.size ∧ (∀ k, itemAt m1.heap k = itemAt m.heap k) := by
  obtain ⟨hnd, hdl⟩ := hrep
  have hnd2 : (a :: (xs ++ ys)).Nodup := List.nodup_middle.mp hnd
  have hnotin : a ∉ xs ++ ys := (List.nodup_cons.mp hnd2).1
  have hnxy : (xs ++ ys).Nodup := (List.nodup_cons.mp hnd2).2
  have hax : a ∉ xs := fun e => hnotin (List.mem_append_left _ e)
  have hay : a ∉ ys := fun e => hnotin (List.mem_append_right _ e)
  have hnx : xs.Nodup := (List.nodup_append.mp hnxy).1
  have hny : ys.Nodup := (List.nodup_append.mp hnxy).2.1
  have hdisj : ∀ k, k ∈ xs → k ∉ ys := fun k hk1 hk2 =>
    (List.nodup_append.mp hnxy).2.2 hk1 hk2
  obtain ⟨mid, midlast, hdx, hday⟩ := DL_split xs (a :: ys) hdl
  obtain ⟨hmid, t, hat, htp, hdy⟩ := hday
  subst hmid
  -- the block before `temp`
  obtain ⟨h1, he1, hd1, hf1, hi1⟩ := unlink_prev_spec xs hdx hnx hax htp
  have hat1 : h1 a = some t := by
    rw [hf1 a hax]
    exact hat
  -- the block after `temp`
  have hdy1 : DL h1 t.next (some a) none m.list.last ys :=
    DL_congr ys (fun k hk => hf1 k (fun hkx => hdisj k hkx hk)) hdy
  obtain ⟨h2, he2, hd2, hf2, hi2⟩ := unlink_next_spec ys hdy1 hny hay
  have hat2 : h2 a = some t := by
    rw [hf2 a hay]
    exact hat1
  have hdx2 : DL h2 (if some a = m.list.first then t.next else m.list.first) none t.next
      midlast xs :=
    DL_congr xs (fun k hk => hf2 k (hdisj k hk)) hd1
  rw [htp] at hd2
  have hall : DL h2 (if some a = m.list.first then t.next else m.list.first) none none
      (if some a = m.list.last then midlast else m.list.last) (xs ++ ys) :=
    DL_append xs ys hdx2 hd2
  -- `temp` loses its neighbours
  have hat3 : store h2 a (some { t with prev := none }) a = some { t with prev := none } :=
    store_same _ _ _
  have hdl4 : DL (store (store h2 a (some { t with prev := none })) a
      (some { t with prev := none, next := none }))
      (if some a = m.list.first then t.next else m.list.first) none none
      (if some a = m.list.last then midlast else m.list.last) (xs ++ ys) := by
    refine DL_congr (xs ++ ys) ?_ hall
    intro k hk
    have hka : k ≠ a := fun e => hnotin (e ▸ hk)
    rw [store_other _ _ hka, store_other _ _ hka]
  obtain ⟨m1, hins, hdm, hsz, him⟩ := insert_front_spec
    (store (store h2 a (some { t with prev := none })) a
      (some { t with prev := none, next := none }))
    { size := m.list.size,
      first := if some a = m.list.first then t.next else m.list.first,
      last := if some a = m.list.last then midlast else m.list.last }
    a { t with prev := none, next := none } (xs ++ ys) hdl4 hnxy hnotin
    (store_same _ _ _) rfl rfl
  refine ⟨m1, ?_, ⟨hnd2, hdm⟩, hsz, ?_⟩
  · have hu1 : unlink_prev m.heap a = some h1 := by
      unfold unlink_prev
      rw [hat]
      exact he1
    have hu2 : unlink_next h1 a = some h2 := by
      unfold unlink_next
      rw [hat1]
      exact he2
    unfold find_relink
    rw [hu1]
    dsimp only
    rw [hu2]
    dsimp only
    rw [hat2]
    dsimp only
    rw [setPrev_some hat2]
    dsimp only
    rw [setNext_some hat3]
    dsimp only
    rw [htp]
    exact hins
  · intro k
    rw [him k]
    refine Eq.trans (itemAt_store hat3 ?_ ?_ ?_ k) ?_
    · rfl
    · rfl
    · rfl
    refine Eq.trans (itemAt_store hat2 ?_ ?_ ?_ k) ?_
    · rfl
    · rfl
    · rfl
    rw [hi2 k, hi1 k]

/-! ## C25: `find` -/

theorem urlAt_of_block {h : Nat → Option CachedItem} {a : Nat} {it : CachedItem}
    (ha : h a = some it) : urlAt h a = some it.url := by
  simp only [urlAt, itemAt, ha]

theorem find_loop_none (h : Nat → Option CachedItem) (URL : List Char) (fuel : Nat) :
    find_loop h URL fuel none = .ok none := by
  cases fuel <;> rfl

/-- The search stops at the first block whose url is `URL`. -/
theorem find_loop_found {h : Nat → Option CachedItem} (URL : List Char) (xs : List Nat) :
    ∀ {p before after last : Option Nat} (a : Nat) (ys : List Nat) (fuel : Nat),
      DL h p before after last (xs ++ a :: ys) →
      (∀ x ∈ xs, urlAt h x ≠ some URL) → urlAt h a = some URL → xs.length < fuel →
      find_loop h URL fuel p = .ok (some a) := by
  induction xs with
  | nil =>
    intro p before after last a ys fuel hd _ hu hf
    obtain ⟨hp, it, ha, _, _⟩ := hd
    cases fuel with
    | zero => exact absurd hf (Nat.lt_irrefl 0)
    | succ fuel =>
      rw [urlAt_of_block ha] at hu
      injection hu with hu
      rw [hp]
      unfold find_loop
      rw [ha]
      dsimp only
      rw [if_pos hu]
  | cons x rest ih =>
    intro p before after last a ys fuel hd hno hu hf
    obtain ⟨hp, it, hx, _, hrest⟩ := hd
    cases fuel with
    | zero => exact absurd hf (Nat.not_lt_zero _)
    | succ fuel =>
      have hne : ¬ it.url = URL := by
        intro e
        apply hno x (List.mem_cons_self _ _)
        rw [urlAt_of_block hx, e]
      rw [hp]
      unfold find_loop
      rw [hx]
      dsimp only
      rw [if_neg hne]
      exact ih a ys fuel hrest (fun y hy => hno y (List.mem_cons_of_mem _ hy)) hu
        (Nat.lt_of_succ_lt_succ hf)

/-- The search runs off the end of a list in which no block has the url `URL`. -/
theorem find_loop_absent {h : Nat → Option CachedItem} (URL : List Char) (xs : List Nat) :
    ∀ {p before last : Option Nat} (fuel : Nat),
      DL h p before none last xs →
      (∀ x ∈ xs, urlAt h x ≠ some URL) → xs.length ≤ fuel →
      find_loop h URL fuel p = .ok none := by
  induction xs with
  | nil =>
    intro p before last fuel hd _ _
    rw [hd.1]
    exact find_loop_none h URL fuel
  | cons x rest ih =>
    intro p before last fuel hd hno hf
    obtain ⟨hp, it, hx, _, hrest⟩ := hd
    cases fuel with
    | zero => exact absurd hf (Nat.not_succ_le_zero _)
    | succ fuel =>
      have hne : ¬ it.url = URL := by
        intro e
        apply hno x (List.mem_cons_self _ _)
        rw [urlAt_of_block hx, e]
      rw [hp]
      unfold find_loop
      rw [hx]
      dsimp only
      rw [if_neg hne]
      exact ih fuel hrest (fun y hy => hno y (List.mem_cons_of_mem _ hy))
        (Nat.le_of_succ_le_succ hf)

/-- C25: let the memory hold the cache whose items are, front to back, the blocks
at `addrs`, and let the fuel cover the length of the list.  When no item has the
url `URL`, `find` returns `NULL` and leaves the memory as it is.  Otherwise, with
`a` the first block whose url is `URL`, `find` returns `a`; afterwards the memory
holds the list with `a` moved to the front and the other blocks in their old
order, `first` is `a` and `last` is the last block of that list, the field `size`
is unchanged, and every block keeps its url, headers and size. -/
theorem find_moves_to_front (fuel : Nat) (m : Mem) (URL : List Char) (addrs : List Nat)
    (hrep : Rep m addrs) (hfuel : addrs.length ≤ fuel) :
    ((∀ a ∈ addrs, urlAt m.heap a ≠ some URL) → find fuel m URL = .ok (none, m)) ∧
    (∀ xs a ys, addrs = xs ++ a :: ys → (∀ x ∈ xs, urlAt m.heap x ≠ some URL) →
      urlAt m.heap a = some URL →
      ∃ m1, find fuel m URL = .ok (some a, m1) ∧ Rep m1 (a :: (xs ++ ys)) ∧
        m1.list.first = some a ∧ m1.list.last = (a :: (xs ++ ys)).getLast? ∧
        m1.list.size = m.list.size ∧ ∀ k, itemAt m1.heap k = itemAt m.heap k) := by
  constructor
  · intro hno
    unfold find
    rw [find_loop_absent URL addrs fuel hrep.2 hno hfuel]
  · intro xs a ys hsplit hno hu
    subst hsplit
    have hlen : xs.length < fuel := by
      have h1 : (xs ++ a :: ys).length = xs.length + (ys.length + 1) := by
        rw [List.length_append, List.length_cons]
      omega
    obtain ⟨m1, hrel, hrep1, hsz, hitems⟩ := find_relink_spec m xs ys a hrep
    refine ⟨m1, ?_, hrep1, hrep1.2.1, DL_last_eq _ hrep1.2, hsz, hitems⟩
    unfold find
    rw [find_loop_found URL xs a ys fuel hrep.2 hno hu hlen]
    dsimp only
    rw [hrel]

/-- Witness for C25: looking up `a`, the last of the three items of `threeMem`,
moves block 1 to the front. -/
theorem find_moves_to_front_witness :
    ∃ m1, find 3 threeMem "a".toList = .ok (some 1, m1) ∧ Rep m1 [1, 3, 2] ∧
      m1.list.first = some 1 ∧ m1.list.last = some 2 ∧ m1.list.size = 600 := by
  obtain ⟨m1, h1, h2, h3, h4, h5, _⟩ :=
    (find_moves_to_front 3 threeMem "a".toList [3, 2, 1]
      ⟨by decide, rfl, _, rfl, rfl, rfl, _, rfl, rfl, rfl, _, rfl, rfl, rfl, rfl⟩
      (by decide)).2 [3, 2] 1 [] rfl (by decide) (by decide)
  exact ⟨m1, h1, h2, h3, h4, h5.trans (by decide)⟩

end Proxy

namespace Proxy

/-! ## C26: `cache_URL` -/

theorem sizeAt_of_block {h : Nat → Option CachedItem} {a : Nat} {it : CachedItem}
    (ha : h a = some it) : sizeAt h a = it.size := by
  simp only [sizeAt, itemAt, ha]

theorem sizeAt_congr {h h1 : Nat → Option CachedItem} {a : Nat}
    (he : itemAt h1 a = itemAt h a) : sizeAt h1 a = sizeAt h a := by
  simp only [sizeAt, he]

theorem totalSize_congr {h h1 : Nat → Option CachedItem} (l : List Nat)
    (he : ∀ a ∈ l, itemAt h1 a = itemAt h a) : totalSize h1 l = totalSize h l := by
  induction l with
  | nil => rfl
  | cons a rest ih =>
    unfold totalSize at ih ⊢
    rw [List.map_cons, List.map_cons, List.sum_cons, List.sum_cons,
      sizeAt_congr (he a (List.mem_cons_self _ _)),
      ih (fun k hk => he k (List.mem_cons_of_mem _ hk))]

theorem totalSize_snoc (h : Nat → Option CachedItem) (l : List Nat) (z : Nat) :
    totalSize h (l ++ [z]) = totalSize h l + sizeAt h z := by
  unfold totalSize
  rw [List.map_append, List.sum_append, List.map_singleton, List.sum_singleton]

theorem totalSize_cons (h : Nat → Option CachedItem) (l : List Nat) (z : Nat) :
    totalSize h (z :: l) = sizeAt h z + totalSize h l := by
  unfold totalSize
  rw [List.map_cons, List.sum_cons]

/-- The loop that makes room, on a cache whose items are no larger than
`MAX_OBJECT_SIZE`, with `MAX_CACHE_SIZE` at least twice that bound: it ends
normally, the blocks left are a prefix of the list, and the new object fits. -/
theorem evict_spec (MO MC size : Nat) (hconst : 2 * MO ≤ MC) (hsz : size ≤ MO) :
    ∀ (fuel : Nat) (m : Mem) (addrs : List Nat),
      Rep m addrs → m.list.size = totalSize m.heap addrs →
      (∀ a ∈ addrs, sizeAt m.heap a ≤ MO) → addrs.length ≤ fuel →
      ∃ m1 kept, evict MC size fuel m = .ok m1 ∧ kept <+: addrs ∧ Rep m1 kept ∧
        m1.list.size = totalSize m1.heap kept ∧ m1.list.size + size ≤ MC ∧
        (∀ a ∈ kept, itemAt m1.heap a = itemAt m.heap a) ∧
        (∀ k, k ∉ addrs → m1.heap k = m.heap k) := by
  intro fuel
  induction fuel with
  | zero =>
    intro m addrs hrep htot _ hf
    have hnil : addrs = [] := List.length_eq_zero.mp (Nat.le_zero.mp hf)
    subst hnil
    have h0 : m.list.size = 0 := htot
    refine ⟨m, [], ?_, List.prefix_refl _, hrep, htot, by omega, fun _ _ => rfl,
      fun _ _ => rfl⟩
    unfold evict
    rw [if_neg (by omega)]
  | succ fuel ih =>
    intro m addrs hrep htot hitems hf
    by_cases hcond : m.list.size + size > MC
    · -- the list has at least two items
      rcases nil_or_snoc addrs with rfl | ⟨init, z, rfl⟩
      · have h0 : m.list.size = 0 := htot
        omega
      rw [totalSize_snoc] at htot
      have hzle := hitems z (List.mem_append_right _ (List.mem_singleton_self z))
      rcases nil_or_snoc init with rfl | ⟨init1, y, rfl⟩
      · have h0 : totalSize m.heap [] = 0 := rfl
        rw [h0] at htot
        omega
      obtain ⟨hnd, hdl⟩ := hrep
      have hndi : (init1 ++ [y]).Nodup := (List.nodup_append.mp hnd).1
      have hzni : z ∉ init1 ++ [y] := fun e =>
        (List.nodup_append.mp hnd).2.2 e (List.mem_singleton_self z)
      obtain ⟨mid, midlast, hdi, hdz⟩ := DL_split (init1 ++ [y]) [z] hdl
      obtain ⟨hmid, zi, hz, hzp, _, hlast⟩ := hdz
      subst hmid
      have hml : midlast = some y := DL_last init1 y hdi
      obtain ⟨yi, hy, hnew⟩ := DL_set_after init1 y none hdi hndi
      have hzs : sizeAt m.heap z = zi.size := sizeAt_of_block hz
      have hyz : y ≠ z := fun e =>
        hzni (by rw [← e]; exact List.mem_append_right _ (List.mem_singleton_self y))
      have hitem1 : ∀ k, k ≠ z →
          itemAt (store (store m.heap y (some { yi with next := none })) z none) k =
            itemAt m.heap k := by
        intro k hk
        have e1 : itemAt (store (store m.heap y (some { yi with next := none })) z none) k =
            itemAt (store m.heap y (some { yi with next := none })) k := by
          unfold itemAt
          rw [store_other _ _ hk]
        rw [e1]
        refine itemAt_store hy ?_ ?_ ?_ k <;> rfl
      have hrep1 : Rep { heap := store (store m.heap y (some { yi with next := none })) z none,
                         list := { size := m.list.size - zi.size, first := m.list.first,
                                   last := zi.prev } } (init1 ++ [y]) := by
        refine ⟨hndi, ?_⟩
        dsimp only
        rw [hzp]
        refine DL_congr _ ?_ hnew
        intro k hk
        have hkz : k ≠ z := fun e => hzni (e ▸ hk)
        exact store_other _ _ hkz
      have htot1 : m.list.size - zi.size =
          totalSize (store (store m.heap y (some { yi with next := none })) z none)
            (init1 ++ [y]) := by
        rw [totalSize_congr _ (fun k hk => hitem1 k (fun e => hzni (e ▸ hk)))]
        omega
      have hitems1 : ∀ a ∈ init1 ++ [y],
          sizeAt (store (store m.heap y (some { yi with next := none })) z none) a ≤ MO := by
        intro k hk
        rw [sizeAt_congr (hitem1 k (fun e => hzni (e ▸ hk)))]
        exact hitems k (List.mem_append_left _ hk)
      have hlen : (init1 ++ [y]).length ≤ fuel := by
        have h1 : (init1 ++ [y] ++ [z]).length = (init1 ++ [y]).length + 1 := by
          rw [List.length_append, List.length_singleton]
        omega
      obtain ⟨m1, kept, hev, hpre, hrepk, htotk, hfit, hitemk, hframe⟩ :=
        ih _ (init1 ++ [y]) hrep1 htot1 hitems1 hlen
      refine ⟨m1, kept, ?_, hpre.trans (List.prefix_append _ _), hrepk, htotk, hfit, ?_, ?_⟩
      · unfold evict
        rw [if_pos hcond, hlast]
        dsimp only
        rw [hz]
        dsimp only
        rw [if_neg (by omega), hzp, hml, setNext_some hy]
        dsimp only
        rw [← hml, ← hzp]
        exact hev
      · intro a ha
        have hain : a ∈ init1 ++ [y] := hpre.subset ha
        rw [hitemk a ha]
        exact hitem1 a (fun e => hzni (e ▸ hain))
      · intro k hk
        have hk1 : k ∉ init1 ++ [y] := fun e => hk (List.mem_append_left _ e)
        have hkz : k ≠ z := fun e =>
          hk (by rw [e]; exact List.mem_append_right _ (List.mem_singleton_self z))
        have hky : k ≠ y := fun e =>
          hk1 (by rw [e]; exact List.mem_append_right _ (List.mem_singleton_self y))
        have h1 := hframe k hk1
        dsimp only at h1
        rw [h1, store_other _ _ hkz, store_other _ _ hky]
    · refine ⟨m, addrs, ?_, List.prefix_refl _, hrep, htot, by omega, fun _ _ => rfl,
        fun _ _ => rfl⟩
      unfold evict
      rw [if_neg hcond]

/-- C26 as stated fails.  With `MAX_OBJECT_SIZE` 102400 and `MAX_CACHE_SIZE`
1049000, the cache with the single item of 1000000 bytes has a `size` field equal
to the sum of its items' sizes and at most `MAX_CACHE_SIZE`, and the object has
just `MAX_OBJECT_SIZE` bytes; the loop deletes the only node and then writes
`list->last->next` through `NULL`. -/
theorem cache_URL_evicts_only_item :
    Rep bigItemMem [1] ∧
    bigItemMem.list.size = totalSize bigItemMem.heap [1] ∧
    bigItemMem.list.size ≤ 1049000 ∧
    bigItemMem.heap 2 = none ∧
    (102400 : Nat) ≤ 102400 ∧
    (cache_URL 102400 1049000 2 bigItemMem "b".toList [] 102400 (some 2)).faulted = true :=
  ⟨⟨by decide, rfl, _, rfl, rfl, rfl, rfl⟩, by decide, by decide, by decide, by decide,
    by decide⟩

/-- C26: let `MAX_CACHE_SIZE` be at least twice `MAX_OBJECT_SIZE`, let the memory
hold the cache whose items are the blocks at `addrs`, each of size at most
`MAX_OBJECT_SIZE`, with the field `size` equal to the sum of their sizes, let `p`
be a block not in use and let the fuel cover the length of the list.  For an
object of at most `MAX_OBJECT_SIZE` bytes, `cache_URL` ends normally; afterwards
the new item is the first item, the items behind it are a prefix of the old list
with their url, headers and size unchanged, the field `size` equals the sum of
the items' sizes and is at most `MAX_CACHE_SIZE`, and every item is again of size
at most `MAX_OBJECT_SIZE`.  For a larger object the memory is left as it is. -/
theorem cache_URL_contract (MAX_OBJECT_SIZE MAX_CACHE_SIZE fuel : Nat) (m : Mem)
    (URL headers : List Char) (size p : Nat) (addrs : List Nat)
    (hconst : 2 * MAX_OBJECT_SIZE ≤ MAX_CACHE_SIZE)
    (hrep : Rep m addrs) (hsize : m.list.size = totalSize m.heap addrs)
    (hitems : ∀ a ∈ addrs, sizeAt m.heap a ≤ MAX_OBJECT_SIZE)
    (hfresh : m.heap p = none) (hfuel : addrs.length ≤ fuel) :
    (size ≤ MAX_OBJECT_SIZE →
      ∃ m1 kept,
        cache_URL MAX_OBJECT_SIZE MAX_CACHE_SIZE fuel m URL headers size (some p) = .ok m1 ∧
        kept <+: addrs ∧ Rep m1 (p :: kept) ∧ m1.list.first = some p ∧
        itemAt m1.heap p = some (URL, headers, size) ∧
        (∀ a ∈ kept, itemAt m1.heap a = itemAt m.heap a) ∧
        m1.list.size = totalSize m1.heap (p :: kept) ∧ m1.list.size ≤ MAX_CACHE_SIZE ∧
        (∀ a ∈ p :: kept, sizeAt m1.heap a ≤ MAX_OBJECT_SIZE)) ∧
    (MAX_OBJECT_SIZE < size →
      cache_URL MAX_OBJECT_SIZE MAX_CACHE_SIZE fuel m URL headers size (some p) = .ok m) := by
  constructor
  · intro hsz
    have hpn : p ∉ addrs := by
      intro hp
      obtain ⟨it, hit⟩ := DL_alloc addrs hrep.2 p hp
      rw [hfresh] at hit
      cases hit
    have hitem0 : ∀ k, k ≠ p →
        itemAt (store m.heap p (some (CachedItem.mk URL headers size none none))) k =
          itemAt m.heap k := by
      intro k hk
      unfold itemAt
      rw [store_other _ _ hk]
    have hrep0 : Rep { heap := store m.heap p (some (CachedItem.mk URL headers size none none)),
                       list := m.list } addrs := by
      refine ⟨hrep.1, DL_congr addrs ?_ hrep.2⟩
      intro k hk
      exact store_other _ _ (fun e => hpn (e ▸ hk))
    have htot0 : m.list.size =
        totalSize (store m.heap p (some (CachedItem.mk URL headers size none none))) addrs := by
      rw [totalSize_congr _ (fun k hk => hitem0 k (fun e => hpn (e ▸ hk)))]
      exact hsize
    have hitems0 : ∀ a ∈ addrs,
        sizeAt (store m.heap p (some (CachedItem.mk URL headers size none none))) a ≤
          MAX_OBJECT_SIZE := by
      intro k hk
      rw [sizeAt_congr (hitem0 k (fun e => hpn (e ▸ hk)))]
      exact hitems k hk
    obtain ⟨m1, kept, hev, hpre, hrepk, htotk, hfit, hitemk, hframe⟩ :=
      evict_spec MAX_OBJECT_SIZE MAX_CACHE_SIZE size hconst hsz fuel _ addrs hrep0 htot0
        hitems0 hfuel
    have hp1 : m1.heap p = some (CachedItem.mk URL headers size none none) := by
      rw [hframe p hpn]
      exact store_same _ _ _
    have hpk : p ∉ kept := fun e => hpn (hpre.subset e)
    obtain ⟨m2, hins, hdl2, hsz2, hitem2⟩ :=
      insert_front_spec m1.heap m1.list p _ kept hrepk.2 hrepk.1 hpk hp1 rfl rfl
    have hitp : itemAt m2.heap p = some (URL, headers, size) := by
      rw [hitem2 p]
      simp only [itemAt, hp1]
    have hitk : ∀ a ∈ kept, itemAt m2.heap a = itemAt m.heap a := by
      intro a ha
      rw [hitem2 a, hitemk a ha]
      exact hitem0 a (fun e => hpk (e ▸ ha))
    have hsp : sizeAt m2.heap p = size := by
      simp only [sizeAt, hitp]
    have htk : totalSize m2.heap kept = totalSize m1.heap kept :=
      totalSize_congr kept (fun a _ => hitem2 a)
    refine ⟨{ heap := m2.heap,
              list := { size := m2.list.size + size, first := m2.list.first,
                        last := m2.list.last } },
      kept, ?_, hpre, ⟨List.nodup_cons.mpr ⟨hpk, hrepk.1⟩, hdl2⟩, hdl2.1, hitp, hitk,
      ?_, ?_, ?_⟩
    · unfold cache_URL
      rw [if_neg (by omega)]
      dsimp only
      rw [hev]
      dsimp only
      rw [hins]
    · dsimp only
      rw [totalSize_cons, hsp, htk, hsz2, htotk]
      omega
    · dsimp only
      rw [hsz2]
      omega
    · intro a ha
      dsimp only
      rcases List.mem_cons.mp ha with rfl | hk
      · rw [hsp]
        exact hsz
      · rw [sizeAt_congr (hitk a hk)]
        exact hitems a (hpre.subset hk)
  · intro hbig
    unfold cache_URL
    rw [if_pos hbig]

/-- Witness for C26 (amended): an object of 50 bytes is cached as block 4 in front
of the three items of `threeMem`. -/
theorem cache_URL_contract_witness :
    ∃ m1 kept,
      cache_URL 102400 1049000 3 threeMem "d".toList [] 50 (some 4) = .ok m1 ∧
      kept <+: [3, 2, 1] ∧ Rep m1 (4 :: kept) ∧ m1.list.first = some 4 ∧
      itemAt m1.heap 4 = some ("d".toList, [], 50) ∧
      m1.list.size = totalSize m1.heap (4 :: kept) ∧ m1.list.size ≤ 1049000 := by
  obtain ⟨m1, kept, h1, h2, h3, h4, h5, _, h7, h8, _⟩ :=
    (cache_URL_contract 102400 1049000 3 threeMem "d".toList [] 50 4 [3, 2, 1] (by decide)
      ⟨by decide, rfl, _, rfl, rfl, rfl, _, rfl, rfl, rfl, _, rfl, rfl, rfl, rfl⟩
      (by decide) (by decide) (by decide) (by decide)).1 (by decide)
  exact ⟨m1, kept, h1, h2, h3, h4, h5, h7, h8⟩

end Proxy

namespace Proxy

/-! ## C27: `parse_url` -/

theorem strchr_absent (c : Char) (l : List Char) (h : c ∉ l) : strchr c l = none := by
  induction l with
  | nil => rfl
  | cons x rest ih =>
    have hx : ¬ x = c := fun e => h (e ▸ List.mem_cons_self _ _)
    have hr : c ∉ rest := fun e => h (List.mem_cons_of_mem _ e)
    unfold strchr
    rw [if_neg hx, ih hr]

theorem strchr_first (c : Char) (l r : List Char) (h : c ∉ l) :
    strchr c (l ++ c :: r) = some (l, c :: r) := by
  induction l with
  | nil =>
    show strchr c (c :: r) = some ([], c :: r)
    unfold strchr
    rw [if_pos rfl]
  | cons x rest ih =>
    have hx : ¬ x = c := fun e => h (e ▸ List.mem_cons_self _ _)
    have hr : c ∉ rest := fun e => h (List.mem_cons_of_mem _ e)
    show strchr c (x :: (rest ++ c :: r)) = some (x :: rest, c :: r)
    unfold strchr
    rw [if_neg hx, ih hr]

theorem scheme_length (scheme : List Char)
    (hs : scheme.map Char.toLower = "http://".toList) : scheme.length = 7 := by
  have h := congrArg List.length hs
  rw [List.length_map] at h
  exact h

/-- A URL that fits the buffer and is made of a scheme that reads `http://` up to
the case of letters, a host without `:` and `/`, an optional port without `/`
after `:` and an optional rest after `/` is split into that host, the port (or
`80`) and the path `/` + rest (or `/`), and `parse_url` returns 1. -/
theorem parse_url_ok (scheme host : List Char) (port rest : Option (List Char))
    (hs : scheme.map Char.toLower = "http://".toList)
    (hh1 : '/' ∉ host) (hh2 : ':' ∉ host) (hp : ∀ p, port = some p → '/' ∉ p)
    (hlen : (assemble scheme host port rest).length < 1024) :
    parse_url (assemble scheme host port rest) =
      some (.returns1 host (port.getD "80".toList) (pathOf rest)) := by
  have hsl := scheme_length scheme hs
  have h7 : "http://".length = 7 := by decide
  have hcase : strncasecmp (assemble scheme host port rest) "http://".toList "http://".length
      = 0 := by
    unfold strncasecmp
    rw [if_pos]
    rw [h7]
    have ht : (assemble scheme host port rest).take 7 = scheme := by
      unfold assemble
      rw [List.append_assoc, List.append_assoc, List.take_left' hsl]
    rw [ht, hs]
    decide
  have hdrop : (assemble scheme host port rest).drop "http://".length =
      (host ++ portPart port) ++ restPart rest := by
    rw [h7]
    unfold assemble
    rw [List.append_assoc, List.append_assoc, List.drop_left' hsl, List.append_assoc]
  have hnoslash : '/' ∉ host ++ portPart port := by
    intro hmem
    rcases List.mem_append.mp hmem with h1 | h2
    · exact hh1 h1
    · cases port with
      | none => cases h2
      | some p =>
        rcases List.mem_cons.mp h2 with h3 | h4
        · exact absurd h3 (by decide)
        · exact hp p rfl h4
  unfold parse_url
  rw [if_neg (by omega), hcase, if_neg (by simp), hdrop]
  cases rest with
  | none =>
    have e1 : host ++ portPart port ++ restPart none = host ++ portPart port :=
      List.append_nil _
    rw [e1]
    dsimp only
    rw [strchr_absent '/' _ hnoslash]
    dsimp only
    cases port with
    | none =>
      have e2 : host ++ portPart none = host := List.append_nil _
      rw [e2, strchr_absent ':' host hh2]
      rfl
    | some p =>
      have e2 : host ++ portPart (some p) = host ++ ':' :: p := rfl
      rw [e2, strchr_first ':' host p hh2]
      rfl
  | some r =>
    have e1 : host ++ portPart port ++ restPart (some r) = (host ++ portPart port) ++ '/' :: r :=
      rfl
    rw [e1]
    dsimp only
    rw [strchr_first '/' _ r hnoslash]
    dsimp only
    cases port with
    | none =>
      have e2 : host ++ portPart none = host := List.append_nil _
      rw [e2, strchr_absent ':' host hh2]
      rfl
    | some p =>
      have e2 : host ++ portPart (some p) = host ++ ':' :: p := rfl
      rw [e2, strchr_first ':' host p hh2]
      rfl

/-- A URL that fits the buffer and does not start with `http://`, compared without
regard to the case of letters, makes `parse_url` return 0. -/
theorem parse_url_other_scheme (url : List Char) (hlen : url.length < 1024)
    (hs : (url.take 7).map Char.toLower ≠ "http://".toList) :
    parse_url url = some .returns0 := by
  have h7 : "http://".length = 7 := by decide
  have hcase : strncasecmp url "http://".toList "http://".length ≠ 0 := by
    unfold strncasecmp
    rw [h7, if_neg]
    · decide
    · intro e
      apply hs
      rw [e]
      decide
  unfold parse_url
  rw [if_neg (by omega), if_pos hcase]

theorem longUrl_length : longUrl.length = 1024 := by
  unfold longUrl
  rw [List.length_append, List.length_replicate]
  decide

/-- C27: the URL `http://` + 1017 times `a` has the form the claim describes
(host `aaa...`, no port, no rest) and 1024 characters; `strcpy` copies it and its
terminator into the 1024 bytes of `url_buf`, one byte too many, and `parse_url`
has no defined result.  The same URL without its last character is split as the
claim says. -/
theorem parse_url_long_url :
    longUrl = assemble "http://".toList (List.replicate 1017 'a') none none ∧
    longUrl.length = 1024 ∧
    parse_url longUrl = none ∧
    parse_url (assemble "http://".toList (List.replicate 1016 'a') none none) =
      some (.returns1 (List.replicate 1016 'a') "80".toList "/".toList) := by
  refine ⟨?_, longUrl_length, ?_, ?_⟩
  · unfold longUrl assemble portPart restPart
    simp only [List.append_nil]
  · unfold parse_url
    rw [longUrl_length, if_pos (by decide)]
  · have hnot : ∀ c : Char, c ≠ 'a' → c ∉ List.replicate 1016 'a' := by
      intro c hc hmem
      exact hc (List.eq_of_mem_replicate hmem)
    refine parse_url_ok "http://".toList (List.replicate 1016 'a') none none (by decide)
      (hnot '/' (by decide)) (hnot ':' (by decide)) (fun p hp => by cases hp) ?_
    unfold assemble portPart restPart
    simp only [List.append_nil]
    rw [List.length_append, List.length_replicate]
    decide

end Proxy
